import Mathlib

/-!
Verification of the fin-tax-bot ingestion-and-rendering pipeline.

This file gives a shallow embedding, in Lean 4, of the core functions of the
repository (whitelist admission, the staged fetch ladder, the tax body
validity gate, image resolution, block collection, Ukrainian date parsing,
ingest deduplication and the preview renderer), together with theorems about
the embedded definitions.

Python strings are represented as `List Char` (`Str`); Python `None`/values
become `Option`; network and database effects are passed explicitly as
oracle arguments or explicit state.  Machine integers do not occur (Python
integers are unbounded), so `Nat`/`Int` are used directly.
-/

set_option maxRecDepth 100000
set_option maxHeartbeats 1000000

namespace FinTax

/-- Python strings, represented as lists of unicode scalar characters. -/
abbrev Str := List Char

/-- Convert a Lean string literal to the `Str` representation. -/
def str (s : String) : Str := s.data

/-- Python whitespace test (models `str.isspace` / `\s` for the ASCII
whitespace characters that occur in this code base). -/
def isWs (c : Char) : Bool := c = ' ' ∨ c = '\t' ∨ c = '\n' ∨ c = '\r'

/-- Python `str.lstrip()`. -/
def pyLStrip (s : Str) : Str := s.dropWhile (fun c => isWs c)

/-- Python `str.rstrip()`. -/
def pyRStrip (s : Str) : Str := (s.reverse.dropWhile (fun c => isWs c)).reverse

/-- Python `str.strip()`. -/
def pyStrip (s : Str) : Str := pyRStrip (pyLStrip s)

/-- Python `str.rstrip(chars)`: drop trailing characters from the given set. -/
def pyRStripSet (s : Str) (set : Str) : Str :=
  (s.reverse.dropWhile (fun c => set.contains c)).reverse

/-- Python `str.lstrip(chars)`. -/
def pyLStripSet (s : Str) (set : Str) : Str := s.dropWhile (fun c => set.contains c)

/-- Python `str.strip(chars)`. -/
def pyStripSet (s : Str) (set : Str) : Str := pyRStripSet (pyLStripSet s set) set

/-- Python `needle in hay` substring test. -/
def containsSub : Str → Str → Bool
  | [], w => w.isPrefixOf []
  | c :: t, w => w.isPrefixOf (c :: t) || containsSub t w

/-- Python `str.startswith`. -/
def startsWith (s p : Str) : Bool := p.isPrefixOf s

/-- Python `str.endswith`. -/
def endsWith (s p : Str) : Bool := p.isSuffixOf s

/-- Split a string at every occurrence of the character `c` (Python
`str.split(c)`), keeping empty parts. -/
def splitOnChar (c : Char) : Str → List Str
  | [] => [[]]
  | x :: rest =>
    let ps := splitOnChar c rest
    if x = c then [] :: ps
    else match ps with
      | [] => [[x]]
      | p :: ps => (x :: p) :: ps

/-- Python `str.split()` with no argument: runs of whitespace separate
tokens, empty tokens are dropped and ends are stripped. -/
def pySplitWs (s : Str) : List Str :=
  ((splitOnChar ' ' (s.map (fun c => if isWs c then ' ' else c))).filter (fun p => p ≠ []))

/-- Python `sep.join(parts)`. -/
def joinWith (sep : Str) : List Str → Str
  | [] => []
  | [p] => p
  | p :: rest => p ++ sep ++ joinWith sep rest

/-- `" ".join(s.split())`: whitespace normalization used across the code base. -/
def normWs (s : Str) : Str := joinWith [' '] (pySplitWs s)

/-- Python `str.lower()` restricted to ASCII and the Cyrillic block, the
alphabets that occur in this code base. -/
def pyLowerChar (c : Char) : Char :=
  if 'A' ≤ c ∧ c ≤ 'Z' then Char.ofNat (c.toNat + 32)
  else if 0x410 ≤ c.toNat ∧ c.toNat ≤ 0x42F then Char.ofNat (c.toNat + 0x20)
  else if 0x400 ≤ c.toNat ∧ c.toNat ≤ 0x40F then Char.ofNat (c.toNat + 0x50)
  else if 0x460 ≤ c.toNat ∧ c.toNat ≤ 0x4BF ∧ c.toNat % 2 = 0 then Char.ofNat (c.toNat + 1)
  else c

/-- Python `str.lower()`. -/
def pyLower (s : Str) : Str := s.map pyLowerChar

/-- Python `str.casefold()`: on ASCII and Cyrillic it agrees with `lower`. -/
def pyCasefold (s : Str) : Str := pyLower s

/-- Python `str.isupper()` for a single character, for ASCII and Cyrillic. -/
def pyIsUpperChar (c : Char) : Bool :=
  ('A' ≤ c ∧ c ≤ 'Z') ∨ (0x400 ≤ c.toNat ∧ c.toNat ≤ 0x42F) ∨
    (0x460 ≤ c.toNat ∧ c.toNat ≤ 0x4BF ∧ c.toNat % 2 = 0)

/-- ASCII digit test (Python `\d` over the inputs of this code base). -/
def isDigitCh (c : Char) : Bool := '0' ≤ c ∧ c ≤ '9'

/-- Numeric value of a digit list (Python `int(...)` on a digit string). -/
def digitsToNat (s : Str) : Nat := s.foldl (fun acc c => acc * 10 + (c.toNat - '0'.toNat)) 0

/-- Python `str.replace(old, new)` for a nonempty `old`, written with an
explicit fuel bound (the input length, always sufficient since each step
consumes at least one character) so that the definition evaluates by kernel
reduction. -/
def pyReplaceF : Nat → Str → Str → Str → Str
  | 0, s, _, _ => s
  | fuel + 1, s, old, new =>
    match s with
    | [] => []
    | c :: rest =>
      if old ≠ [] ∧ old.isPrefixOf (c :: rest) then
        new ++ pyReplaceF fuel ((c :: rest).drop old.length) old new
      else
        c :: pyReplaceF fuel rest old new

/-- Python `str.replace(old, new)`. -/
def pyReplace (s old new : Str) : Str := pyReplaceF s.length s old new

/- ===================================================================
   Admission whitelist (src/settings.py, src/jobs/fetch.py)
   =================================================================== -/

/-- Default value of `Settings.WHITELIST_LEVEL1` (src/settings.py lines 33-38). -/
def WHITELIST_LEVEL1 : Str :=
  str "oecd.org, europa.eu, eur-lex.europa.eu, zakon.rada.gov.ua, bank.gov.ua, diia.gov.ua, tax.gov.ua, minfin.gov.ua, minjust.gov.ua, reyestr.court.gov.ua, curia.europa.eu, irs.gov, gov.uk, hmrc.gov.uk, bundesfinanzministerium.de, agenziaentrate.gov.it, tax.gov.ae, cbu.ae, ec.europa.eu"

/-- Embeds `_parse_list` (src/settings.py lines 5-8): split the raw setting on
commas, strip each entry, drop empties. -/
def parse_list (raw : Str) : List Str :=
  ((splitOnChar ',' raw).map pyStrip).filter (fun x => x ≠ [])

/-- `Settings.whitelist_level1` (src/settings.py lines 63-65). -/
def whitelist_level1 : List Str := parse_list WHITELIST_LEVEL1

/-- Embeds `_in_whitelist_lvl1` (src/jobs/fetch.py lines 137-138):
`any(domain.endswith(d.strip()) for d in settings.whitelist_level1)`. -/
def in_whitelist_lvl1 (domain : Str) : Bool :=
  whitelist_level1.any (fun d => endsWith domain (pyStrip d))

/- ===================================================================
   Staged fetch ladder (src/jobs/staged_fetch.py)
   =================================================================== -/

/-- Embeds `_StepResult` (src/jobs/staged_fetch.py lines 36-41). -/
structure StepResult where
  html : Option Str
  status : Option Nat
  executed : Bool
  error : Option Str := none
deriving DecidableEq, Repr

/-- Outcome of one HTTP round trip, passed explicitly to the embedded fetch
steps in place of the network call: either an exception message or a
(status, body) pair. -/
abbrev HttpOutcome := Except Str (Nat × Str)

/-- Embeds `_httpx_fetch` (src/jobs/staged_fetch.py lines 149-170) with the
network outcome passed explicitly: an exception yields an error result,
otherwise html is kept only for `status == 200 and response.text`. -/
def httpx_fetch (outcome : HttpOutcome) : StepResult :=
  match outcome with
  | .error exc => ⟨none, none, true, some exc⟩
  | .ok (status, text) =>
    if status = 200 ∧ text ≠ [] then ⟨some text, some status, true, none⟩
    else ⟨none, some status, true, none⟩

/-- Embeds `_curl_cffi_fetch` (src/jobs/staged_fetch.py lines 173-211): not
executed when the library is absent; otherwise the same
`status == 200 and response.text` gate as the httpx steps. -/
def curl_cffi_fetch (hasCurlCffi : Bool) (outcome : HttpOutcome) : StepResult :=
  if ¬ hasCurlCffi then ⟨none, none, false, none⟩
  else match outcome with
    | .error exc => ⟨none, none, true, some exc⟩
    | .ok (status, text) =>
      if status = 200 ∧ text ≠ [] then ⟨some text, some status, true, none⟩
      else ⟨none, some status, true, none⟩

/-- Outcome of a headless browser navigation: exception message, or the
(optional) response status together with the rendered page content. -/
abbrev BrowserOutcome := Except Str (Option Nat × Str)

/-- Embeds `_playwright_fetch` (src/jobs/staged_fetch.py lines 214-249): not
executed when playwright is absent; on success it returns
`_StepResult(html=content, status=status, executed=True)` — the rendered
content is kept whatever the HTTP status was. -/
def playwright_fetch (hasPlaywright : Bool) (outcome : BrowserOutcome) : StepResult :=
  if ¬ hasPlaywright then ⟨none, none, false, none⟩
  else match outcome with
    | .error exc => ⟨none, none, true, some exc⟩
    | .ok (status, content) => ⟨some content, status, true, none⟩

/-- One recorded ladder attempt, mirroring the per-step log line of
`staged_fetch_html` (src/jobs/staged_fetch.py lines 271-280). -/
inductive Attempt where
  | skipped (label : Str)
  | status (label : Str) (code : Nat)
  | error (label : Str) (msg : Str)
  | completed (label : Str)
deriving DecidableEq, Repr

/-- The log line `staged_fetch_html` emits for an executed step. -/
def logEntry (label : Str) (r : StepResult) : Attempt :=
  match r.status with
  | some s => .status label s
  | none =>
    match r.error with
    | some e => .error label e
    | none => .completed label

/-- The step loop of `staged_fetch_html` (src/jobs/staged_fetch.py lines
264-285): skip non-executed steps, log each executed step, and return the
first truthy (non-`None`, non-empty) html. -/
def staged_fetch_go : List (Str × StepResult) → List Attempt → Option Str × List Attempt
  | [], log => (none, log.reverse)
  | (label, r) :: rest, log =>
    if ¬ r.executed then staged_fetch_go rest (.skipped label :: log)
    else
      let log := logEntry label r :: log
      match r.html with
      | some h => if h ≠ [] then (some h, log.reverse) else staged_fetch_go rest log
      | none => staged_fetch_go rest log

/-- Embeds `staged_fetch_html` (src/jobs/staged_fetch.py lines 252-285) over
the four step results, in the ladder's fixed order, returning the fetched
html (if any) and the ordered attempt log. -/
def staged_fetch_html (r1 r2 r3 r4 : StepResult) : Option Str × List Attempt :=
  staged_fetch_go
    [(str "httpx h2", r1), (str "httpx h1", r2), (str "curl_cffi", r3), (str "playwright", r4)] []

/-- `staged_fetch_html` with every step's network outcome passed explicitly,
composing the four embedded step functions exactly as the `steps` tuple of
src/jobs/staged_fetch.py lines 257-262 does. -/
def staged_fetch (hasCurlCffi hasPlaywright : Bool)
    (o1 o2 o3 : HttpOutcome) (o4 : BrowserOutcome) : Option Str × List Attempt :=
  staged_fetch_html (httpx_fetch o1) (httpx_fetch o2)
    (curl_cffi_fetch hasCurlCffi o3) (playwright_fetch hasPlaywright o4)

/-- Restatement of the C2 claim sentence for the orchestrator, written from
the spec's words: keep only the first step result that has non-empty HTML
(the claim additionally asserts such a step always carries a success
status). -/
def specFirstHtml (steps : List StepResult) : Option Str :=
  match steps with
  | [] => none
  | r :: rest =>
    if r.executed then
      match r.html with
      | some h => if h ≠ [] then some h else specFirstHtml rest
      | none => specFirstHtml rest
    else specFirstHtml rest

/- ===================================================================
   Tax body validity gate (src/services/tax_article.py)
   =================================================================== -/

/-- One character of the `WORDS_PATTERN` class `[\wЀ-ӿ]`
(src/services/tax_article.py line 45); `\w` modelled for the ASCII
alphanumerics and underscore that occur in this code base, the explicit
range covers Cyrillic. -/
def isWordChar (c : Char) : Bool :=
  isDigitCh c ∨ ('a' ≤ c ∧ c ≤ 'z') ∨ ('A' ≤ c ∧ c ≤ 'Z') ∨ c = '_' ∨
    (0x400 ≤ c.toNat ∧ c.toNat ≤ 0x4FF)

/-- Maximal runs of word characters, accumulating the current run. -/
def wordRunsAux : Str → Str → List Str
  | [], cur => if cur = [] then [] else [cur.reverse]
  | c :: rest, cur =>
    if isWordChar c then wordRunsAux rest (c :: cur)
    else if cur = [] then wordRunsAux rest []
    else cur.reverse :: wordRunsAux rest []

/-- Maximal runs of word characters, in order (the non-overlapping greedy
matches of `[\wЀ-ӿ]+`). -/
def wordRuns (s : Str) : List Str := wordRunsAux s []

/-- `WORDS_PATTERN.findall`: the maximal word-character runs of length at
least 3 (`{3,}` forces ≥ 3; greedy matching returns each full run). -/
def words_findall (s : Str) : List Str :=
  (wordRuns s).filter (fun r => 3 ≤ r.length)

/-- Embeds `_first_words_match` (src/services/tax_article.py lines 338-348):
take the first 10 significant words of the lowered text and require at least
`max(3, len(sample) // 2)` of them to occur in the lowered html. -/
def first_words_match (text html : Str) : Bool :=
  let words := words_findall (pyLower text)
  if words = [] then false
  else
    let sample := words.take 10
    if sample = [] then false
    else
      let htmlLower := pyLower html
      let matchCount := (sample.filter (fun w => containsSub htmlLower w)).length
      let required := max 3 (sample.length / 2)
      decide (required ≤ matchCount)

/-- Embeds `_is_valid` (src/services/tax_article.py lines 351-356). -/
def is_valid (text : Str) (paragraphs : Nat) (html : Str) : Bool :=
  if text = [] then false
  else if text.length < 250 ∧ paragraphs < 2 then false
  else first_words_match text html

/-- The validity gate exactly as the C3 claim words it: length ≥ 250 with at
least 2 content blocks, OR at least 3 of the first ~8 significant words
occur in the source HTML. -/
def c3_claimed_gate (text : Str) (blocks : Nat) (html : Str) : Bool :=
  (decide (250 ≤ text.length) && decide (2 ≤ blocks)) ||
    (let sample := (words_findall (pyLower text)).take 8
     decide (3 ≤ (sample.filter (fun w => containsSub (pyLower html) w)).length))

/-- The validity gate as amended: non-empty text, AND (length ≥ 250 OR at
least 2 paragraph blocks), AND at least `max(3, n / 2)` of the first
`n ≤ 10` significant words occur in the lowered HTML. -/
def c3_amended_gate (text : Str) (blocks : Nat) (html : Str) : Bool :=
  let sample := (words_findall (pyLower text)).take 10
  !decide (text = []) && (decide (250 ≤ text.length) || decide (2 ≤ blocks)) &&
    !decide (sample = []) &&
    decide (max 3 (sample.length / 2) ≤
      (sample.filter (fun w => containsSub (pyLower html) w)).length)

/- ===================================================================
   Calendar and time zones (models of Python datetime / zoneinfo, used by
   src/services/ukrainian_dates.py)
   =================================================================== -/

/-- Gregorian leap year. -/
def isLeap (y : Nat) : Bool := (y % 4 = 0 ∧ y % 100 ≠ 0) ∨ y % 400 = 0

/-- Days in a month of the proleptic Gregorian calendar. -/
def daysInMonth (y M : Nat) : Nat :=
  if M = 2 then (if isLeap y then 29 else 28)
  else if M = 4 ∨ M = 6 ∨ M = 9 ∨ M = 11 then 30
  else 31

/-- Days in all years before year `y` (proleptic Gregorian, year ≥ 1). -/
def daysBeforeYear (y : Nat) : Nat :=
  365 * (y - 1) + (y - 1) / 4 - (y - 1) / 100 + (y - 1) / 400

/-- Days in the months of year `y` before month `M`. -/
def daysBeforeMonth (y M : Nat) : Nat :=
  (List.range (M - 1)).foldl (fun acc i => acc + daysInMonth y (i + 1)) 0

/-- Python `date.toordinal()`: 0001-01-01 is day 1. -/
def toOrdinal (y M d : Nat) : Nat := daysBeforeYear y + daysBeforeMonth y M + d

/-- Python `date.weekday()`: Monday is 0; 0001-01-01 was a Monday. -/
def weekdayOf (y M d : Nat) : Nat := (toOrdinal y M d + 6) % 7

/-- Day of month of the last Sunday of the given month. -/
def lastSundayDay (y M : Nat) : Nat :=
  let last := daysInMonth y M
  last - (weekdayOf y M last + 1) % 7

/-- A naive date-time (the fields of a Python `datetime`). -/
structure DT where
  year : Nat
  month : Nat
  day : Nat
  hour : Nat
  minute : Nat
  second : Nat
deriving DecidableEq, Repr

/-- Time zone model: `Europe/Kyiv` (the `KYIV_TZ` of
src/services/ukrainian_dates.py line 8) or a fixed UTC offset in minutes
(ISO-8601 offsets; `fixedOffset 0` is UTC). -/
inductive Tz where
  | kyiv
  | fixedOffset (minutes : Int)
deriving DecidableEq, Repr

/-- An aware date-time. -/
structure AwareDT where
  dt : DT
  tz : Tz
deriving DecidableEq, Repr

/-- Whether Kyiv summer time (EEST, UTC+3) is in force at a local wall-clock
time; models the IANA `Europe/Kyiv` rules for the post-1996 years this code
handles: EU daylight saving between the last Sunday of March 03:00 local and
the last Sunday of October 04:00 local. -/
def kyivDstWall (dt : DT) : Bool :=
  if 4 ≤ dt.month ∧ dt.month ≤ 9 then true
  else if dt.month = 3 then
    let ls := lastSundayDay dt.year 3
    decide (ls < dt.day) || (decide (dt.day = ls) && decide (3 ≤ dt.hour))
  else if dt.month = 10 then
    let ls := lastSundayDay dt.year 10
    decide (dt.day < ls) || (decide (dt.day = ls) && decide (dt.hour < 4))
  else false

/-- UTC offset, in minutes, of an aware wall-clock time. -/
def offsetAt : Tz → DT → Int
  | .kyiv, dt => if kyivDstWall dt then 180 else 120
  | .fixedOffset m, _ => m

/-- Minutes since 1970-01-01T00:00 for a naive date-time (seconds ignored;
all conversions in this code shift by whole minutes). -/
def totalMinutes (dt : DT) : Int :=
  ((toOrdinal dt.year dt.month dt.day : Int) - 719163) * 1440 + dt.hour * 60 + dt.minute

/-- Inverse of the day count: civil date from days since 1970-01-01
(Howard Hinnant's algorithm, valid for the positive range used here). -/
def civilFromDays (z : Int) : Nat × Nat × Nat :=
  let z := (z + 719468).toNat
  let era := z / 146097
  let doe := z % 146097
  let yoe := (doe - doe / 1460 + doe / 36524 - doe / 146096) / 365
  let y := yoe + era * 400
  let doy := doe - (365 * yoe + yoe / 4 - yoe / 100)
  let mp := (5 * doy + 2) / 153
  let d := doy - (153 * mp + 2) / 5 + 1
  let m := if mp < 10 then mp + 3 else mp - 9
  (if m ≤ 2 then y + 1 else y, m, d)

/-- Naive date-time from minutes since 1970-01-01T00:00. -/
def fromTotalMinutes (m : Int) (sec : Nat) : DT :=
  let days := Int.fdiv m 1440
  let r := (Int.fmod m 1440).toNat
  let ymd := civilFromDays days
  ⟨ymd.1, ymd.2.1, ymd.2.2, r / 60, r % 60, sec⟩

/-- Whether Kyiv summer time is in force at a UTC instant (EU transitions
happen at 01:00 UTC on the last Sundays of March and October). -/
def kyivDstUtc (utcMin : Int) : Bool :=
  let dt := fromTotalMinutes utcMin 0
  if 4 ≤ dt.month ∧ dt.month ≤ 9 then true
  else if dt.month = 3 then
    let ls := lastSundayDay dt.year 3
    decide (ls < dt.day) || (decide (dt.day = ls) && decide (1 ≤ dt.hour))
  else if dt.month = 10 then
    let ls := lastSundayDay dt.year 10
    decide (dt.day < ls) || (decide (dt.day = ls) && decide (dt.hour < 1))
  else false

/-- UTC offset, in minutes, of a time zone at a UTC instant. -/
def offsetAtUtc : Tz → Int → Int
  | .kyiv, utcMin => if kyivDstUtc utcMin then 180 else 120
  | .fixedOffset m, _ => m

/-- Python `datetime.astimezone(target)`. -/
def astimezone (a : AwareDT) (target : Tz) : AwareDT :=
  let utc := totalMinutes a.dt - offsetAt a.tz a.dt
  ⟨fromTotalMinutes (utc + offsetAtUtc target utc) a.dt.second, target⟩

/-- Conversion of an aware date-time to the UTC instant it denotes. -/
def toUtc (a : AwareDT) : DT :=
  fromTotalMinutes (totalMinutes a.dt - offsetAt a.tz a.dt) a.dt.second

/-- Range validity of `datetime(year, month, day, hour, minute)` — Python
raises `ValueError` outside these ranges. -/
def mkValid (y M d h mi : Nat) (tz : Tz) : Option AwareDT :=
  if 1 ≤ y ∧ y ≤ 9999 ∧ 1 ≤ M ∧ M ≤ 12 ∧ 1 ≤ d ∧ d ≤ daysInMonth y M ∧ h ≤ 23 ∧ mi ≤ 59
  then some ⟨⟨y, M, d, h, mi, 0⟩, tz⟩
  else none

/- ===================================================================
   Ukrainian date parsing (src/services/ukrainian_dates.py)
   =================================================================== -/

/-- Take exactly `n` ASCII digits from the front. -/
def takeDigits (n : Nat) (s : Str) : Option (Str × Str) :=
  let d := s.take n
  if d.length = n ∧ d.all isDigitCh then some (d, s.drop n) else none

/-- Expect a specific character at the front. -/
def expectChar (c : Char) : Str → Option Str
  | x :: rest => if x = c then some rest else none
  | [] => none

/-- Match the ISO pattern
`\d{4}-\d{2}-\d{2}t\d{2}:\d{2}(?::\d{2})?(?:[+\-]\d{2}:?\d{2}|z)?`
(src/services/ukrainian_dates.py lines 61-64) at the head of the string,
returning the matched substring. -/
def matchIsoAt (s : Str) : Option Str := do
  let (y, s1) ← takeDigits 4 s
  let s2 ← expectChar '-' s1
  let (mo, s3) ← takeDigits 2 s2
  let s4 ← expectChar '-' s3
  let (d, s5) ← takeDigits 2 s4
  let s6 ← expectChar 't' s5
  let (h, s7) ← takeDigits 2 s6
  let s8 ← expectChar ':' s7
  let (mi, s9) ← takeDigits 2 s8
  let secPart : Str × Str :=
    match s9 with
    | ':' :: s10 =>
      match takeDigits 2 s10 with
      | some (se, s11) => (':' :: se, s11)
      | none => ([], s9)
    | _ => ([], s9)
  let tzPart : Str :=
    match secPart.2 with
    | 'z' :: _ => ['z']
    | c :: s12 =>
      if c = '+' ∨ c = '-' then
        match takeDigits 2 s12 with
        | some (hh, s13) =>
          match s13 with
          | ':' :: s14 =>
            match takeDigits 2 s14 with
            | some (mm, _) => c :: (hh ++ [':'] ++ mm)
            | none =>
              match takeDigits 2 s13 with
              | some (mm, _) => c :: (hh ++ mm)
              | none => []
          | _ =>
            match takeDigits 2 s13 with
            | some (mm, _) => c :: (hh ++ mm)
            | none => []
        | none => []
      else []
    | [] => []
  some (y ++ ['-'] ++ mo ++ ['-'] ++ d ++ ['t'] ++ h ++ [':'] ++ mi ++ secPart.1 ++ tzPart)

/-- `re.search` of the ISO pattern: leftmost match. -/
def findIso : Str → Option Str
  | [] => none
  | c :: rest =>
    match matchIsoAt (c :: rest) with
    | some m => some m
    | none => findIso rest

/-- Model of `datetime.fromisoformat` on strings of the shape produced by the
ISO pattern above (after `z` has been replaced by `+00:00`): parse the
components, validate ranges, attach the parsed fixed offset if present,
else leave the result naive (`none`). -/
def fromIso (s : Str) : Option (DT × Option Tz) := do
  let (y, s1) ← takeDigits 4 s
  let s2 ← expectChar '-' s1
  let (mo, s3) ← takeDigits 2 s2
  let s4 ← expectChar '-' s3
  let (d, s5) ← takeDigits 2 s4
  match s5 with
  | [] => none
  | _sep :: s6 => do
    let (h, s7) ← takeDigits 2 s6
    let s8 ← expectChar ':' s7
    let (mi, s9) ← takeDigits 2 s8
    let secRest : Str × Str :=
      match s9 with
      | ':' :: s10 =>
        match takeDigits 2 s10 with
        | some (se, s11) => (se, s11)
        | none => ([], s9)
      | _ => ([], s9)
    let se := if secRest.1 = [] then 0 else digitsToNat secRest.1
    let yv := digitsToNat y
    let mov := digitsToNat mo
    let dv := digitsToNat d
    let hv := digitsToNat h
    let miv := digitsToNat mi
    if 1 ≤ yv ∧ yv ≤ 9999 ∧ 1 ≤ mov ∧ mov ≤ 12 ∧ 1 ≤ dv ∧ dv ≤ daysInMonth yv mov ∧
        hv ≤ 23 ∧ miv ≤ 59 ∧ se ≤ 59 then
      match secRest.2 with
      | [] => some (⟨yv, mov, dv, hv, miv, se⟩, none)
      | c :: s12 =>
        if c = '+' ∨ c = '-' then do
          let (hh, s13) ← takeDigits 2 s12
          let s14 := match s13 with | ':' :: s14 => s14 | _ => s13
          let (mm, _) ← takeDigits 2 s14
          let hhv := digitsToNat hh
          let mmv := digitsToNat mm
          if hhv ≤ 23 ∧ mmv ≤ 59 then
            let off : Int := (hhv * 60 + mmv : Nat)
            some (⟨yv, mov, dv, hv, miv, se⟩, some (.fixedOffset (if c = '-' then -off else off)))
          else none
        else none
    else none

/-- Match the dotted-date pattern of src/services/ukrainian_dates.py line 75
— one or two digits, a separator ('.', '/' or '-'), one or two digits, a
separator, four digits — at the head, greedily and with backtracking on the
one-or-two-digit groups, returning (day, month, year, length of the match). -/
def matchDottedAt (s : Str) : Option (Str × Str × Str × Nat) :=
  let sep := fun (c : Char) => c = '.' ∨ c = '/' ∨ c = '-'
  let tryLens := fun (s : Str) (k : Nat) => (takeDigits k s).filter (fun _ => True)
  let attempt := fun (dl ml : Nat) => do
    let (d, s1) ← tryLens s dl
    match s1 with
    | c1 :: s2 =>
      if sep c1 then do
        let (m, s3) ← tryLens s2 ml
        match s3 with
        | c2 :: s4 =>
          if sep c2 then do
            let (yr, _) ← takeDigits 4 s4
            some (d, m, yr, dl + 1 + ml + 1 + 4)
          else none
        | [] => none
      else none
    | [] => none
  (attempt 2 2).orElse fun _ => (attempt 2 1).orElse fun _ =>
    (attempt 1 2).orElse fun _ => attempt 1 1

/-- `re.search` of the dotted-date pattern: leftmost match, with the end
index of the match in the original string. -/
def findDotted : Str → Nat → Option (Str × Str × Str × Nat)
  | [], _ => none
  | c :: rest, i =>
    match matchDottedAt (c :: rest) with
    | some (d, m, y, len) => some (d, m, y, i + len)
    | none => findDotted rest (i + 1)

/-- Match `(\d{1,2}):(\d{2})` at the head. -/
def matchTimeHMAt (s : Str) : Option (Str × Str) :=
  let attempt := fun (hl : Nat) => do
    let (h, s1) ← takeDigits hl s
    let s2 ← expectChar ':' s1
    let (m, _) ← takeDigits 2 s2
    some (h, m)
  (attempt 2).orElse fun _ => attempt 1

/-- `re.search(r"(\d{1,2}):(\d{2})", ...)`: leftmost match. -/
def findTimeHM : Str → Option (Str × Str)
  | [] => none
  | c :: rest =>
    match matchTimeHMAt (c :: rest) with
    | some hm => some hm
    | none => findTimeHM rest

/-- `re.fullmatch(r"(\d{1,2}):(\d{2})(?:\s*год\.?)?", ...)`
(src/services/ukrainian_dates.py line 95). -/
def matchTimeOnlyFull (s : Str) : Option (Str × Str) :=
  let attempt := fun (hl : Nat) => do
    let (h, s1) ← takeDigits hl s
    let s2 ← expectChar ':' s1
    let (m, s3) ← takeDigits 2 s2
    let s4 := s3.dropWhile (fun c => isWs c)
    if s3 = [] then some (h, m)
    else if s4 = str "год" ∨ s4 = str "год." then some (h, m)
    else none
  (attempt 2).orElse fun _ => attempt 1

/-- One character of the month-name class `[а-яіїєґ.]`. -/
def isMonthCh (c : Char) : Bool :=
  (0x430 ≤ c.toNat ∧ c.toNat ≤ 0x44F) ∨ c = 'і' ∨ c = 'ї' ∨ c = 'є' ∨ c = 'ґ' ∨ c = '.'

/-- Match `(\d{1,2})\s+([а-яіїєґ.]+)\s+(\d{4})` at the head, returning
(day digits, month name, year digits). -/
def matchWordsAt (s : Str) : Option (Str × Str × Str) :=
  let attempt := fun (dl : Nat) => do
    let (d, s1) ← takeDigits dl s
    let ws1 := s1.takeWhile (fun c => isWs c)
    if ws1 = [] then none
    else
      let s2 := s1.dropWhile (fun c => isWs c)
      let mon := s2.takeWhile isMonthCh
      if mon = [] then none
      else
        let s3 := s2.dropWhile isMonthCh
        let ws2 := s3.takeWhile (fun c => isWs c)
        if ws2 = [] then none
        else do
          let (yr, _) ← takeDigits 4 (s3.dropWhile (fun c => isWs c))
          some (d, mon, yr)
  (attempt 2).orElse fun _ => attempt 1

/-- `re.search` of the day-month-year pattern: leftmost match. -/
def findWords : Str → Option (Str × Str × Str)
  | [] => none
  | c :: rest =>
    match matchWordsAt (c :: rest) with
    | some r => some r
    | none => findWords rest

/-- `_MONTH_VARIANTS` (src/services/ukrainian_dates.py lines 12-25). -/
def MONTH_VARIANTS : List (Nat × List Str) :=
  [(1, [str "січня", str "січ", str "січ."]),
   (2, [str "лютого", str "лют", str "лют."]),
   (3, [str "березня", str "берез", str "бер", str "бер."]),
   (4, [str "квітня", str "квіт", str "квіт."]),
   (5, [str "травня", str "трав", str "трав."]),
   (6, [str "червня", str "черв", str "черв."]),
   (7, [str "липня", str "лип", str "лип."]),
   (8, [str "серпня", str "серп", str "серп."]),
   (9, [str "вересня", str "верес", str "вер", str "вер."]),
   (10, [str "жовтня", str "жовт", str "жов", str "жовт."]),
   (11, [str "листопада", str "листоп", str "лист", str "лист."]),
   (12, [str "грудня", str "груд", str "груд."])]

/-- `_MONTHS` (src/services/ukrainian_dates.py lines 27-31): keys are the
variants with dots removed, lowercased. -/
def MONTHS : List (Str × Nat) :=
  MONTH_VARIANTS.flatMap (fun p => p.2.map (fun v => (pyLower (pyReplace v (str ".") []), p.1)))

/-- `_MONTHS.get`. -/
def monthsGet (k : Str) : Option Nat := (MONTHS.find? (fun p => p.1 = k)).map (fun p => p.2)

/-- `re.sub(r"\s+вчора", "", text)`: remove every whitespace-run directly
followed by the word, scanning left to right; fueled by the input length
(each step consumes at least one character). -/
def subWsVchoraF : Nat → Str → Str
  | 0, s => s
  | fuel + 1, s =>
    match s with
    | [] => []
    | c :: rest =>
      if isWs c then
        let after := (c :: rest).dropWhile (fun c => isWs c)
        if startsWith after (str "вчора") then subWsVchoraF fuel (after.drop 5)
        else (c :: rest).takeWhile (fun c => isWs c) ++ subWsVchoraF fuel after
      else c :: subWsVchoraF fuel rest

/-- `re.sub(r"\s+вчора", "", text)`. -/
def subWsVchora (s : Str) : Str := subWsVchoraF s.length s

/-- `re.sub(r"\s+р(\.|оку)?$", "", text)`: strip a trailing year marker with
at least one whitespace character before it. -/
def subYearSuffix (s : Str) : Str :=
  let core : Option Str :=
    if endsWith s (str "року") then some (s.take (s.length - 4))
    else if endsWith s (str "р.") then some (s.take (s.length - 2))
    else if endsWith s (str "р") then some (s.take (s.length - 1))
    else none
  match core with
  | none => s
  | some c => if c ≠ [] ∧ pyRStrip c ≠ c then pyRStrip c else s

/-- Embeds `parse_ukrainian_date` (src/services/ukrainian_dates.py lines
34-130).  `reference` is the optional reference datetime (possibly naive);
`now` stands for the `datetime.now(tz)` call; `tz` is the target zone
(default `KYIV_TZ`). -/
def parse_ukrainian_date (value : Str) (reference : Option (DT × Option Tz))
    (now : DT) (tz : Tz := .kyiv) : Option AwareDT :=
  let raw := pyStrip value
  if raw = [] then none
  else
    let text := pyLower raw
    let text := pyReplace text (str "сьогодні") []
    let text := subWsVchora text
    let text := subYearSuffix text
    let text := pyReplace text (str " о ") (str " ")
    let text := pyReplace text (str ",") (str " ")
    let text := normWs text
    let isoRes : Option AwareDT :=
      match findIso text with
      | some m =>
        match fromIso (pyReplace m (str "z") (str "+00:00")) with
        | some (dt, some offTz) => some ⟨dt, offTz⟩
        | some (dt, none) => some ⟨dt, tz⟩
        | none => none
      | none => none
    match isoRes with
    | some dt => some dt
    | none =>
      match findDotted text 0 with
      | some (dayS, monS, yearS, endIdx) =>
        let hm := findTimeHM (text.drop endIdx)
        let hour := match hm with | some (h, _) => digitsToNat h | none => 0
        let minute := match hm with | some (_, mn) => digitsToNat mn | none => 0
        mkValid (digitsToNat yearS) (digitsToNat monS) (digitsToNat dayS) hour minute tz
      | none =>
        match matchTimeOnlyFull text with
        | some (hS, mS) =>
          let hour := digitsToNat hS
          let minute := digitsToNat mS
          let base : AwareDT :=
            match reference with
            | none => ⟨now, tz⟩
            | some (rdt, none) => ⟨rdt, tz⟩
            | some (rdt, some rtz) => astimezone ⟨rdt, rtz⟩ tz
          if hour ≤ 23 ∧ minute ≤ 59 then
            some ⟨{ base.dt with hour := hour, minute := minute, second := 0 }, base.tz⟩
          else none
        | none =>
          match findWords text with
          | some (dS, monthName, yS) =>
            let day := digitsToNat dS
            let normalizedMonth := pyStrip (pyReplace monthName (str ".") [])
            let year := digitsToNat yS
            match (monthsGet monthName).orElse (fun _ => monthsGet normalizedMonth) with
            | none => none
            | some month =>
              let hm := findTimeHM text
              let hour := match hm with | some (h, _) => digitsToNat h | none => 0
              let minute := match hm with | some (_, mn) => digitsToNat mn | none => 0
              mkValid year month day hour minute tz
          | none => none

/- ===================================================================
   URL handling (urllib.parse model, src/services/tax_urls.py,
   src/jobs/fetch.py)
   =================================================================== -/

/-- Split at the first occurrence of a character, if present. -/
def splitFirstOpt (c : Char) : Str → Option (Str × Str)
  | [] => none
  | x :: rest =>
    if x = c then some ([], rest)
    else (splitFirstOpt c rest).map (fun p => (x :: p.1, p.2))

/-- The five components of `urllib.parse.urlparse` used by this code base
(the `params` component never occurs in its URLs). -/
structure ParsedUrl where
  scheme : Str
  netloc : Str
  path : Str
  query : Str
  fragment : Str
deriving DecidableEq, Repr

/-- Model of `urllib.parse.urlparse`: fragment after the first '#', scheme
before the first ':' when it is alphanumeric starting with a letter (and
lowercased), netloc after '//' up to the next '/', '?' or '#', then path and
query. -/
def parseUrl (url : Str) : ParsedUrl :=
  let p0 := match splitFirstOpt '#' url with | some p => p | none => (url, [])
  let rest0 := p0.1
  let frag := p0.2
  let p1 :=
    match splitFirstOpt ':' rest0 with
    | some (sch, after) =>
      let schemeOk : Bool :=
        match sch with
        | c :: _ =>
          decide (('a' ≤ c ∧ c ≤ 'z') ∨ ('A' ≤ c ∧ c ≤ 'Z')) &&
            sch.all (fun c => ('a' ≤ c ∧ c ≤ 'z') ∨ ('A' ≤ c ∧ c ≤ 'Z') ∨ isDigitCh c ∨
              c = '+' ∨ c = '-' ∨ c = '.')
        | [] => false
      if schemeOk then (pyLower sch, after) else (([] : Str), rest0)
    | none => (([] : Str), rest0)
  let scheme := p1.1
  let rest1 := p1.2
  let p2 :=
    if startsWith rest1 (str "//") then
      let r := rest1.drop 2
      let nl := r.takeWhile (fun c => ¬ (c = '/' ∨ c = '?' ∨ c = '#'))
      (nl, r.drop nl.length)
    else (([] : Str), rest1)
  let netloc := p2.1
  let rest2 := p2.2
  let p3 := match splitFirstOpt '?' rest2 with | some p => p | none => (rest2, [])
  ⟨scheme, netloc, p3.1, p3.2, frag⟩

/-- Model of `urllib.parse.urlunparse` on the five components used here. -/
def unparseUrl (u : ParsedUrl) : Str :=
  let url := u.path
  let url := if u.netloc ≠ [] then str "//" ++ u.netloc ++ url else url
  let url := if u.scheme ≠ [] then u.scheme ++ [':'] ++ url else url
  let url := if u.query ≠ [] then url ++ ['?'] ++ u.query else url
  if u.fragment ≠ [] then url ++ ['#'] ++ u.fragment else url

/-- Value of an ASCII hexadecimal digit. -/
def hexVal (c : Char) : Option Nat :=
  if '0' ≤ c ∧ c ≤ '9' then some (c.toNat - '0'.toNat)
  else if 'a' ≤ c ∧ c ≤ 'f' then some (c.toNat - 'a'.toNat + 10)
  else if 'A' ≤ c ∧ c ≤ 'F' then some (c.toNat - 'A'.toNat + 10)
  else none

/-- Percent-decoding (model of `urllib.parse.unquote` for the single-byte
escapes that occur in this code base's URLs; other escapes are kept
literally). -/
def percentDecode : Str → Str
  | [] => []
  | '%' :: c1 :: c2 :: rest =>
    match hexVal c1, hexVal c2 with
    | some h1, some h2 =>
      if h1 * 16 + h2 < 128 then Char.ofNat (h1 * 16 + h2) :: percentDecode rest
      else '%' :: c1 :: c2 :: percentDecode rest
    | _, _ => '%' :: percentDecode (c1 :: c2 :: rest)
  | c :: rest => c :: percentDecode rest

/-- `urllib.parse.unquote_plus`: '+' becomes a space, then percent-decode. -/
def unquotePlus (s : Str) : Str :=
  percentDecode (s.map (fun c => if c = '+' then ' ' else c))

/-- Model of `urllib.parse.parse_qs`: pairs split on '&' and the first '=',
pairs without '=' or with an empty value dropped, keys and values
percent-decoded. -/
def parseQsPairs (q : Str) : List (Str × Str) :=
  (splitOnChar '&' q).filterMap (fun part =>
    match splitFirstOpt '=' part with
    | some (k, v) => if v ≠ [] then some (unquotePlus k, unquotePlus v) else none
    | none => none)

/-- `parse_qs(...).get(key)`: the list of values for a key, `none` if absent. -/
def parseQsGet (q key : Str) : Option (List Str) :=
  let vals := ((parseQsPairs q).filter (fun p => p.1 = key)).map (fun p => p.2)
  if vals = [] then none else some vals

/-- Leftmost maximal ASCII digit run of length at least 4 (the search of
`_TAX_ID_RE = \d{4,}`, src/services/tax_urls.py line 13), fueled by the
input length. -/
def firstDigitRun4F : Nat → Str → Option Str
  | 0, _ => none
  | _ + 1, [] => none
  | fuel + 1, c :: rest =>
    if isDigitCh c then
      let run := c :: rest.takeWhile isDigitCh
      if 4 ≤ run.length then some run
      else firstDigitRun4F fuel (rest.dropWhile isDigitCh)
    else firstDigitRun4F fuel rest

/-- Leftmost maximal ASCII digit run of length at least 4. -/
def firstDigitRun4 (s : Str) : Option Str := firstDigitRun4F s.length s

/-- `_TAX_NEWS_PATH_PREFIX` (src/services/tax_urls.py line 12). -/
def TAX_NEWS_PATH_PREFIX : Str := str "/media-tsentr/novini/"

/-- Embeds `tax_print_url` (src/services/tax_urls.py lines 17-46): derive the
print-friendly version of a DPS news article URL. -/
def tax_print_url (url : Str) : Option Str :=
  let parsed := parseUrl url
  let netloc := pyLower parsed.netloc
  if ¬ containsSub netloc (str "tax.gov.ua") then none
  else
    let path := parsed.path
    if ¬ startsWith path TAX_NEWS_PATH_PREFIX then none
    else if containsSub path (str "print-") then
      let normalizedPath := pyRStripSet path (str "/")
      let normalizedPath :=
        if ¬ endsWith normalizedPath (str ".html") then normalizedPath ++ str ".html"
        else normalizedPath
      some (unparseUrl { parsed with path := normalizedPath, query := [], fragment := [] })
    else
      let slug := ((splitOnChar '/' (pyRStripSet path (str "/"))).getLastD [])
      match firstDigitRun4 slug with
      | none => none
      | some articleId =>
        let printPath := TAX_NEWS_PATH_PREFIX ++ str "print-" ++ articleId ++ str ".html"
        some (unparseUrl { parsed with path := printPath, query := [], fragment := [] })

/-- Embeds `_normalize_url` (src/jobs/fetch.py lines 96-113): unwrap Google
News redirects (query parameters `url`/`u`), else canonicalize DPS print
URLs, else keep the URL. -/
def normalize_url (url : Str) : Str :=
  let parsed := parseUrl url
  let host := pyLower parsed.netloc
  let googleTarget : Option Str :=
    if endsWith host (str "news.google.com") then
      match parseQsGet parsed.query (str "url") with
      | some (t :: _) =>
        if t ≠ [] then some t
        else match parseQsGet parsed.query (str "u") with
          | some (u :: _) => if u ≠ [] then some u else none
          | _ => none
      | _ =>
        match parseQsGet parsed.query (str "u") with
        | some (u :: _) => if u ≠ [] then some u else none
        | _ => none
    else none
  match googleTarget with
  | some t => t
  | none =>
    match tax_print_url url with
    | some p => p
    | none => url

/-- Embeds `_domain` (src/jobs/fetch.py lines 116-120). -/
def domainOf (url : Str) : Str := pyLower (parseUrl url).netloc

/- ===================================================================
   Text normalization for summaries (src/services/summary.py)
   =================================================================== -/

/-- `_NONBREAKING_WHITESPACE` (src/services/summary.py line 6). -/
def NONBREAKING_WHITESPACE : Str :=
  [Char.ofNat 0xa0, Char.ofNat 0x1680, Char.ofNat 0x2000, Char.ofNat 0x2001,
   Char.ofNat 0x2002, Char.ofNat 0x2003, Char.ofNat 0x2004, Char.ofNat 0x2005,
   Char.ofNat 0x2006, Char.ofNat 0x2007, Char.ofNat 0x2008, Char.ofNat 0x2009,
   Char.ofNat 0x200a, Char.ofNat 0x202f, Char.ofNat 0x205f, Char.ofNat 0x3000]

/-- Embeds `_normalize_space_chars` (src/services/summary.py lines 11-14):
non-breaking spaces become plain spaces, the BOM is removed. -/
def normalize_space_chars (s : Str) : Str :=
  (s.filter (fun c => c ≠ Char.ofNat 0xfeff)).map
    (fun c => if NONBREAKING_WHITESPACE.contains c then ' ' else c)

/-- Embeds `_normalize_paragraphs` (src/services/summary.py lines 21-46):
blank lines separate paragraphs, each paragraph's lines are joined with
single spaces, paragraphs are joined with blank lines. -/
def normalize_paragraphs (s : Str) : Str :=
  let s := normalize_space_chars s
  let lines := splitOnChar '\n' (s.map (fun c => if c = '\r' then '\n' else c))
  let step := fun (acc : List Str × List Str) (line : Str) =>
    let flushed :=
      if pyStrip line = [] then
        (acc.1 ++ (if pyStrip (joinWith [' '] acc.2) ≠ [] then [pyStrip (joinWith [' '] acc.2)] else []),
          ([] : List Str))
      else (acc.1, acc.2 ++ [normWs line])
    flushed
  let fin := lines.foldl step ([], [])
  let paragraphs :=
    fin.1 ++ (if pyStrip (joinWith [' '] fin.2) ≠ [] then [pyStrip (joinWith [' '] fin.2)] else [])
  pyStrip (joinWith (str "\n\n") paragraphs)

/-- Embeds `normalize_text` (src/services/summary.py lines 48-54). -/
def normalize_text (v : Option Str) : Option Str :=
  match v with
  | none => none
  | some s =>
    if s = [] then none
    else
      let n := normalize_paragraphs s
      if n = [] then none else some n

/- ===================================================================
   Ingest coordination (src/jobs/fetch.py)
   =================================================================== -/

/-- Python truthiness of an optional string. -/
def truthy (o : Option Str) : Bool :=
  match o with
  | some x => x ≠ []
  | none => false

/-- Python `a or b` on optional strings. -/
def pyOrOpt (a b : Option Str) : Option Str :=
  match a with
  | some x => if x ≠ [] then some x else b
  | none => b

/-- The stored `Article` row fields set by `ingest_one`
(src/db/models.py via src/jobs/fetch.py lines 361-370). -/
structure ArticleRec where
  title : Str
  url : Str
  source_domain : Str
  published : Option Int
  summary : Str
  image_url : Option Str
  level1_ok : Bool
deriving DecidableEq, Repr

/-- The effectful collaborators of `ingest_one`, passed explicitly: staged
fetches and plain httpx fetches (network), and the html-parsing services
(selectolax-based, external to this embedding). -/
structure IngestEnv where
  staged : Str → Option Str
  httpxGet : Str → Except Str (Nat × Str)
  extractImage : Str → Str → Option Str
  chooseSummary : Str → Option Str → Str → Option Str
  extractNbuBody : Str → Option Str
  extractBodyFallback : Str → Option Str
  isReliableNbuBody : Option Str → Str → Bool

/-- Embeds `_fetch_html` (src/jobs/fetch.py lines 140-183) with the network
passed explicitly (the `failed_sources` bookkeeping is observability only
and is dropped): tax domains go through the staged fetch, other domains
through one httpx GET gated on `status == 200 and r.text`. -/
def fetch_html (env : IngestEnv) (url : Str) : Option Str :=
  let domain := pyLower (parseUrl url).netloc
  if endsWith domain (str "tax.gov.ua") then
    match env.staged url with
    | some h => if h ≠ [] then some h else none
    | none => none
  else
    match env.httpxGet url with
    | .ok (status, text) => if status = 200 ∧ text ≠ [] then some text else none
    | .error _ => none

/-- Embeds `_fetch_tax_article_htmls` (src/jobs/fetch.py lines 42-70):
(primary html, print html, derived print url). -/
def fetch_tax_article_htmls (env : IngestEnv) (url : Str) :
    Option Str × Option Str × Option Str :=
  let primary := env.staged url
  let printUrl := tax_print_url url
  let printHtml :=
    match printUrl with
    | some pu => if pu = url then primary else env.staged pu
    | none => none
  (primary, printHtml, printUrl)

/-- The fetch-extract-classify middle of `ingest_one` (src/jobs/fetch.py
lines 252-360), run after the whitelist and duplicate checks: returns the
extracted summary text and image URL, or `none` for the (always
"skipped_no_body") rejections of that region. -/
def ingest_classify (env : IngestEnv) (dom normalized_url url title : Str)
    (summary : Option Str) : Option (Str × Option Str) :=
  let tax := endsWith dom (str "tax.gov.ua")
  let fetched :=
    if tax then
      let f := fetch_tax_article_htmls env normalized_url
      (pyOrOpt f.1 f.2.1, pyOrOpt f.2.1 f.1, pyOrOpt f.1 f.2.1, f.2.2)
    else
      let h := fetch_html env normalized_url
      (h, h, h, none)
  let html := fetched.1
  let html_for_summary := fetched.2.1
  let image_source_html := fetched.2.2.1
  let printUrl := fetched.2.2.2
  let summary_source_url :=
    if tax then
      match printUrl with
      | some pu => if truthy (fetch_tax_article_htmls env normalized_url).2.1 then pu
                   else normalized_url
      | none => normalized_url
    else normalized_url
  let parser_source_url : Option Str :=
    if truthy html_for_summary then some summary_source_url
    else if truthy html then some normalized_url
    else none
  let image_url :=
    match image_source_html with
    | some ih =>
      if ih ≠ [] then
        env.extractImage ih
          (match pyOrOpt parser_source_url (pyOrOpt (some normalized_url) (some url)) with
           | some b => b
           | none => [])
      else none
    | none => none
  let bank := endsWith dom (str "bank.gov.ua")
  if bank then
    match html with
    | some h =>
      if h ≠ [] then
        let body := pyOrOpt (env.extractNbuBody h) (env.extractBodyFallback h)
        match body with
        | some b =>
          if b ≠ [] then
            let summary_text := normalize_text (some b)
            if ¬ env.isReliableNbuBody summary_text h then none
            else match summary_text with
              | some st => some (st, image_url)
              | none => none
          else none
        | none => none
      else none
    | none => none
  else
    let summary_candidate :=
      if truthy html_for_summary then
        env.chooseSummary title summary
          (match html_for_summary with | some h => h | none => [])
      else summary
    let summary_text := normalize_text summary_candidate
    match summary_text with
    | some st => some (st, image_url)
    | none => none

/-- Embeds `ingest_one` (src/jobs/fetch.py lines 220-384) with the database
as explicit state (a list of stored articles standing for the `Article`
table): whitelist check, duplicate check against the normalized and original
URL, then fetch/extract/classify, storing the new row on success.  The
unexpected-exception guard (verdict "error") has no counterpart in the pure
embedding. -/
def ingest_one (env : IngestEnv) (db : List ArticleRec) (url title : Str)
    (published : Option Int) (summary : Option Str) : Str × List ArticleRec :=
  let normalized_url := normalize_url url
  let dom := domainOf normalized_url
  let lvl1 := in_whitelist_lvl1 dom
  if ¬ lvl1 then (str "skipped_level1", db)
  else if db.any (fun a => a.url = normalized_url ∨ a.url = url) then (str "duplicate", db)
  else
    match ingest_classify env dom normalized_url url title summary with
    | none => (str "skipped_no_body", db)
    | some (summary_text, image_url) =>
      let art : ArticleRec :=
        ⟨if title ≠ [] then title else normalized_url, normalized_url, dom, published,
          summary_text, image_url, lvl1⟩
      (str "created", db ++ [art])

/- ===================================================================
   HTML document model (selectolax trees, as consumed by
   src/services/image_extract.py, src/services/tax_image.py and
   src/services/tax_article.py)
   =================================================================== -/

/-- A parsed HTML node: an element with tag, attributes and children, or a
text node.  String parsing into this tree is the external selectolax
library; the embedded functions consume the tree exactly as the source
consumes parser nodes. -/
inductive HNode where
  | txt (s : Str)
  | elem (tag : Str) (attrs : List (Str × Str)) (children : List HNode)

/-- selectolax `node.tag`: text nodes report the pseudo-tag `-text`. -/
def tagOf : HNode → Str
  | .txt _ => str "-text"
  | .elem t _ _ => t

/-- selectolax `node.attributes.get(key)`. -/
def attrsGet (n : HNode) (key : Str) : Option Str :=
  match n with
  | .txt _ => none
  | .elem _ attrs _ => (attrs.find? (fun p => p.1 = key)).map (fun p => p.2)

mutual
/-- The text-node contents of a subtree, in document order. -/
def textPieces : HNode → List Str
  | .txt s => [s]
  | .elem _ _ cs => textPiecesList cs
/-- The text-node contents of a forest, in document order. -/
def textPiecesList : List HNode → List Str
  | [] => []
  | n :: rest => textPieces n ++ textPiecesList rest
end

/-- selectolax `node.text(separator=sep)`: the text chunks joined by the
separator. -/
def nodeText (n : HNode) (sep : Str) : Str := joinWith sep (textPieces n)

mutual
/-- Pre-order traversal of a node and its subtree, each node paired with its
ancestor chain (innermost first). -/
def withAnc : HNode → List HNode → List (HNode × List HNode)
  | .txt s, anc => [(.txt s, anc)]
  | .elem t a cs, anc => (.elem t a cs, anc) :: withAncList cs (.elem t a cs :: anc)
/-- Pre-order traversal of a forest with ancestor chains. -/
def withAncList : List HNode → List HNode → List (HNode × List HNode)
  | [], _ => []
  | n :: rest, anc => withAnc n anc ++ withAncList rest anc
end

/-- Pre-order traversal of the whole document (the node itself included). -/
def preorder (n : HNode) : List HNode := (withAnc n []).map (fun p => p.1)

/-- The proper descendants of a node, in document order, each with its
ancestor chain inside the node (the node itself innermost-last); models
`node.traverse()` skipping the node itself, with `_has_table_ancestor`
limited to the traversed container. -/
def properWithAnc (n : HNode) : List (HNode × List HNode) :=
  match n with
  | .txt _ => []
  | .elem t a cs => withAncList cs [.elem t a cs]

/-- Descendant elements with a given (lowercased) tag, in document order:
models `node.css("tag")` for a bare tag-name selector. -/
def cssTag (n : HNode) (tag : Str) : List HNode :=
  ((properWithAnc n).map (fun p => p.1)).filter (fun d => pyLower (tagOf d) = tag)

/- ===================================================================
   Image resolution (src/services/image_extract.py and
   src/services/tax_image.py)
   =================================================================== -/

/-- Directory part of a URL path: everything up to and including the last
slash ("/" when there is none). -/
def pathDir (p : Str) : Str :=
  match splitFirstOpt '/' p.reverse with
  | some (_, before) => ('/' :: before).reverse
  | none => str "/"

/-- Model of `urllib.parse.urljoin` for the absolute-base cases this code
base uses (no dot-segment normalization, which its URLs never need): keep
absolute references, resolve scheme-relative, root-relative and relative
references against the base. -/
def urljoin (base url : Str) : Str :=
  let b := parseUrl base
  if (parseUrl url).scheme ≠ [] then url
  else if startsWith url (str "//") then b.scheme ++ [':'] ++ url
  else if startsWith url (str "/") then b.scheme ++ str "://" ++ b.netloc ++ url
  else if url = [] then base
  else b.scheme ++ str "://" ++ b.netloc ++ pathDir b.path ++ url

/-- Embeds `_normalize_candidate` (src/services/image_extract.py lines 16-32
and, identically up to the argument order, src/services/tax_image.py lines
16-29): strip whitespace and quotes, reject empty and `data:` URIs, resolve
protocol-relative and relative URLs, keep only http(s) results. -/
def normalize_candidate (value : Option Str) (base_url : Option Str) : Option Str :=
  match value with
  | none => none
  | some v =>
    let candidate := pyStrip v
    if candidate = [] then none
    else
      let candidate := pyStripSet candidate (str "\x22\x27")
      if candidate = [] ∨ startsWith candidate (str "data:") then none
      else
        let candidate :=
          if startsWith candidate (str "//") then str "https:" ++ candidate
          else match base_url with
            | some b => urljoin b candidate
            | none => candidate
        let scheme := (parseUrl candidate).scheme
        if scheme = str "http" ∨ scheme = str "https" then some candidate else none

/-- Parse a Python float literal restricted to the decimal forms that occur
in srcset descriptors, scaled to thousandths. -/
def parseFloatMilli (s : Str) : Option Int :=
  let core := fun (t : Str) =>
    let intPart := t.takeWhile isDigitCh
    let rest := t.drop intPart.length
    match rest with
    | [] => if intPart = [] then none else some ((digitsToNat intPart : Int) * 1000)
    | '.' :: frac =>
      if frac.all isDigitCh ∧ (intPart ≠ [] ∨ frac ≠ []) then
        let f3 := (frac ++ str "000").take 3
        some ((digitsToNat intPart : Int) * 1000 + (digitsToNat f3 : Int))
      else none
    | _ => none
  match s with
  | '-' :: t => (core t).map (fun v => -v)
  | '+' :: t => core t
  | t => core t

/-- Embeds `_pick_from_srcset` (src/services/image_extract.py lines 34-64):
choose the srcset candidate with the highest width/density descriptor
(density scaled by 1000; scores kept in thousandths, starting from -1.0). -/
def pick_from_srcset (value : Option Str) (base_url : Option Str) : Option Str :=
  match value with
  | none => none
  | some v =>
    let step := fun (best : Option Str × Int) (chunk : Str) =>
      let chunk := pyStrip chunk
      if chunk = [] then best
      else
        match pySplitWs chunk with
        | [] => best
        | p0 :: ps =>
          match normalize_candidate (some p0) base_url with
          | none => best
          | some candidate =>
            let descriptor := match ps with | d :: _ => d | [] => []
            let score : Int :=
              if endsWith descriptor (str "w") then
                match parseFloatMilli (descriptor.take (descriptor.length - 1)) with
                | some v => v
                | none => 0
              else if endsWith descriptor (str "x") then
                match parseFloatMilli (descriptor.take (descriptor.length - 1)) with
                | some v => v * 1000
                | none => 0
              else 0
            if score > best.2 ∨ best.1 = none then (some candidate, score) else best
    ((splitOnChar ',' v).foldl step (none, -1000)).1

/-- Attribute-equality element test (`tag[attr="value"]` selectors). -/
def isElemAttr (tag attr value : Str) (n : HNode) : Bool :=
  pyLower (tagOf n) = tag &&
    (match attrsGet n attr with | some v => v = value | none => false)

/-- The `<source>` elements matched by
`css("picture source[srcset], source[data-srcset], source[srcset]")`: every
source carrying a `srcset` or `data-srcset` attribute, in document order
(the first selector of the group is subsumed by the third). -/
def srcsetSources (doc : HNode) : List HNode :=
  (preorder doc).filter (fun n =>
    pyLower (tagOf n) = str "source" &&
      ((attrsGet n (str "srcset")).isSome || (attrsGet n (str "data-srcset")).isSome))

/-- Python `a or b` for optional attribute values (`attrs.get("srcset") or
attrs.get("data-srcset")`). -/
def pyOrAttr (a b : Option Str) : Option Str := pyOrOpt a b

/-- `_meta_selectors` of `extract_image`
(src/services/image_extract.py lines 66-72). -/
def metaSelectors : List (Str × Str) :=
  [(str "property", str "og:image"),
   (str "property", str "og:image:url"),
   (str "property", str "og:image:secure_url"),
   (str "name", str "twitter:image"),
   (str "name", str "twitter:image:src")]

/-- First non-`none` result of a function over a list, in order: models the
`for` loops of the image resolvers that return the first hit. -/
def firstSome {A : Type} : List A → (A → Option Str) → Option Str
  | [], _ => none
  | x :: rest, f =>
    match f x with
    | some r => some r
    | none => firstSome rest f

/-- Embeds `extract_image` (src/services/image_extract.py lines 10-112) over
a parsed document: Open Graph/Twitter meta tags, then
`link[rel="image_src"]`, then `<picture>/<source>` srcsets, then `<img>`
lazy-load attributes in the fixed preference order. -/
def extract_image (doc : HNode) (base_url : Option Str) : Option Str :=
  let fromMetas :=
    firstSome metaSelectors (fun sel =>
      firstSome ((preorder doc).filter (isElemAttr (str "meta") sel.1 sel.2)) (fun el =>
        normalize_candidate (attrsGet el (str "content")) base_url))
  match fromMetas with
  | some r => some r
  | none =>
    let fromLink :=
      match ((preorder doc).filter
          (isElemAttr (str "link") (str "rel") (str "image_src"))).head? with
      | some link => normalize_candidate (attrsGet link (str "href")) base_url
      | none => none
    match fromLink with
    | some r => some r
    | none =>
      let fromSources :=
        firstSome (srcsetSources doc) (fun source =>
          pick_from_srcset
            (pyOrAttr (attrsGet source (str "srcset")) (attrsGet source (str "data-srcset")))
            base_url)
      match fromSources with
      | some r => some r
      | none =>
        let imgAttrOrder :=
          [str "data-src", str "data-original", str "data-lazy-src", str "data-srcset",
           str "srcset", str "src"]
        firstSome ((preorder doc).filter (fun n => pyLower (tagOf n) = str "img")) (fun img =>
          firstSome (imgAttrOrder.filter (fun attr => (attrsGet img attr).isSome)) (fun attr =>
            if attr = str "srcset" ∨ attr = str "data-srcset" then
              pick_from_srcset (attrsGet img attr) base_url
            else normalize_candidate (attrsGet img attr) base_url))

/-- Embeds `_is_image_url` (src/services/tax_image.py lines 42-47). -/
def is_image_url (value : Str) : Bool :=
  let path := pyLower (parseUrl value).path
  endsWith path (str ".jpg") || endsWith path (str ".jpeg") ||
    endsWith path (str ".png") || endsWith path (str ".webp")

/-- The chunk loop of the tax-image `_pick_from_srcset`
(src/services/tax_image.py lines 53-64): the first non-"preview" normalized
candidate wins, else the first normalized one is kept. -/
def tax_pick_go (base_url : Option Str) : List Str → Option Str → Option Str
  | [], best => best
  | chunk :: rest, best =>
    let chunk := pyStrip chunk
    if chunk = [] then tax_pick_go base_url rest best
    else
      match pySplitWs chunk with
      | [] => tax_pick_go base_url rest best
      | p0 :: _ =>
        match normalize_candidate (some p0) base_url with
        | none => tax_pick_go base_url rest best
        | some normalized =>
          if ¬ containsSub (pyLower normalized) (str "preview") then some normalized
          else if best = none then tax_pick_go base_url rest (some normalized)
          else tax_pick_go base_url rest best

/-- Embeds the tax-image `_pick_from_srcset`
(src/services/tax_image.py lines 50-64). -/
def tax_pick_from_srcset (value : Option Str) (base_url : Option Str) : Option Str :=
  match value with
  | none => none
  | some v => tax_pick_go base_url (splitOnChar ',' v) none

/-- `_good` of `prefer_tax_article_image`
(src/services/tax_image.py lines 89-94): reject "preview" candidates. -/
def goodCandidate (candidate : Option Str) : Option Str :=
  match candidate with
  | none => none
  | some c => if containsSub (pyLower c) (str "preview") then none else some c

/-- Whether an element's `class` attribute contains the given token. -/
def hasClassToken (tok : Str) (n : HNode) : Bool :=
  match attrsGet n (str "class") with
  | some v => (pySplitWs v).any (fun t => t = tok)
  | none => false

/-- Descendant selector `sel tag` over the document: nodes with the given
tag below an ancestor satisfying the predicate, in document order. -/
def cssUnder (doc : HNode) (ancOk : HNode → Bool) (tag : Str) : List HNode :=
  ((withAnc doc []).filter (fun p =>
    pyLower (tagOf p.1) = tag && p.2.any ancOk)).map (fun p => p.1)

/-- The node lists matched by the four selectors
`.article__content img`, `.news__content img`, `article img`, `img`
(src/services/tax_image.py lines 120-125), and likewise for anchors. -/
def taxSelectorLists (doc : HNode) (tag : Str) : List (List HNode) :=
  [cssUnder doc (hasClassToken (str "article__content")) tag,
   cssUnder doc (hasClassToken (str "news__content")) tag,
   cssUnder doc (fun n => pyLower (tagOf n) = str "article") tag,
   (preorder doc).filter (fun n => pyLower (tagOf n) = tag)]

/-- `_STYLE_URL_RE` applied by `_normalize_style`
(src/services/tax_image.py lines 13, 32-39): the contents of each
`url(...)` in a style attribute, fueled by the input length. -/
def styleUrlsF : Nat → Str → List Str
  | 0, _ => []
  | _ + 1, [] => []
  | fuel + 1, c :: rest =>
    if startsWith (c :: rest) (str "url(") then
      let inner := (rest.drop 3).takeWhile (fun ch => ch ≠ ')')
      if inner ≠ [] then inner :: styleUrlsF fuel ((rest.drop 3).dropWhile (fun ch => ch ≠ ')'))
      else styleUrlsF fuel rest
    else styleUrlsF fuel rest

/-- The `url(...)` contents of a style attribute, in order. -/
def styleUrls (s : Str) : List Str := styleUrlsF s.length s

/-- Embeds `_normalize_style` (src/services/tax_image.py lines 32-39). -/
def normalize_style (style : Option Str) (base_url : Option Str) : Option Str :=
  match style with
  | none => none
  | some st =>
    (styleUrls st).foldl (fun acc v =>
      match acc with
      | some r => some r
      | none => normalize_candidate (some v) base_url) none

/-- The attribute list an `<img>` offers, in the fixed preference order
(src/services/tax_image.py lines 107-118). -/
def taxAttrOrder : List Str :=
  [str "data-src", str "data-original", str "data-lazy-src", str "data-full",
   str "data-large", str "data-origin", str "data-original-src", str "data-srcset",
   str "srcset", str "src"]

/-- The per-image attribute scan of `prefer_tax_article_image`
(src/services/tax_image.py lines 127-147): the fixed preference order first,
then any non-empty `data-*` attribute holding an image URL. -/
def taxImgCandidate (base_url : Option Str) (img : HNode) : Option Str :=
  let ordered :=
    firstSome (taxAttrOrder.filter (fun attr => (attrsGet img attr).isSome)) (fun attr =>
      goodCandidate
        (if attr = str "srcset" ∨ attr = str "data-srcset" then
          tax_pick_from_srcset (attrsGet img attr) base_url
        else normalize_candidate (attrsGet img attr) base_url))
  match ordered with
  | some r => some r
  | none =>
    match img with
    | .elem _ attrs _ =>
      firstSome attrs (fun kv =>
        if startsWith kv.1 (str "data-") ∧ kv.2 ≠ [] then
          match goodCandidate (normalize_candidate (some kv.2) base_url) with
          | some c => if is_image_url c then some c else none
          | none => none
        else none)
    | .txt _ => none

/-- The per-anchor scan of `prefer_tax_article_image`
(src/services/tax_image.py lines 156-168). -/
def taxLinkCandidate (base_url : Option Str) (link : HNode) : Option Str :=
  firstSome
    [attrsGet link (str "href"), attrsGet link (str "data-href"),
     attrsGet link (str "data-src"), attrsGet link (str "data-url")] (fun v =>
      match goodCandidate (normalize_candidate v base_url) with
      | some c => if is_image_url c then some c else none
      | none => none)

/-- The document scan of `prefer_tax_article_image`
(src/services/tax_image.py lines 96-176): `<source>` srcsets, then `<img>`
attributes under progressively wider selectors, then anchor hrefs, then
inline `background-image` styles, first non-preview candidate wins; else
the fallback. -/
def prefer_tax_scan (doc : HNode) (base_url : Option Str) (fallback : Option Str) :
    Option Str :=
  let fromSources :=
    firstSome (srcsetSources doc) (fun source =>
      goodCandidate (tax_pick_from_srcset
        (pyOrAttr (attrsGet source (str "srcset")) (attrsGet source (str "data-srcset")))
        base_url))
  match fromSources with
  | some r => some r
  | none =>
    let fromImg :=
      firstSome (taxSelectorLists doc (str "img")) (fun imgs =>
        firstSome imgs (taxImgCandidate base_url))
    match fromImg with
    | some r => some r
    | none =>
      let fromLinks :=
        firstSome (taxSelectorLists doc (str "a")) (fun links =>
          firstSome links (taxLinkCandidate base_url))
      match fromLinks with
      | some r => some r
      | none =>
        let fromStyles :=
          firstSome ((preorder doc).filter (fun n =>
            match attrsGet n (str "style") with
            | some st => containsSub st (str "background")
            | none => false)) (fun n =>
              match goodCandidate (normalize_style (attrsGet n (str "style")) base_url) with
              | some c => if is_image_url c then some c else none
              | none => none)
        match fromStyles with
        | some r => some r
        | none => fallback

/-- Embeds `prefer_tax_article_image` (src/services/tax_image.py lines
67-176): a truthy non-preview fallback is returned unchanged, otherwise the
document is scanned for a better, non-preview candidate. -/
def prefer_tax_article_image (doc : HNode) (base_url : Option Str)
    (fallback : Option Str) : Option Str :=
  match fallback with
  | some f =>
    if f ≠ [] ∧ ¬ containsSub (pyLower f) (str "preview") then some f
    else prefer_tax_scan doc base_url fallback
  | none => prefer_tax_scan doc base_url fallback

/-- The concrete C4 document: a `<picture>` whose only `<source>` offers a
"preview" image, and a plain `<img>` elsewhere on the page with a
non-preview image. -/
def c4Doc : HNode :=
  .elem (str "html") [] [
    .elem (str "body") [] [
      .elem (str "picture") [] [
        .elem (str "source") [(str "srcset", str "https://site.ua/images/preview1.jpg")] []],
      .elem (str "img") [(str "src", str "https://site.ua/images/photo.jpg")] []]]

/- ===================================================================
   Tax article block collection (src/services/tax_article.py)
   =================================================================== -/

/-- `WHITELIST_TAGS` (src/services/tax_article.py lines 12-24). -/
def WHITELIST_TAGS : List Str :=
  [str "p", str "div", str "h2", str "h3", str "ul", str "ol", str "li",
   str "blockquote", str "table", str "tr", str "td"]

/-- `STOP_PHRASES` (src/services/tax_article.py lines 25-32). -/
def STOP_PHRASES : List Str :=
  [str "поділитися", str "поширити", str "останн", str "читайте також",
   str "теги", str "корисні посилання"]

/-- `any(stop in lowered for stop in STOP_PHRASES)`. -/
def hasStop (lowered : Str) : Bool :=
  STOP_PHRASES.any (fun stop => containsSub lowered stop)

/-- `next(stop for stop in STOP_PHRASES if stop in lowered)`. -/
def firstStop (lowered : Str) : Option Str :=
  STOP_PHRASES.find? (fun stop => containsSub lowered stop)

/-- Embeds `_normalize_spaces` (src/services/tax_article.py lines 61-62). -/
def normalize_spaces (s : Str) : Str := normWs s

mutual
/-- `_has_whitelisted_descendant` over a child list
(src/services/tax_article.py lines 65-74): a child's tag is whitelisted, or
some deeper descendant's is. -/
def hasWhitelistedDescList : List HNode → Bool
  | [] => false
  | n :: rest =>
    (let t := pyLower (tagOf n)
     t ≠ [] && WHITELIST_TAGS.contains t) || hasWhitelistedDescOf n ||
      hasWhitelistedDescList rest
/-- `_has_whitelisted_descendant` below one node. -/
def hasWhitelistedDescOf : HNode → Bool
  | .txt _ => false
  | .elem _ _ cs => hasWhitelistedDescList cs
end

/-- Embeds `_has_whitelisted_descendant` (src/services/tax_article.py lines
65-74). -/
def has_whitelisted_descendant (n : HNode) : Bool := hasWhitelistedDescOf n

/-- Embeds `_is_atomic_div` (src/services/tax_article.py lines 77-80). -/
def is_atomic_div (n : HNode) : Bool :=
  pyLower (tagOf n) = str "div" && ¬ has_whitelisted_descendant n

/-- Embeds `_table_rows` (src/services/tax_article.py lines 197-205). -/
def table_rows (t : HNode) : List Str :=
  (cssTag t (str "tr")).filterMap (fun row =>
    let cells := ((properWithAnc row).map (fun p => p.1)).filter
      (fun c => pyLower (tagOf c) = str "th" ∨ pyLower (tagOf c) = str "td")
    let cellTexts := (cells.map (fun c => normalize_spaces (nodeText c (str " ")))).filter
      (fun s => s ≠ [])
    if cellTexts ≠ [] then some (joinWith (str " — ") cellTexts) else none)

/-- `Block` (src/services/tax_article.py lines 48-51). -/
structure Block where
  text : Str
  tag : Str
deriving DecidableEq, Repr

/-- `CollectionResult` (src/services/tax_article.py lines 54-58). -/
structure CollectionResult where
  blocks : List Block
  paragraphs : Nat
  stop_reason : Option Str
deriving DecidableEq, Repr

/-- The `<li>` loop of `_collect_blocks` for `ul`/`ol` nodes
(src/services/tax_article.py lines 245-262): normalize each item, return
the whole collection at a stop phrase (keeping the blocks added so far),
dedup by the bullet text, and record whether anything was added. -/
def collect_lis : List Str → List Block → List Str → Bool →
    (List Block × List Str × Bool) ⊕ (List Block × Str)
  | [], blocks, seen, added => .inl (blocks, seen, added)
  | t :: rest, blocks, seen, added =>
    let liText := normalize_spaces t
    if liText = [] then collect_lis rest blocks seen added
    else if hasStop (pyLower liText) then
      .inr (blocks, (firstStop (pyLower liText)).getD [])
    else
      let bullet := str "• " ++ liText
      if seen.any (fun s => s = bullet) then collect_lis rest blocks seen added
      else collect_lis rest (blocks ++ [⟨bullet, str "li"⟩]) (seen ++ [bullet]) true

/-- The table-row loop of `_collect_blocks`
(src/services/tax_article.py lines 264-277). -/
def collect_rows : List Str → List Block → List Str →
    (List Block × List Str) ⊕ (List Block × Str)
  | [], blocks, seen => .inl (blocks, seen)
  | row :: rest, blocks, seen =>
    if hasStop (pyLower row) then .inr (blocks, (firstStop (pyLower row)).getD [])
    else if seen.any (fun s => s = row) then collect_rows rest blocks seen
    else collect_rows rest (blocks ++ [⟨row, str "table"⟩]) (seen ++ [row])

/-- The per-node text handling of `_collect_blocks`
(src/services/tax_article.py lines 279-307): skip empties, stop (keeping
state) at a stop phrase, skip a repeated headline, bullet `li` items, dedup
by exact text, and count `p`/`div` paragraphs. -/
def text_step (headline_text tag text : Str) (blocks : List Block) (seen : List Str)
    (paragraphs : Nat) : (List Block × List Str × Nat) ⊕ CollectionResult :=
  if text = [] then .inl (blocks, seen, paragraphs)
  else
    let lowered := pyLower text
    if hasStop lowered then .inr ⟨blocks, paragraphs, firstStop lowered⟩
    else if headline_text ≠ [] ∧ pyCasefold text = headline_text then
      .inl (blocks, seen, paragraphs)
    else if tag = str "li" then
      let bullet := str "• " ++ text
      if seen.any (fun s => s = bullet) then .inl (blocks, seen, paragraphs)
      else .inl (blocks ++ [⟨bullet, str "li"⟩], seen ++ [bullet], paragraphs)
    else if seen.any (fun s => s = text) then .inl (blocks, seen, paragraphs)
    else
      .inl (blocks ++ [⟨text, tag⟩], seen ++ [text],
        if tag = str "p" ∨ tag = str "div" then paragraphs + 1 else paragraphs)

/-- The node loop of `_collect_blocks` (src/services/tax_article.py lines
232-308) over the traversal items, with the block list, dedup set and
paragraph count as explicit state. -/
def collect_go (headline_text : Str) :
    List (HNode × List HNode) → List Block → List Str → Nat → CollectionResult
  | [], blocks, _, paragraphs => ⟨blocks, paragraphs, none⟩
  | (node, anc) :: rest, blocks, seen, paragraphs =>
    let tag := pyLower (tagOf node)
    if tag = [] then collect_go headline_text rest blocks seen paragraphs
    else if tag = str "script" ∨ tag = str "style" ∨ tag = str "noscript" then
      collect_go headline_text rest blocks seen paragraphs
    else if ¬ WHITELIST_TAGS.contains tag then
      collect_go headline_text rest blocks seen paragraphs
    else if tag = str "div" ∧ ¬ is_atomic_div node then
      collect_go headline_text rest blocks seen paragraphs
    else if (tag = str "tr" ∨ tag = str "td") ∧
        anc.any (fun a => pyLower (tagOf a) = str "table") then
      collect_go headline_text rest blocks seen paragraphs
    else if tag = str "ul" ∨ tag = str "ol" then
      match collect_lis ((cssTag node (str "li")).map (fun li => nodeText li (str " ")))
          blocks seen false with
      | .inr (bs, stop) => ⟨bs, paragraphs, some stop⟩
      | .inl (blocks2, seen2, added) =>
        if added then collect_go headline_text rest blocks2 seen2 paragraphs
        else
          match text_step headline_text tag (normalize_spaces (nodeText node (str " ")))
              blocks2 seen2 paragraphs with
          | .inl (b, s, p) => collect_go headline_text rest b s p
          | .inr r => r
    else if tag = str "table" then
      let rows := table_rows node
      if rows = [] then collect_go headline_text rest blocks seen paragraphs
      else
        match collect_rows rows blocks seen with
        | .inr (bs, stop) => ⟨bs, paragraphs, some stop⟩
        | .inl (blocks2, seen2) => collect_go headline_text rest blocks2 seen2 paragraphs
    else
      match text_step headline_text tag (normalize_spaces (nodeText node (str " ")))
          blocks seen paragraphs with
      | .inl (b, s, p) => collect_go headline_text rest b s p
      | .inr r => r

/-- Embeds `_iter_blocks` (src/services/tax_article.py lines 208-219): the
container's proper descendants in document order, starting strictly after
the node at the given traversal position (`mem_id`s are unique, so the
"started" flag is positional). -/
def iter_blocks (container : HNode) (after : Option Nat) : List (HNode × List HNode) :=
  match after with
  | none => properWithAnc container
  | some i => (properWithAnc container).drop (i + 1)

/-- Embeds `_collect_blocks` (src/services/tax_article.py lines 222-308). -/
def collect_blocks (container : HNode) (after : Option Nat) (headline_text : Str) :
    CollectionResult :=
  collect_go headline_text (iter_blocks container after) [] [] 0

/-- A paragraph element holding one text node. -/
def pNode (t : Str) : HNode := .elem (str "p") [] [.txt t]

/- ===================================================================
   Preview rendering (src/services/previews.py, src/services/text_cleanup.py)
   =================================================================== -/

/-- `SUBSCRIBE_PROMO_TEXT` (src/services/previews.py line 12). -/
def SUBSCRIBE_PROMO_TEXT : Str := str "Підпишись на IT Tax Radar"

/-- `SUBSCRIBE_PROMO_URL` (src/services/previews.py line 13). -/
def SUBSCRIBE_PROMO_URL : Str := str "https://t.me/ITTaxRadar"

/-- `_SENTENCE_ENDINGS` (src/services/previews.py line 15). -/
def SENTENCE_ENDINGS : Str := ['.', '!', '?', '…']

/-- `_VOID_TAGS` (src/services/previews.py line 17). -/
def VOID_TAGS : List Str :=
  [str "br", str "img", str "hr", str "input", str "meta", str "link"]

/-- One character of `html.escape`: `&`, `<`, `>` always, quotes only with
`quote=True`.  Python replaces `&` first, so the mapping is per-character. -/
def escapeChar (quote : Bool) (c : Char) : Str :=
  if c = '&' then str "&amp;"
  else if c = '<' then str "&lt;"
  else if c = '>' then str "&gt;"
  else if quote ∧ c = Char.ofNat 0x22 then str "&quot;"
  else if quote ∧ c = Char.ofNat 0x27 then str "&#x27;"
  else [c]

/-- Embeds `_escape_text` (src/services/previews.py lines 98-99):
`html.escape(text, quote=False)`. -/
def escape_text (s : Str) : Str := s.flatMap (escapeChar false)

/-- Embeds `_escape_attr` (src/services/previews.py lines 102-103):
`html.escape(value, quote=True)`. -/
def escape_attr (s : Str) : Str := s.flatMap (escapeChar true)

/-- Split at the first occurrence of a substring: `some (before, after)`
with the occurrence removed. -/
def findSub (pat : Str) : Str → Option (Str × Str)
  | [] => if pat.isPrefixOf [] then some ([], []) else none
  | c :: rest =>
    if pat.isPrefixOf (c :: rest) then some ([], (c :: rest).drop pat.length)
    else (findSub pat rest).map (fun p => (c :: p.1, p.2))

/-- Split at the first occurrence of a character. -/
def findChar (c : Char) (s : Str) : Option (Str × Str) := findSub [c] s

/-- Python `str.rfind` for a single character: the rightmost index. -/
def rfindChar (c : Char) (s : Str) : Option Nat :=
  match findChar c s.reverse with
  | some (before, _) => some (s.length - 1 - before.length)
  | none => none

/-- The `<br\s*/?>` → newline substitution of `_visible_length`
(src/services/previews.py line 23), fueled by the input length. -/
def brSubF : Nat → Str → Str
  | 0, s => s
  | _ + 1, [] => []
  | fuel + 1, c :: rest =>
    if c = '<' then
      match rest with
      | b :: r :: r3 =>
        if pyLowerChar b = 'b' ∧ pyLowerChar r = 'r' then
          let afterWs := r3.dropWhile (fun ch => isWs ch)
          let afterSlash := match afterWs with | '/' :: t => t | t => t
          match afterSlash with
          | '>' :: t => '\n' :: brSubF fuel t
          | _ => c :: brSubF fuel rest
        else c :: brSubF fuel rest
      | _ => c :: brSubF fuel rest
    else c :: brSubF fuel rest

/-- `re.sub(r"<br\s*/?>", "\n", ..., flags=IGNORECASE)`. -/
def brSub (s : Str) : Str := brSubF s.length s

/-- The tag-stripping substitution of `_visible_length`
(src/services/previews.py line 24): remove every maximal
`<` … non-empty body … `>` group, scanning left to right. -/
def stripTagsF : Nat → Str → Str
  | 0, s => s
  | _ + 1, [] => []
  | fuel + 1, c :: rest =>
    if c = '<' then
      match findChar '>' rest with
      | some (body, after) =>
        if body ≠ [] then stripTagsF fuel after
        else c :: stripTagsF fuel rest
      | none => c :: stripTagsF fuel rest
    else c :: stripTagsF fuel rest

/-- `re.sub(r"<[^>]+>", "", ...)`. -/
def stripTags (s : Str) : Str := stripTagsF s.length s

/-- The five entity references `html.escape` can produce, with their
characters. -/
def ENTITIES : List (Str × Char) :=
  [(str "amp;", '&'), (str "lt;", '<'), (str "gt;", '>'),
   (str "quot;", Char.ofNat 0x22), (str "#x27;", Char.ofNat 0x27)]

/-- Model of `html.unescape` restricted to the five entity references that
`html.escape` produces — the only ones the renderer ever emits; unknown
ampersand sequences stay literal, as in Python. -/
def unescape5F : Nat → Str → Str
  | 0, s => s
  | _ + 1, [] => []
  | fuel + 1, c :: rest =>
    if c = '&' then
      match ENTITIES.find? (fun e => startsWith rest e.1) with
      | some e => e.2 :: unescape5F fuel (rest.drop e.1.length)
      | none => c :: unescape5F fuel rest
    else c :: unescape5F fuel rest

/-- `html.unescape` over renderer output. -/
def unescape5 (s : Str) : Str := unescape5F s.length s

/-- Embeds `_visible_length` (src/services/previews.py lines 20-25): length
after `<br>` → newline, tag stripping and entity unescaping. -/
def visible_length (s : Str) : Nat := (unescape5 (stripTags (brSub s))).length

/-- Python `str.splitlines` for the line-break characters this code meets:
`\r\n`, `\r` and `\n` all break lines. -/
def pySplitLines (s : Str) : List Str :=
  splitOnChar '\n'
    ((pyReplace s (str "\r\n") (str "\n")).map (fun c => if c = '\r' then '\n' else c))

/-- Embeds `_clean_review` (src/services/previews.py lines 28-38): strip each
line, collapse blank runs, keep paragraph structure. -/
def clean_review (text : Str) : Str :=
  let lines := (pySplitLines text).map pyStrip
  let cleaned := lines.foldl (fun acc line =>
    if line = [] then (if acc ≠ [] ∧ acc.getLastD [' '] ≠ [] then acc ++ [[]] else acc)
    else acc ++ [line]) []
  pyStrip (joinWith (str "\n") cleaned)

/-- `_STRIPPABLE_MARKERS` (src/services/text_cleanup.py line 5). -/
def STRIPPABLE_MARKERS : Str :=
  ['*', '_', Char.ofNat 0x60, '~', Char.ofNat 0x27, Char.ofNat 0x22, '“', '”', '„', '”',
   '’', '«', '»', '‹', '›', '（', '）', '(', ')', '[', ']', Char.ofNat 0x7b, Char.ofNat 0x7d]

/-- Embeds `_normalize_text_for_compare` (src/services/text_cleanup.py lines
8-16): whitespace-normalize, strip marker characters (three times, as
written), drop a leading dash/bullet/colon run with following whitespace,
lowercase. -/
def normalize_text_for_compare (text : Str) : Str :=
  let normalized := normWs text
  let normalized := pyStripSet normalized STRIPPABLE_MARKERS
  let normalized := pyLStripSet normalized STRIPPABLE_MARKERS
  let normalized := pyRStripSet normalized STRIPPABLE_MARKERS
  let leadMark := fun (c : Char) =>
    c = '-' ∨ c = '–' ∨ c = '—' ∨ c = '•' ∨ c = ':' ∨ c = '*'
  let normalized :=
    match normalized with
    | c :: _ =>
      if leadMark c then (normalized.dropWhile leadMark).dropWhile (fun ch => isWs ch)
      else normalized
    | [] => normalized
  pyLower normalized

/-- The twelve full genitive month names of `_looks_like_ua_date`
(src/services/text_cleanup.py lines 19-33). -/
def UA_MONTH_WORDS : List Str :=
  [str "січня", str "лютого", str "березня", str "квітня", str "травня", str "червня",
   str "липня", str "серпня", str "вересня", str "жовтня", str "листопада", str "грудня"]

/-- Search of the `\b\d{1,2}\s+(months)\s+\d{4}\b` pattern of
`_looks_like_ua_date` (src/services/text_cleanup.py lines 34-36): a word
boundary, one or two digits, whitespace, a month word, whitespace, exactly
four digits then a boundary. -/
def uaDateAt (boundary : Bool) (s : Str) : Bool :=
  if ¬ boundary then false
  else
    let digits := s.takeWhile isDigitCh
    if digits.length = 0 ∨ 2 < digits.length then false
    else
      let s1 := s.drop digits.length
      if (s1.takeWhile (fun c => isWs c)) = [] then false
      else
        let s2 := s1.dropWhile (fun c => isWs c)
        match UA_MONTH_WORDS.find? (fun m => startsWith s2 m) with
        | none => false
        | some m =>
          let s3 := s2.drop m.length
          if (s3.takeWhile (fun c => isWs c)) = [] then false
          else
            let s4 := s3.dropWhile (fun c => isWs c)
            let year := s4.takeWhile isDigitCh
            year.length = 4

/-- Scan for the UA-date pattern at every position. -/
def uaDateSearch : Bool → Str → Bool
  | boundary, [] => uaDateAt boundary []
  | boundary, c :: rest =>
    uaDateAt boundary (c :: rest) || uaDateSearch (¬ isWordChar c) rest

/-- Embeds `_looks_like_ua_date` (src/services/text_cleanup.py lines 19-38). -/
def looks_like_ua_date (text : Str) : Bool :=
  uaDateSearch true (normalize_text_for_compare text)

/-- Embeds `_looks_like_person_intro` (src/services/text_cleanup.py lines
41-55): an early colon preceded by text starting with an uppercase letter. -/
def looks_like_person_intro (text : Str) : Bool :=
  let stripped := pyStrip text
  match findChar ':' stripped with
  | none => false
  | some (before, _) =>
    let colonPos := before.length
    if 100 < colonPos ∨ colonPos < 3 then false
    else
      let before_colon := pyStrip before
      match before_colon with
      | c :: _ => pyIsUpperChar c
      | [] => false

/-- One line of `strip_redundant_preamble`'s loop state: the cleaned lines,
whether the header is still being removed, and whether content was found. -/
def preamble_step (normalized_title : Str) (st : List Str × Bool × Bool) (line : Str) :
    List Str × Bool × Bool :=
  let cleaned := st.1
  let removing_header := st.2.1
  let found_content := st.2.2
  let stripped_line := pyStrip line
  if removing_header then
    if stripped_line = [] then (cleaned, removing_header, found_content)
    else
      let normalized_line := normalize_text_for_compare stripped_line
      let titleSkip :=
        if normalized_title ≠ [] then
          if normalized_line = normalized_title then true
          else if startsWith normalized_line normalized_title then
            pyStripSet (normalized_line.drop normalized_title.length)
              (str " .,:;!?-–—") = []
          else false
        else false
      if titleSkip then (cleaned, removing_header, found_content)
      else if looks_like_ua_date stripped_line ∨ looks_like_ua_date normalized_line then
        (cleaned, removing_header, found_content)
      else if looks_like_person_intro stripped_line then
        (cleaned, removing_header, found_content)
      else (cleaned ++ [stripped_line], false, true)
  else
    if found_content ∨ stripped_line ≠ [] then (cleaned ++ [stripped_line], false, found_content)
    else (cleaned, removing_header, found_content)

/-- Embeds `strip_redundant_preamble` (src/services/text_cleanup.py lines
58-97). -/
def strip_redundant_preamble (text title : Str) : Str :=
  if pyStrip text = [] then pyStrip text
  else
    let normalized_title := normalize_text_for_compare title
    let fin := (pySplitLines text).foldl (preamble_step normalized_title) ([], true, false)
    pyStrip (joinWith (str "\n") fin.1)

/-- Embeds `_strip_markdown_heading` (src/services/previews.py lines
110-121). -/
def strip_markdown_heading (text : Str) : Str :=
  let text := pyStrip text
  let text :=
    match text with
    | '#' :: _ => (text.dropWhile (fun c => c = '#')).dropWhile (fun c => isWs c)
    | _ => text
  let text :=
    if startsWith text (str "**") ∧ endsWith text (str "**") ∧ 4 < text.length then
      (text.drop 2).take (text.length - 4)
    else if startsWith text (str "__") ∧ endsWith text (str "__") ∧ 4 < text.length then
      (text.drop 2).take (text.length - 4)
    else text
  let text :=
    if startsWith text (str "*") ∧ endsWith text (str "*") ∧ 2 < text.length then
      (text.drop 1).take (text.length - 2)
    else text
  let text :=
    if startsWith text (str "_") ∧ endsWith text (str "_") ∧ 2 < text.length then
      (text.drop 1).take (text.length - 2)
    else text
  pyStrip text

/-- Embeds `_normalize_for_compare` (src/services/previews.py lines
106-107). -/
def normalize_for_compare (v : Str) : Str := pyCasefold (normWs v)

/-- The trailing loop of `_drop_leading_title`
(src/services/previews.py lines 150-155): drop further lines matching the
title, skipping blank runs after each. -/
def drop_title_loop : Nat → List Str → Str → List Str
  | 0, remaining, _ => remaining
  | fuel + 1, remaining, title_norm =>
    match remaining with
    | [] => []
    | l :: rest =>
      if normalize_for_compare (strip_markdown_heading l) = title_norm then
        drop_title_loop fuel (rest.dropWhile (fun x => pyStrip x = [])) title_norm
      else l :: rest

/-- Embeds `_drop_leading_title` (src/services/previews.py lines 124-157):
if the first non-blank line duplicates the title, drop it and any repeated
title lines (with intervening blanks) after it. -/
def drop_leading_title (review title : Str) : Str :=
  if pyStrip review = [] then pyStrip review
  else
    let lines := pySplitLines review
    let title_norm := normalize_for_compare title
    let firstIdx : Option Nat :=
      match lines.findIdx? (fun l => pyStrip l ≠ []) with
      | some idx =>
        if normalize_for_compare (strip_markdown_heading (lines.getD idx [])) = title_norm
        then some idx else none
      | none => none
    match firstIdx with
    | none => pyStrip review
    | some idx =>
      let remaining := (lines.drop (idx + 1)).dropWhile (fun x => pyStrip x = [])
      let remaining := drop_title_loop remaining.length remaining title_norm
      pyStrip (joinWith (str "\n") remaining)

/-- Python `str.isalnum` for ASCII and Cyrillic. -/
def pyIsAlnum (c : Char) : Bool :=
  isDigitCh c ∨ ('a' ≤ c ∧ c ≤ 'z') ∨ ('A' ≤ c ∧ c ≤ 'Z') ∨
    (0x400 ≤ c.toNat ∧ c.toNat ≤ 0x4FF)

/-- The `(i + 1) < length and text[i + 1] != ' '` part of the single-star
and single-underscore conditions: the next character exists and is not a
space. -/
def headNotSpace : Str → Bool
  | r :: _ => r != ' '
  | [] => false

/-- The `prev.isalnum()` part of the underscore rule, with no previous
character reading as `''` (not alphanumeric). -/
def prevAlnum : Option Char → Bool
  | some p => pyIsAlnum p
  | none => false

/-- The `after.isalnum()` part of the underscore rule: the character right
after the closing underscore, if any, is alphanumeric. -/
def afterAlnum (rest : Str) : Bool :=
  match findChar '_' rest with
  | some (_, after) =>
    match after with
    | a :: _ => pyIsAlnum a
    | [] => false
  | none => false

/-- The `[label](url)` shape test of `_format_inline`
(src/services/previews.py lines 214-217). -/
def linkShape (rest : Str) : Bool :=
  match findChar ']' rest with
  | some (_, afterClose) =>
    match afterClose with
    | '(' :: afterParen => (findChar ')' afterParen).isSome
    | _ => false
  | none => false

/-- Embeds `_format_inline` (src/services/previews.py lines 160-229) as a
recursion over the remaining characters, with the previous character carried
for the underscore-in-word rule and a fuel bound (the input length, always
sufficient since every step consumes at least one character).  The
accumulated plain runs of the source are escaped character by character,
which yields the same string since `html.escape` maps characters
independently. -/
def fmtInlineF : Nat → Option Char → Str → Str
  | 0, _, _ => []
  | _ + 1, _, [] => []
  | fuel + 1, prev, c :: rest =>
    if startsWith (c :: rest) (str "**") ∧ (findSub (str "**") (rest.drop 1)).isSome then
      match findSub (str "**") (rest.drop 1) with
      | some (inner, after) =>
        str "<b>" ++ fmtInlineF fuel none inner ++ str "</b>" ++ fmtInlineF fuel (some '*') after
      | none => []
    else if startsWith (c :: rest) (str "__") ∧ (findSub (str "__") (rest.drop 1)).isSome then
      match findSub (str "__") (rest.drop 1) with
      | some (inner, after) =>
        str "<b>" ++ fmtInlineF fuel none inner ++ str "</b>" ++ fmtInlineF fuel (some '_') after
      | none => []
    else if c = '*' ∧ headNotSpace rest ∧ (findChar '*' rest).isSome then
      match findChar '*' rest with
      | some (inner, after) =>
        str "<i>" ++ fmtInlineF fuel none inner ++ str "</i>" ++ fmtInlineF fuel (some '*') after
      | none => []
    else if c = '_' ∧ headNotSpace rest ∧ (findChar '_' rest).isSome ∧
        ¬ (prevAlnum prev ∨ afterAlnum rest) then
      match findChar '_' rest with
      | some (inner, after) =>
        str "<i>" ++ fmtInlineF fuel none inner ++ str "</i>" ++ fmtInlineF fuel (some '_') after
      | none => []
    else if c = '_' ∧ headNotSpace rest ∧ (findChar '_' rest).isSome then
      -- plain underscore inside a word
      '_' :: fmtInlineF fuel (some '_') rest
    else if c = Char.ofNat 0x60 ∧ (findChar (Char.ofNat 0x60) rest).isSome then
      match findChar (Char.ofNat 0x60) rest with
      | some (inner, after) =>
        str "<code>" ++ escape_text inner ++ str "</code>" ++
          fmtInlineF fuel (some (Char.ofNat 0x60)) after
      | none => []
    else if c = '[' ∧ linkShape rest then
      match findChar ']' rest with
      | some (label, afterClose) =>
        match afterClose with
        | _ :: afterParen =>
          match findChar ')' afterParen with
          | some (url, after) =>
            str "<a href=\"" ++ escape_attr url ++ str "\">" ++ fmtInlineF fuel none label ++
              str "</a>" ++ fmtInlineF fuel (some ')') after
          | none => []
        | [] => []
      | none => []
    else
      escapeChar false c ++ fmtInlineF fuel (some c) rest

/-- `_format_inline`. -/
def format_inline (s : Str) : Str := fmtInlineF s.length none s

/-- Embeds `_flush_list` (src/services/previews.py lines 232-240): append
the buffered list items ("marker content") to the result. -/
def flush_list (buffer : List (Str × Str)) (result : List Str) : List Str :=
  result ++ buffer.map (fun mc => if mc.1 ≠ [] then mc.1 ++ [' '] ++ mc.2 else mc.2)

/-- The numbered-item match `(\d+)[\.)]\s+(.*)` of
`_markdown_to_telegram_html` (src/services/previews.py line 266). -/
def numberMatch (stripped : Str) : Option (Str × Str) :=
  let digits := stripped.takeWhile isDigitCh
  if digits = [] then none
  else
    match stripped.drop digits.length with
    | c :: after =>
      if (c = '.' ∨ c = ')') ∧ (after.takeWhile (fun ch => isWs ch)) ≠ [] then
        some (digits, after.dropWhile (fun ch => isWs ch))
      else none
    | [] => none

/-- The heading match `#{1,6}\s+(.*)` of `_markdown_to_telegram_html`
(src/services/previews.py line 277). -/
def headingMatch (stripped : Str) : Option Str :=
  let hashes := stripped.takeWhile (fun c => c = '#')
  if 1 ≤ hashes.length ∧ hashes.length ≤ 6 ∧
      (stripped.drop hashes.length).takeWhile (fun ch => isWs ch) ≠ [] then
    some ((stripped.drop hashes.length).dropWhile (fun ch => isWs ch))
  else none

/-- The line loop of `_markdown_to_telegram_html`
(src/services/previews.py lines 252-285), with the result lines and the
bullet/number buffers as explicit state. -/
def md_go : List Str → List Str → List (Str × Str) → List (Str × Str) → List Str
  | [], result, bullets, numbers => flush_list numbers (flush_list bullets result)
  | line :: rest, result, bullets, numbers =>
    let stripped := pyStrip line
    if stripped = [] then
      let result := flush_list numbers (flush_list bullets result)
      let result := if result ≠ [] ∧ result.getLastD [' '] ≠ [] then result ++ [[]] else result
      md_go rest result [] []
    else if startsWith stripped (str "- ") ∨ startsWith stripped (str "* ") then
      let result := flush_list numbers result
      md_go rest result
        (bullets ++ [(str "•", format_inline (pyStrip (stripped.drop 2)))]) []
    else
      match numberMatch stripped with
      | some (number, content) =>
        let result := flush_list bullets result
        md_go rest result []
          (numbers ++ [(number ++ str ".", format_inline (pyStrip content))])
      | none =>
        let result := flush_list numbers (flush_list bullets result)
        match headingMatch stripped with
        | some content =>
          md_go rest (result ++ [str "<b>" ++ format_inline (pyStrip content) ++ str "</b>"])
            [] []
        | none => md_go rest (result ++ [format_inline stripped]) [] []

/-- Embeds `_markdown_to_telegram_html` (src/services/previews.py lines
243-287). -/
def markdown_to_telegram_html (markdown : Str) : Str :=
  if pyStrip markdown = [] then []
  else pyStrip (joinWith (str "\n") (md_go (pySplitLines markdown) [] [] []))

/-- Python `s.endswith(tuple_of_single_chars)`. -/
def endsWithAny (s : Str) (chars : Str) : Bool :=
  match s.getLast? with
  | some c => chars.contains c
  | none => false

/-- Embeds `_smart_trim` (src/services/previews.py lines 41-80): cut at a
sentence ending at least 40% in, else a newline at least 30% in, else a
word boundary, and mark the cut with an ellipsis.  `int(limit * 0.4)` and
`int(limit * 0.3)` are `2 * limit / 5` and `3 * limit / 10`: at these
magnitudes the float computation is exact. -/
def smart_trim (text : Str) (limit : Int) : Str :=
  if limit ≤ 0 then []
  else
    let text := pyStrip text
    if (text.length : Int) ≤ limit then text
    else
      let truncated := pyRStrip (text.take limit.toNat)
      let best :=
        match SENTENCE_ENDINGS.findSome? (fun e =>
          match rfindChar e truncated with
          | some idx => if (limit * 2) / 5 ≤ (idx : Int) then
              some (pyStrip (truncated.take (idx + 1))) else none
          | none => none) with
        | some b => b
        | none => []
      let best :=
        if best = [] then
          match rfindChar '\n' truncated with
          | some idx => if (limit * 3) / 10 ≤ (idx : Int) then pyStrip (truncated.take idx) else []
          | none => []
        else best
      let best :=
        if best = [] then
          match rfindChar ' ' truncated with
          | some idx => pyStrip (truncated.take idx)
          | none => []
        else best
      let best := if best = [] then pyStrip truncated else best
      let best := pyRStripSet best ['-', '•']
      if best = [] then []
      else if ¬ endsWithAny best SENTENCE_ENDINGS then
        if ¬ endsWith best (str "…") then pyRStripSet best (str "…") ++ str "…" else best
      else best

/-- Embeds `_join_blocks` (src/services/previews.py lines 83-85). -/
def join_blocks (blocks : List Str) : Str :=
  joinWith (str "\n\n") ((blocks.map pyStrip).filter (fun b => b ≠ []))

/-- Embeds `_append_block` (src/services/previews.py lines 88-95). -/
def append_block (base block : Str) : Str :=
  let base := pyStrip base
  let block := pyStrip block
  if base = [] then block
  else if block = [] then base
  else base ++ str "\n\n" ++ block

/-- The scan loop of `_truncate_html_preserving_tags`
(src/services/previews.py lines 304-344), fueled by the input length (each
step consumes at least one character): accumulate whole tags (tracking the
open-tag stack, innermost first), whole entities (one visible character) and
plain characters up to the visible target. -/
def truncLoopF : Nat → Str → List Str → Str → Nat → Nat → Str × List Str
  | 0, _, openTags, acc, _, _ => (acc, openTags)
  | _ + 1, [], openTags, acc, _, _ => (acc, openTags)
  | fuel + 1, c :: rest, openTags, acc, count, target =>
    if ¬ (count < target) then (acc, openTags)
    else if c = '<' then
      match findChar '>' rest with
      | none => (acc, openTags)
      | some (body, after) =>
        let tag_body := pyStrip body
        let openTags2 :=
          if tag_body ≠ [] then
            let is_closing := startsWith tag_body (str "/")
            let tag_name0 := if is_closing then tag_body.drop 1 else tag_body
            let tag_name := match pySplitWs tag_name0 with | t :: _ => pyLower t | [] => []
            let is_self_closing := endsWith tag_body (str "/") ∨ VOID_TAGS.contains tag_name
            if is_closing then
              match openTags with
              | t :: ts => if t = tag_name then ts else openTags
              | [] => openTags
            else if ¬ is_self_closing ∧ tag_name ≠ [] then tag_name :: openTags
            else openTags
          else openTags
        truncLoopF fuel after openTags2 (acc ++ '<' :: body ++ ['>']) count target
    else if c = '&' then
      match findChar ';' rest with
      | none =>
        if target < count + 1 then (acc, openTags)
        else truncLoopF fuel rest openTags (acc ++ [c]) (count + 1) target
      | some (body, after) =>
        if target < count + 1 then (acc, openTags)
        else truncLoopF fuel after openTags (acc ++ '&' :: body ++ [';']) (count + 1) target
    else
      if target < count + 1 then (acc, openTags)
      else truncLoopF fuel rest openTags (acc ++ [c]) (count + 1) target

/-- Embeds `_truncate_html_preserving_tags` (src/services/previews.py lines
290-359), with the (never-exhausted) recursion fuel bounding the
guard-driven self-call whose target strictly decreases. -/
def truncF : Nat → Str → Int → Str
  | 0, _, _ => []
  | rfuel + 1, text, limit =>
    if limit ≤ 0 then []
    else if (visible_length text : Int) ≤ limit then text
    else
      let visible_target := max (limit - 1) 0
      let lr := truncLoopF text.length text [] [] 0 visible_target.toNat
      let truncated := pyRStrip lr.1
      let truncated :=
        if 0 < visible_target ∧ visible_target < (visible_length truncated : Int) then
          truncF rfuel truncated visible_target
        else truncated
      let truncated :=
        if ¬ endsWith truncated (str "…") then
          let truncated := pyRStrip truncated
          let truncated :=
            if truncated ≠ [] ∧ isWs (truncated.getLastD ' ') then pyRStrip truncated
            else truncated
          truncated ++ str "…"
        else truncated
      truncated ++ lr.2.flatMap (fun tag => str "</" ++ tag ++ str ">")

/-- `_truncate_html_preserving_tags`. -/
def truncate_html_preserving_tags (text : Str) (limit : Int) : Str :=
  truncF (limit.toNat + 1) text limit

/-- Embeds `_truncate_before_subscribe` (src/services/previews.py lines
362-387). -/
def truncate_before_subscribe (main_text subscribe_block : Str) (total_limit : Int) : Str :=
  let subscribe := pyStrip subscribe_block
  if subscribe = [] then truncate_html_preserving_tags main_text total_limit
  else
    let main := pyStrip main_text
    if main = [] then truncate_html_preserving_tags subscribe_block total_limit
    else
      let joiner_len : Int := 2
      let available_for_main := total_limit - (visible_length subscribe : Int) - joiner_len
      if available_for_main < 0 then truncate_html_preserving_tags subscribe_block total_limit
      else
        let truncated_main := truncate_html_preserving_tags main available_for_main
        let result := append_block truncated_main subscribe_block
        if (visible_length result : Int) ≤ total_limit then result
        else
          let overflow := (visible_length result : Int) - total_limit
          let truncated_main2 :=
            truncate_html_preserving_tags truncated_main (max (available_for_main - overflow) 0)
          let result2 := append_block truncated_main2 subscribe_block
          if (visible_length result2 : Int) ≤ total_limit then result2
          else truncate_html_preserving_tags subscribe_block total_limit

/-- The tag-word-dropping loop of `build_variant`
(src/services/previews.py lines 437-449): keep shortening the tag-token
prefix (down to none) until the candidate fits. -/
def drop_tags_loop (header review_html link_line subscribe : Str) (total_limit : Int) :
    Nat → List Str → Option Str
  | 0, _ => none
  | k + 1, tokens =>
    let candidate_tags := joinWith [' '] (tokens.take k)
    let main_text := join_blocks [header, review_html, link_line, candidate_tags]
    let text_candidate := append_block main_text subscribe
    if (visible_length text_candidate : Int) ≤ total_limit then some text_candidate
    else drop_tags_loop header review_html link_line subscribe total_limit k tokens

/-- The shrink loop of `build_variant` (src/services/previews.py lines
415-467), fueled by the starting budget (each retry shrinks the budget by at
least one, so the fuel is never exhausted): trim the review to the budget,
re-measure the assembled candidate, shrink on overflow; at budget zero drop
tag words, then drop the tag block, then truncate before the promo block.
The source's inner `if limit > 0: continue` branch is unreachable (it sits
under `candidate_length > total_limit and limit <= 0`) and is dropped. -/
def build_variant_go (header review_wt link_line tags_line subscribe : Str)
    (total_limit : Int) : Nat → Int → Str
  | 0, _ => []
  | fuel + 1, limit =>
    let review_candidate_md := smart_trim review_wt limit
    let review_candidate_html := markdown_to_telegram_html review_candidate_md
    let main_text := join_blocks [header, review_candidate_html, link_line, tags_line]
    let text_candidate := append_block main_text subscribe
    let candidate_length := (visible_length text_candidate : Int)
    if candidate_length ≤ total_limit then text_candidate
    else if limit ≤ 0 then
      let afterTags : Option Str :=
        if tags_line ≠ [] then
          let tags_tokens := pySplitWs tags_line
          match drop_tags_loop header review_candidate_html link_line subscribe total_limit
              tags_tokens.length tags_tokens with
          | some r => some r
          | none =>
            let main_text := join_blocks [header, review_candidate_html, link_line]
            let text_candidate := append_block main_text subscribe
            if (visible_length text_candidate : Int) ≤ total_limit then some text_candidate
            else none
        else none
      match afterTags with
      | some r => r
      | none =>
        truncate_before_subscribe (join_blocks [header, review_candidate_html, link_line])
          subscribe total_limit
    else
      let overflow := candidate_length - total_limit
      build_variant_go header review_wt link_line tags_line subscribe total_limit fuel
        (max (limit - max overflow 1) 0)

/-- The two preview variants (`PREVIEW_WITH_IMAGE`, `PREVIEW_WITHOUT_IMAGE`
keys of the returned dict). -/
structure PreviewVariants where
  with_image : Str
  without_image : Str
deriving DecidableEq, Repr

/-- The rendered subscribe-promo block of `build_preview_variants`
(src/services/previews.py lines 398-402). -/
def subscribe_block_rendered : Str :=
  str "<a href=\"" ++ escape_attr SUBSCRIBE_PROMO_URL ++ str "\">" ++
    str "<b>" ++ escape_text SUBSCRIBE_PROMO_TEXT ++ str "</b>" ++ str "</a>"

/-- Embeds `build_preview_variants` (src/services/previews.py lines
390-475). -/
def build_preview_variants (title review_md link_url tags : Str) : PreviewVariants :=
  let header := str "<b>" ++ escape_text (pyStrip title) ++ str "</b>"
  let review_clean := clean_review review_md
  let review_clean2 := strip_redundant_preamble review_clean title
  let review_without_title := drop_leading_title review_clean2 title
  let link_line := str "<a href=\"" ++ escape_attr link_url ++ str "\">читати далі>></a>"
  let tags_line := escape_text (pyStrip tags)
  let subscribe_block := subscribe_block_rendered
  let base_without_review :=
    append_block (join_blocks [header, link_line, tags_line]) subscribe_block
  let available_with : Int := 1024 - (visible_length base_without_review : Int) - 2
  let available_without : Int := 4096 - (visible_length base_without_review : Int) - 2
  let build := fun (base_limit total_limit : Int) =>
    build_variant_go header review_without_title link_line tags_line subscribe_block
      total_limit ((max base_limit 0).toNat + 1) (max base_limit 0)
  ⟨build available_with 1024, build available_without 4096⟩

/- ===================================================================
   Token model of the preview fragments, and the balance checker
   =================================================================== -/

/-- Spec-side checker for the claim's "contains no unbalanced markup
tags": scan the string with the same tag grammar as
`_truncate_html_preserving_tags` (angle group up to the next `>`, name =
first whitespace-separated word lowercased, self-closing when the body
ends in `/` or the name is void); an opening tag pushes its name, a
closing tag must match the innermost open name, a dangling `<` or a stray
or mismatched closer fails, and at the end no tag may remain open. -/
def balScanF : Nat → Str → List Str → Bool
  | 0, _, st => st.isEmpty
  | _ + 1, [], st => st.isEmpty
  | fuel + 1, c :: rest, st =>
    if c = '<' then
      match findChar '>' rest with
      | none => false
      | some (body, after) =>
        let tag_body := pyStrip body
        if tag_body = [] then balScanF fuel after st
        else
          let is_closing := startsWith tag_body (str "/")
          let tag_name0 := if is_closing then tag_body.drop 1 else tag_body
          let tag_name := match pySplitWs tag_name0 with | t :: _ => pyLower t | [] => []
          let is_self_closing := endsWith tag_body (str "/") ∨ VOID_TAGS.contains tag_name
          if is_closing then
            match st with
            | t :: ts => if t = tag_name then balScanF fuel after ts else false
            | [] => false
          else if ¬ is_self_closing ∧ tag_name ≠ [] then balScanF fuel after (tag_name :: st)
          else balScanF fuel after st
    else balScanF fuel rest st

/-- No unbalanced markup tags, in the sense of the claim. -/
def balancedHtml (s : Str) : Bool := balScanF s.length s []

/-- Markup tokens of the renderer's output fragments: an opening tag
`<name attrs>`, a closing tag `</name>`, an entity reference
`&body` (the body carries its closing `;`), or one plain character. -/
inductive Tok where
  | tOpen (name attrs : Str)
  | tClose (name : Str)
  | ent (e : Str × Char)
  | chr (c : Char)
deriving DecidableEq, Repr

/-- The characters a token denotes in the HTML string. -/
def renderTok : Tok → Str
  | .tOpen name attrs => '<' :: (name ++ attrs) ++ ['>']
  | .tClose name => '<' :: '/' :: name ++ ['>']
  | .ent e => '&' :: e.1
  | .chr c => [c]

/-- Concatenated rendering of a token list. -/
def renderList (toks : List Tok) : Str := toks.flatMap renderTok

/-- Tag names the preview renderer emits. -/
def tagNames : List Str := [str "b", str "i", str "code", str "a"]

/-- The first whitespace-separated word, lowercased — the tag-name parse
used by `_truncate_html_preserving_tags`. -/
def firstWordLower (s : Str) : Str :=
  match pySplitWs s with | t :: _ => pyLower t | [] => []

/-- The attribute part of an opening tag is absent or led by whitespace,
so the name parse stops at the name. -/
def attrsLead : Str → Bool
  | [] => true
  | c :: _ => isWs c

/-- Well-formedness of one token: its rendering re-parses unambiguously
under the scanners of `_visible_length` and
`_truncate_html_preserving_tags`. -/
def wfTok : Tok → Prop
  | .tOpen name attrs =>
    name ∈ tagNames ∧ '>' ∉ attrs ∧ '<' ∉ attrs ∧
    pyStrip (name ++ attrs) = name ++ attrs ∧
    firstWordLower (name ++ attrs) = name ∧
    endsWith (name ++ attrs) (str "/") = false ∧
    attrsLead attrs = true
  | .tClose name => name ∈ tagNames
  | .ent e => e ∈ ENTITIES
  | .chr c => c ≠ '<' ∧ c ≠ '&'

/-- Every token of the list is well-formed. -/
def wfToks (toks : List Tok) : Prop := ∀ t ∈ toks, wfTok t

/-- Non-tag tokens: the ones that render to visible characters. -/
def nonTag : Tok → Bool
  | .tOpen _ _ => false
  | .tClose _ => false
  | .ent _ => true
  | .chr _ => true

/-- Number of visible characters a token list renders to. -/
def visCount (toks : List Tok) : Nat := (toks.filter nonTag).length

/-- The single visible character of a non-tag token. -/
def visChar : Tok → Char
  | .ent e => e.2
  | .chr c => c
  | _ => ' '

/-- Proper-nesting run: an opener pushes its name, a closer must match
the innermost open name, otherwise the run fails. -/
def nestProper : List Tok → List Str → Option (List Str)
  | [], st => some st
  | .tOpen name _ :: ts, st => nestProper ts (name :: st)
  | .tClose name :: ts, st =>
    (match st with
     | t :: rest => if t = name then nestProper ts rest else none
     | [] => none)
  | .ent _ :: ts, st => nestProper ts st
  | .chr _ :: ts, st => nestProper ts st

/-- A balanced fragment: the rendering of well-formed, properly nested
tokens.  Every string the preview builder assembles has this shape. -/
def BalFrag (s : Str) : Prop :=
  ∃ toks, s = renderList toks ∧ wfToks toks ∧ nestProper toks [] = some []

/-- A text fragment: entities and plain characters only — the shape of
`html.escape` output. -/
def TextFrag (s : Str) : Prop :=
  ∃ toks, s = renderList toks ∧ wfToks toks ∧ ∀ t ∈ toks, nonTag t = true

/-- A plain fragment: no `<` and no `&` at all. -/
def PlainOk (s : Str) : Prop := ∀ c ∈ s, c ≠ '<' ∧ c ≠ '&'

/-- The open-tag-stack transition of the truncation scanner (which
ignores mismatched closers rather than failing). -/
def scanStackTok (st : List Str) : Tok → List Str
  | .tOpen name _ => name :: st
  | .tClose name =>
    (match st with
     | t :: ts => if t = name then ts else st
     | [] => st)
  | .ent _ => st
  | .chr _ => st

/-- Whitespace character token. -/
def isWsChr : Tok → Bool
  | .chr c => isWs c
  | _ => false

/-- Token-level `rstrip`: drop trailing whitespace character tokens. -/
def rstripToks (toks : List Tok) : List Tok := (toks.reverse.dropWhile isWsChr).reverse

/-- Token-level `lstrip`: drop leading whitespace character tokens. -/
def lstripToks (toks : List Tok) : List Tok := toks.dropWhile isWsChr

/-- The token `html.escape` emits for one character. -/
def escTokC (quote : Bool) (c : Char) : Tok :=
  if c = '&' then .ent (str "amp;", '&')
  else if c = '<' then .ent (str "lt;", '<')
  else if c = '>' then .ent (str "gt;", '>')
  else if quote ∧ c = Char.ofNat 0x22 then .ent (str "quot;", Char.ofNat 0x22)
  else if quote ∧ c = Char.ofNat 0x27 then .ent (str "#x27;", Char.ofNat 0x27)
  else .chr c

/-- The token list `html.escape` emits for a string. -/
def escToks (quote : Bool) (s : Str) : List Tok := s.map (escTokC quote)

/-- The open-tag-stack update of the truncation scanner for one angle
group with the given body, written with `firstWordLower` for the name
parse; definitionally equal to the corresponding block of `truncLoopF`. -/
def tagStackStep (body : Str) (openTags : List Str) : List Str :=
  if pyStrip body ≠ [] then
    let tag_body := pyStrip body
    let is_closing := startsWith tag_body (str "/")
    let tag_name := firstWordLower (if is_closing then tag_body.drop 1 else tag_body)
    let is_self_closing := endsWith tag_body (str "/") ∨ VOID_TAGS.contains tag_name
    if is_closing then
      match openTags with
      | t :: ts => if t = tag_name then ts else openTags
      | [] => openTags
    else if ¬ is_self_closing ∧ tag_name ≠ [] then tag_name :: openTags
    else openTags
  else openTags

/-- Whitespace normalization of one token, mirroring the character map
inside `pySplitWs`. -/
def mapWsTok : Tok → Tok
  | .chr c => .chr (if isWs c then ' ' else c)
  | t => t

/-- Token-level mirror of `splitOnChar ' '`: cut at space character
tokens. -/
def tokSplit : List Tok → List (List Tok)
  | [] => [[]]
  | t :: rest =>
    let ps := tokSplit rest
    if t = Tok.chr ' ' then [] :: ps
    else
      match ps with
      | [] => [[t]]
      | p :: ps2 => (t :: p) :: ps2

/-- The preview-variant contract of the renderer: within the visible
budget, a render of well-formed properly-nested markup tokens, and
non-empty. -/
def variantOk (total : Int) (s : Str) : Prop :=
  (visible_length s : Int) ≤ total ∧ BalFrag s ∧ s ≠ []

/-- A concrete ingest environment for witnesses: every plain fetch succeeds
with a small page and summary selection returns a fixed body. -/
def c7EnvW : IngestEnv where
  staged := fun _ => none
  httpxGet := fun _ => .ok (200, str "<p>hi</p>")
  extractImage := fun _ _ => none
  chooseSummary := fun _ _ _ => some (str "Short body.")
  extractNbuBody := fun _ => none
  extractBodyFallback := fun _ => none
  isReliableNbuBody := fun _ _ => true

end FinTax

open FinTax

/- ===================================================================
   Theorems
   =================================================================== -/

/-- Helper: the html kept by the step loop is the first non-empty html of an
executed step, independently of the accumulated log and the step labels. -/
theorem staged_fetch_go_fst (steps : List (Str × StepResult)) (log : List Attempt) :
    (staged_fetch_go steps log).fst = specFirstHtml (steps.map Prod.snd) := by
  induction steps generalizing log with
  | nil => rfl
  | cons p rest ih =>
    obtain ⟨label, r⟩ := p
    simp only [staged_fetch_go, specFirstHtml, List.map_cons]
    by_cases hex : r.executed
    · simp only [hex, not_true_eq_false, if_false, if_true]
      cases hh : r.html with
      | none => exact ih _
      | some h =>
        by_cases hne : h = []
        · simp [hne, ih]
        · simp [hne]
    · simp [hex, ih]

/-- C10: the admission whitelist is matched by raw string-suffix comparison
on the normalized domain with no dot-boundary check: a domain is admitted
exactly when some configured entry is a literal suffix of it, and in
particular "eviltax.gov.ua" — which merely ends with the entry "tax.gov.ua"
and is not that host nor one of its dot-subdomains — is admitted. -/
theorem c10_whitelist_raw_suffix :
    (∀ d : Str, in_whitelist_lvl1 d = whitelist_level1.any (fun e => endsWith d (pyStrip e)))
    ∧ in_whitelist_lvl1 (str "eviltax.gov.ua") = true
    ∧ str "eviltax.gov.ua" ≠ str "tax.gov.ua"
    ∧ endsWith (str "eviltax.gov.ua") (str ".tax.gov.ua") = false := by
  refine ⟨fun d => rfl, by decide, by decide, by decide⟩

/-- C8: the fetch ladder runs its steps strictly sequentially in the fixed
order (httpx h2, httpx h1, curl_cffi, playwright); when the first two steps
return HTTP 403 and the third returns 200 with content, the fetch returns
that content for any behaviour of the fourth step, and the attempt log holds
exactly the three recorded steps in order. -/
theorem c8_ladder_sequential_three_attempts :
    ∀ (t1 t2 c : Str) (o4 : BrowserOutcome), c ≠ [] →
      staged_fetch true true (.ok (403, t1)) (.ok (403, t2)) (.ok (200, c)) o4 =
        (some c,
          [.status (str "httpx h2") 403, .status (str "httpx h1") 403,
            .status (str "curl_cffi") 200]) := by
  intro t1 t2 c o4 hc
  simp [staged_fetch, staged_fetch_html, httpx_fetch, curl_cffi_fetch, staged_fetch_go,
    logEntry, hc]

/-- Witness for C8 at a concrete content string. -/
theorem c8_ladder_sequential_three_attempts_witness :
    staged_fetch true true (.ok (403, str "x")) (.ok (403, str "x"))
        (.ok (200, str "<html>ok</html>")) (.error (str "unused")) =
      (some (str "<html>ok</html>"),
        [.status (str "httpx h2") 403, .status (str "httpx h1") 403,
          .status (str "curl_cffi") 200]) :=
  c8_ladder_sequential_three_attempts (str "x") (str "x") (str "<html>ok</html>")
    (.error (str "unused")) (by decide)

/-- C2 counterexample: when the three HTTP-client steps fail with 403 and the
playwright step completes with non-empty HTML but HTTP status 403 — not a
success status — the orchestrator still returns that HTML, contradicting the
claim that such a step is not treated as a success and its HTML is not
returned. -/
theorem c2_counterexample_playwright_403_html_returned :
    (staged_fetch true true (.ok (403, str "")) (.ok (403, str "")) (.ok (403, str ""))
        (.ok (some 403, str "<html>bot wall</html>"))).fst =
      some (str "<html>bot wall</html>") := by
  decide

/-- C2 (amended): the three HTTP-client steps (httpx h2, httpx h1, curl_cffi)
treat only HTTP 200 with non-empty text as success and surface no HTML
otherwise; the playwright step returns whatever content it rendered
regardless of the HTTP status; and the orchestrator keeps the first executed
step result with non-empty HTML, with no status check of its own. -/
theorem c2_first_nonempty_html_no_status_gate :
    (∀ status text, status ≠ 200 → (httpx_fetch (.ok (status, text))).html = none)
    ∧ (∀ status text, status ≠ 200 →
        (curl_cffi_fetch true (.ok (status, text))).html = none)
    ∧ (∀ status content, (playwright_fetch true (.ok (status, content))).html = some content)
    ∧ (∀ r1 r2 r3 r4 : StepResult,
        (staged_fetch_html r1 r2 r3 r4).fst = specFirstHtml [r1, r2, r3, r4]) := by
  refine ⟨?_, ?_, ?_, ?_⟩
  · intro status text hs
    simp [httpx_fetch, hs]
  · intro status text hs
    simp [curl_cffi_fetch, hs]
  · intro status content
    simp [playwright_fetch]
  · intro r1 r2 r3 r4
    simpa using staged_fetch_go_fst
      [(str "httpx h2", r1), (str "httpx h1", r2), (str "curl_cffi", r3),
        (str "playwright", r4)] []

/-- Witness for the amended C2 theorem at concrete inputs. -/
theorem c2_first_nonempty_html_no_status_gate_witness :
    (httpx_fetch (.ok (403, str "x"))).html = none ∧
      (playwright_fetch true (.ok (some 500, str "y"))).html = some (str "y") :=
  ⟨c2_first_nonempty_html_no_status_gate.1 403 (str "x") (by decide),
    c2_first_nonempty_html_no_status_gate.2.2.1 (some 500) (str "y")⟩

/-- C3 counterexample: a 250-character text with 2 paragraph blocks whose
words do not occur in the source HTML satisfies the claim's gate (its first
disjunct) but is rejected by the code's `_is_valid`, which additionally
requires the first-words match as a conjunct. -/
theorem c3_counterexample_long_text_rejected :
    c3_claimed_gate (List.replicate 250 (Char.ofNat 97)) 2 (str "z") = true ∧
      is_valid (List.replicate 250 (Char.ofNat 97)) 2 (str "z") = false := by
  constructor
  · decide
  · decide

/-- C3 (amended): the gate accepts extracted text iff the text is non-empty,
AND its length is at least 250 or it has at least 2 paragraph blocks, AND at
least `max(3, n // 2)` of its first `n ≤ 10` significant words occur
literally in the lowercased source HTML — a conjunction, not the claimed
disjunction, with a 10-word sample rather than ~8. -/
theorem c3_gate_is_conjunction :
    ∀ (text : Str) (paragraphs : Nat) (html : Str),
      is_valid text paragraphs html = c3_amended_gate text paragraphs html := by
  intro text paragraphs html
  simp only [is_valid, c3_amended_gate, first_words_match]
  by_cases h0 : text = []
  · simp [h0]
  · simp only [h0, if_false]
    by_cases h1 : text.length < 250 ∧ paragraphs < 2
    · have h2 : ¬ (250 ≤ text.length) := by omega
      have h3 : ¬ (2 ≤ paragraphs) := by omega
      simp [h1, h2, h3]
    · have h2 : (250 ≤ text.length) ∨ (2 ≤ paragraphs) := by omega
      by_cases hw : words_findall (pyLower text) = []
      · simp [h1, hw]
      · have hs : (words_findall (pyLower text)).take 10 ≠ [] := by
          cases hlist : words_findall (pyLower text) with
          | nil => exact absurd hlist hw
          | cons a b => simp [hlist]
        rcases h2 with h2 | h2 <;>
          simp [h1, hw, hs, h2, decide_eq_true_eq]

/-- C6: for every reference datetime (aware or naive, or none at all) and
every clock reading, parsing "23 жовт. 2025 14:13" yields 2025-10-23 14:13
in the source site's local zone (Europe/Kyiv), whose correctly converted UTC
instant is 2025-10-23 11:13 (Kyiv is UTC+3 on that date); the result does
not depend on the reference time. -/
theorem c6_abbreviated_month_date_parse :
    ∀ (reference : Option (DT × Option Tz)) (now : DT),
      parse_ukrainian_date (str "23 жовт. 2025 14:13") reference now =
        some ⟨⟨2025, 10, 23, 14, 13, 0⟩, .kyiv⟩
      ∧ toUtc ⟨⟨2025, 10, 23, 14, 13, 0⟩, .kyiv⟩ = ⟨2025, 10, 23, 11, 13, 0⟩ := by
  intro reference now
  exact ⟨rfl, by decide⟩

/-- C7: whenever a first ingest call for a URL returns the "created"
verdict, a second ingest call with the same URL — under any environment —
returns "duplicate": the URL normalization is deterministic and the
existing-record check matches on both the normalized and the original URL,
so the same item is never stored twice. -/
theorem c7_ingest_idempotent :
    ∀ (env env2 : IngestEnv) (db : List ArticleRec) (url title : Str)
      (published : Option Int) (summary : Option Str) (db2 : List ArticleRec),
      ingest_one env db url title published summary = (str "created", db2) →
      (ingest_one env2 db2 url title published summary).fst = str "duplicate" := by
  intro env env2 db url title published summary db2 h
  unfold ingest_one at h ⊢
  by_cases hl : in_whitelist_lvl1 (domainOf (normalize_url url)) = true
  · rw [if_neg (not_not_intro hl)] at h
    rw [if_neg (not_not_intro hl)]
    by_cases hdup : db.any (fun a => a.url = normalize_url url ∨ a.url = url) = true
    · rw [if_pos hdup] at h
      have hA : str "duplicate" = str "created" := congrArg Prod.fst h
      exact absurd hA (by decide)
    · rw [if_neg hdup] at h
      cases hcl : ingest_classify env (domainOf (normalize_url url)) (normalize_url url)
        url title summary with
      | none =>
        rw [hcl] at h
        have hA : str "skipped_no_body" = str "created" := congrArg Prod.fst h
        exact absurd hA (by decide)
      | some p =>
        rw [hcl] at h
        obtain ⟨st, iu⟩ := p
        have hdb2 : db ++
            [⟨if title ≠ [] then title else normalize_url url, normalize_url url,
              domainOf (normalize_url url), published, st, iu,
              in_whitelist_lvl1 (domainOf (normalize_url url))⟩] = db2 :=
          congrArg Prod.snd h
        have hmem : db2.any (fun a => a.url = normalize_url url ∨ a.url = url) = true := by
          rw [← hdb2, List.any_append]
          simp
        rw [if_pos hmem]
  · rw [if_pos hl] at h
    have hA : str "skipped_level1" = str "created" := congrArg Prod.fst h
    exact absurd hA (by decide)

/-- Witness for C7: a concrete whitelisted URL whose first ingest is
"created" and whose repeat ingest is "duplicate". -/
theorem c7_ingest_idempotent_witness :
    (ingest_one c7EnvW [] (str "https://www.oecd.org/tax/news1") (str "T") none none).fst
        = str "created" ∧
      (ingest_one c7EnvW
          (ingest_one c7EnvW [] (str "https://www.oecd.org/tax/news1") (str "T") none none).snd
          (str "https://www.oecd.org/tax/news1") (str "T") none none).fst = str "duplicate" := by
  have h : ingest_one c7EnvW [] (str "https://www.oecd.org/tax/news1") (str "T") none none =
      (str "created",
        (ingest_one c7EnvW [] (str "https://www.oecd.org/tax/news1") (str "T") none none).snd) := by
    decide
  exact ⟨by rw [h], c7_ingest_idempotent c7EnvW c7EnvW [] _ _ none none _ h⟩

/-- C4 counterexample: on a document whose `<picture>` provides only a
"preview" image while a plain `<img>` elsewhere provides a non-preview one,
`extract_image` — the resolver the ingest pipeline calls — returns the
preview candidate from the `<picture>/<source>` pass, not the non-preview
`<img>` candidate: `<source>` srcsets outrank `<img>` attributes and carry
no "preview" filter there. -/
theorem c4_counterexample_extract_image_prefers_preview_source :
    extract_image c4Doc none = some (str "https://site.ua/images/preview1.jpg") ∧
      some (str "https://site.ua/images/preview1.jpg") ≠
        some (str "https://site.ua/images/photo.jpg") := by
  constructor
  · decide
  · decide

/-- C4 (amended): `extract_image` prefers `<picture>/<source>` srcset
candidates over plain `<img>` candidates even when the source candidate's
path contains "preview"; the rejection of preview candidates in favour of a
same-page non-preview image happens only in the separate tax-image pass
`prefer_tax_article_image`, which, fed the preview result as fallback
(as the draft image-upgrade handler feeds it), returns the non-preview
`<img>` candidate. -/
theorem c4_preview_rejected_only_in_tax_pass :
    extract_image c4Doc none = some (str "https://site.ua/images/preview1.jpg") ∧
      prefer_tax_article_image c4Doc none (extract_image c4Doc none) =
        some (str "https://site.ua/images/photo.jpg") := by
  constructor
  · decide
  · decide

/-- Helper: a paragraph node reduces the collection loop to the text step. -/
theorem collect_go_cons_p (h t : Str) (anc : List HNode)
    (rest : List (HNode × List HNode)) (blocks : List Block) (seen : List Str)
    (paragraphs : Nat) :
    collect_go h ((pNode t, anc) :: rest) blocks seen paragraphs =
      match text_step h (str "p") (normWs t) blocks seen paragraphs with
      | .inl (b, s, p) => collect_go h rest b s p
      | .inr r => r := rfl

/-- Helper: a text node is skipped by the collection loop. -/
theorem collect_go_cons_txt (h t : Str) (anc : List HNode)
    (rest : List (HNode × List HNode)) (blocks : List Block) (seen : List Str)
    (paragraphs : Nat) :
    collect_go h ((HNode.txt t, anc) :: rest) blocks seen paragraphs =
      collect_go h rest blocks seen paragraphs := rfl

/-- Helper: an empty string contains no stop phrase. -/
theorem hasStop_nil : hasStop [] = false := by decide

/-- Helper: the text step on a non-empty stop-free paragraph text appends
its block, records it as seen, and counts the paragraph. -/
theorem text_step_appends (h t : Str) (blocks : List Block) (seen : List Str)
    (paragraphs : Nat) (h2 : t ≠ []) (h3 : hasStop (pyLower t) = false)
    (h4 : pyCasefold t ≠ h) (h5 : (seen.any fun s => decide (s = t)) = false) :
    text_step h (str "p") t blocks seen paragraphs =
      .inl (blocks ++ [⟨t, str "p"⟩], seen ++ [t], paragraphs + 1) := by
  simp only [text_step]
  rw [if_neg h2]
  rw [if_neg (show ¬ (hasStop (pyLower t) = true) by rw [h3]; exact Bool.false_ne_true)]
  rw [if_neg (fun hc => h4 hc.2)]
  rw [if_neg (show ¬ (str "p" = str "li") by decide)]
  rw [if_neg (show ¬ ((seen.any fun s => decide (s = t)) = true) by
    rw [h5]; exact Bool.false_ne_true)]
  simp

/-- Helper: the text step stops on a stop phrase, keeping the state. -/
theorem text_step_stop (h t0 : Str) (blocks : List Block) (seen : List Str)
    (paragraphs : Nat) (hne : t0 ≠ []) (hstop : hasStop (pyLower t0) = true) :
    text_step h (str "p") t0 blocks seen paragraphs =
      .inr ⟨blocks, paragraphs, firstStop (pyLower t0)⟩ := by
  simp only [text_step]
  rw [if_neg hne, if_pos hstop]

/-- Helper: the collection loop over paragraphs followed by a share
paragraph collects exactly the paragraph texts and stops at the share
paragraph, whatever follows it. -/
theorem collect_go_body_share (h share : Str) (post : List HNode) :
    ∀ (bodyTexts : List Str) (anc : List HNode) (blocks : List Block) (seen : List Str)
      (paragraphs : Nat),
      (∀ t ∈ bodyTexts, normWs t = t ∧ t ≠ [] ∧ hasStop (pyLower t) = false ∧
        pyCasefold t ≠ h ∧ (seen.any fun s => decide (s = t)) = false) →
      bodyTexts.Nodup →
      hasStop (pyLower (normWs share)) = true →
      collect_go h (withAncList (bodyTexts.map pNode ++ [pNode share] ++ post) anc)
          blocks seen paragraphs =
        ⟨blocks ++ bodyTexts.map (fun t => ⟨t, str "p"⟩), paragraphs + bodyTexts.length,
          firstStop (pyLower (normWs share))⟩ := by
  intro bodyTexts
  induction bodyTexts with
  | nil =>
    intro anc blocks seen paragraphs _ _ hstop
    have hne : normWs share ≠ [] := by
      intro hcon
      rw [hcon] at hstop
      have : pyLower ([] : Str) = [] := rfl
      rw [this, hasStop_nil] at hstop
      exact Bool.false_ne_true hstop
    rw [show (List.map pNode [] ++ [pNode share] ++ post) = pNode share :: post by simp]
    rw [show withAncList (pNode share :: post) anc =
      (pNode share, anc) :: ((HNode.txt share, pNode share :: anc) :: withAncList post anc)
      from rfl]
    rw [collect_go_cons_p]
    rw [text_step_stop h (normWs share) blocks seen paragraphs hne hstop]
    simp
  | cons t ts ih =>
    intro anc blocks seen paragraphs hts hnodup hstop
    obtain ⟨h1, h2, h3, h4, h5⟩ := hts t (by simp)
    rw [show (List.map pNode (t :: ts) ++ [pNode share] ++ post) =
      pNode t :: (List.map pNode ts ++ [pNode share] ++ post) by simp]
    rw [show withAncList (pNode t :: (List.map pNode ts ++ [pNode share] ++ post)) anc =
      (pNode t, anc) :: ((HNode.txt t, pNode t :: anc) ::
        withAncList (List.map pNode ts ++ [pNode share] ++ post) anc) from rfl]
    rw [collect_go_cons_p, h1]
    rw [text_step_appends h t blocks seen paragraphs h2 h3 h4 h5]
    show collect_go h ((HNode.txt t, pNode t :: anc) ::
        withAncList (List.map pNode ts ++ [pNode share] ++ post) anc)
      (blocks ++ [⟨t, str "p"⟩]) (seen ++ [t]) (paragraphs + 1) = _
    rw [collect_go_cons_txt]
    have hih := ih anc (blocks ++ [Block.mk t (str "p")]) (seen ++ [t]) (paragraphs + 1)
      (by
        intro u hu
        obtain ⟨g1, g2, g3, g4, g5⟩ := hts u (by simp [hu])
        refine ⟨g1, g2, g3, g4, ?_⟩
        rw [List.any_append, g5]
        simp only [Bool.false_or, List.any_cons, List.any_nil, Bool.or_false]
        have hne2 : u ≠ t := by
          intro hcon
          rw [hcon] at hu
          exact (List.nodup_cons.mp hnodup).1 hu
        have hne3 : ¬ t = u := fun hc => hne2 hc.symm
        simp [hne2, hne3])
      (List.nodup_cons.mp hnodup).2 hstop
    rw [hih]
    have harith : paragraphs + 1 + ts.length = paragraphs + (ts.length + 1) := by omega
    simp only [List.append_assoc, List.singleton_append, List.map_cons, List.length_cons,
      harith]

/-- C5: for every article body rendered as paragraph blocks followed by a
share block (text containing "Поділитися") and any trailing nodes, block
collection returns exactly the body blocks occurring before the share block
and excludes the share block and every block after it; collection stops on
the first stop phrase (case-insensitive substring match), which is recorded
as the stop reason. -/
theorem c5_share_block_bounds_extraction :
    ∀ (bodyTexts : List Str) (share : Str) (post : List HNode) (h : Str),
      (∀ t ∈ bodyTexts, normWs t = t ∧ t ≠ [] ∧ hasStop (pyLower t) = false ∧
        pyCasefold t ≠ h) →
      bodyTexts.Nodup →
      containsSub (pyLower (normWs share)) (str "поділитися") = true →
      collect_blocks (.elem (str "div") []
          (bodyTexts.map pNode ++ [pNode share] ++ post)) none h =
        ⟨bodyTexts.map (fun t => ⟨t, str "p"⟩), bodyTexts.length,
          firstStop (pyLower (normWs share))⟩ := by
  intro bodyTexts share post h hts hnodup hshare
  have hstop : hasStop (pyLower (normWs share)) = true := by
    unfold hasStop
    rw [List.any_eq_true]
    exact ⟨str "поділитися", by decide, hshare⟩
  unfold collect_blocks iter_blocks properWithAnc
  have := collect_go_body_share h share post bodyTexts
    [.elem (str "div") [] (bodyTexts.map pNode ++ [pNode share] ++ post)] [] [] 0
    (by
      intro u hu
      obtain ⟨g1, g2, g3, g4⟩ := hts u hu
      exact ⟨g1, g2, g3, g4, rfl⟩)
    hnodup hstop
  rw [this]
  simp

/-- Witness for C5 at a concrete two-paragraph body with a share block and a
trailing block. -/
theorem c5_share_block_bounds_extraction_witness :
    collect_blocks (.elem (str "div") []
        ([str "Перший абзац тексту.", str "Другий абзац тексту."].map pNode ++
          [pNode (str "Поділитися новиною")] ++ [pNode (str "Інші новини")])) none
        (str "заголовок") =
      ⟨[⟨str "Перший абзац тексту.", str "p"⟩, ⟨str "Другий абзац тексту.", str "p"⟩], 2,
        some (str "поділитися")⟩ := by
  have := c5_share_block_bounds_extraction
    [str "Перший абзац тексту.", str "Другий абзац тексту."]
    (str "Поділитися новиною") [pNode (str "Інші новини")] (str "заголовок")
    (by decide) (by decide) (by decide)
  rw [this]
  decide

/- ===================================================================
   Token-model lemmas: rendering, nesting, escaping
   =================================================================== -/

theorem renderList_nil : renderList [] = [] := rfl

theorem renderList_cons (t : Tok) (ts : List Tok) :
    renderList (t :: ts) = renderTok t ++ renderList ts := by
  simp [renderList]

theorem renderList_append (a b : List Tok) :
    renderList (a ++ b) = renderList a ++ renderList b := by
  simp [renderList]

theorem wfToks_nil : wfToks [] := by
  intro t ht
  cases ht

theorem wfToks_append {a b : List Tok} (ha : wfToks a) (hb : wfToks b) : wfToks (a ++ b) := by
  intro t ht
  rcases List.mem_append.mp ht with h | h
  exacts [ha t h, hb t h]

theorem wfToks_cons {t : Tok} {ts : List Tok} (h1 : wfTok t) (h2 : wfToks ts) :
    wfToks (t :: ts) := by
  intro u hu
  rcases List.mem_cons.mp hu with h | h
  · exact h ▸ h1
  · exact h2 u h

theorem visCount_nil : visCount [] = 0 := rfl

theorem visCount_append (a b : List Tok) : visCount (a ++ b) = visCount a + visCount b := by
  simp [visCount, List.filter_append]

theorem visCount_cons_vis {t : Tok} (h : nonTag t = true) (ts : List Tok) :
    visCount (t :: ts) = visCount ts + 1 := by
  simp [visCount, List.filter_cons, h, Nat.add_comm]

theorem visCount_cons_tag {t : Tok} (h : nonTag t = false) (ts : List Tok) :
    visCount (t :: ts) = visCount ts := by
  simp [visCount, List.filter_cons, h]

theorem nestProper_append (a b : List Tok) (st : List Str) :
    nestProper (a ++ b) st =
      (match nestProper a st with
       | some st2 => nestProper b st2
       | none => none) := by
  induction a generalizing st with
  | nil => simp [nestProper]
  | cons t ts ih =>
    cases t with
    | tOpen n a2 => simp [nestProper, ih]
    | tClose n =>
      cases st with
      | nil => simp [nestProper]
      | cons hd r =>
        by_cases hn : hd = n
        · simp [nestProper, hn, ih]
        · simp [nestProper, hn]
    | ent e => simp [nestProper, ih]
    | chr c => simp [nestProper, ih]

theorem nestProper_neutral {b : List Tok} (h : ∀ t ∈ b, nonTag t = true) (st : List Str) :
    nestProper b st = some st := by
  induction b with
  | nil => rfl
  | cons t ts ih =>
    have ht := h t (List.mem_cons_self t ts)
    have hts : ∀ u ∈ ts, nonTag u = true := fun u hu => h u (List.mem_cons_of_mem t hu)
    cases t with
    | tOpen n a2 => simp [nonTag] at ht
    | tClose n => simp [nonTag] at ht
    | ent e => simpa [nestProper] using ih hts
    | chr c => simpa [nestProper] using ih hts

theorem scanStack_agree : ∀ (p : List Tok) (st stp : List Str),
    nestProper p st = some stp → List.foldl scanStackTok st p = stp := by
  intro p
  induction p with
  | nil =>
    intro st stp h
    simp [nestProper] at h
    simp [h]
  | cons t ts ih =>
    intro st stp h
    cases t with
    | tOpen n a2 =>
      simp only [nestProper] at h
      simpa [List.foldl_cons, scanStackTok] using ih _ _ h
    | tClose n =>
      cases st with
      | nil => simp [nestProper] at h
      | cons hd r =>
        by_cases hn : hd = n
        · subst hn
          simp only [nestProper, if_pos rfl] at h
          simpa [List.foldl_cons, scanStackTok] using ih _ _ h
        · simp [nestProper, hn] at h
    | ent e =>
      simp only [nestProper] at h
      simpa [List.foldl_cons, scanStackTok] using ih _ _ h
    | chr c =>
      simp only [nestProper] at h
      simpa [List.foldl_cons, scanStackTok] using ih _ _ h

theorem nestProper_frame : ∀ (p : List Tok) (s1 s2 e : List Str),
    nestProper p s1 = some s2 → nestProper p (s1 ++ e) = some (s2 ++ e) := by
  intro p
  induction p with
  | nil =>
    intro s1 s2 e h
    simp [nestProper] at h ⊢
    simp [h]
  | cons t ts ih =>
    intro s1 s2 e h
    cases t with
    | tOpen n a2 =>
      simp only [nestProper] at h ⊢
      exact ih _ _ _ h
    | tClose n =>
      cases s1 with
      | nil => simp [nestProper] at h
      | cons hd r =>
        by_cases hn : hd = n
        · subst hn
          simp only [nestProper, if_pos rfl, List.cons_append] at h ⊢
          exact ih _ _ _ h
        · simp [nestProper, hn] at h
    | ent e2 =>
      simp only [nestProper] at h ⊢
      exact ih _ _ _ h
    | chr c =>
      simp only [nestProper] at h ⊢
      exact ih _ _ _ h

theorem nestProper_closers : ∀ st : List Str, nestProper (st.map Tok.tClose) st = some [] := by
  intro st
  induction st with
  | nil => rfl
  | cons n r ih => simpa [nestProper] using ih

theorem balFrag_nil : BalFrag [] :=
  ⟨[], rfl, wfToks_nil, rfl⟩

theorem balFrag_append {a b : Str} (ha : BalFrag a) (hb : BalFrag b) : BalFrag (a ++ b) := by
  obtain ⟨ta, rfl, wa, pa⟩ := ha
  obtain ⟨tb, rfl, wb, pb⟩ := hb
  refine ⟨ta ++ tb, (renderList_append ta tb).symm, wfToks_append wa wb, ?_⟩
  rw [nestProper_append, pa]
  exact pb

theorem textFrag_nil : TextFrag [] := ⟨[], rfl, wfToks_nil, by intro t ht; cases ht⟩

theorem textFrag_append {a b : Str} (ha : TextFrag a) (hb : TextFrag b) : TextFrag (a ++ b) := by
  obtain ⟨ta, rfl, wa, na⟩ := ha
  obtain ⟨tb, rfl, wb, nb⟩ := hb
  refine ⟨ta ++ tb, (renderList_append ta tb).symm, wfToks_append wa wb, ?_⟩
  intro t ht
  rcases List.mem_append.mp ht with h | h
  exacts [na t h, nb t h]

theorem textFrag_balFrag {s : Str} (h : TextFrag s) : BalFrag s := by
  obtain ⟨toks, rfl, w, hnt⟩ := h
  exact ⟨toks, rfl, w, nestProper_neutral hnt []⟩

theorem renderList_map_chr (s : Str) : renderList (s.map Tok.chr) = s := by
  induction s with
  | nil => rfl
  | cons c t ih => simp [renderList, renderTok] at ih ⊢; exact ih

theorem plainOk_textFrag {s : Str} (h : PlainOk s) : TextFrag s := by
  refine ⟨s.map Tok.chr, (renderList_map_chr s).symm, ?_, ?_⟩
  · intro t ht
    obtain ⟨c, hc, rfl⟩ := List.mem_map.mp ht
    exact (h c hc)
  · intro t ht
    obtain ⟨c, hc, rfl⟩ := List.mem_map.mp ht
    rfl

theorem renderTok_escTokC (q : Bool) (c : Char) : renderTok (escTokC q c) = escapeChar q c := by
  by_cases h1 : c = '&'
  · simp [escTokC, escapeChar, h1, renderTok, str]
  · by_cases h2 : c = '<'
    · simp [escTokC, escapeChar, h1, h2, renderTok, str]
    · by_cases h3 : c = '>'
      · simp [escTokC, escapeChar, h1, h2, h3, renderTok, str]
      · by_cases h4 : q ∧ c = Char.ofNat 0x22
        · simp [escTokC, escapeChar, h1, h2, h3, h4, renderTok, str]
        · by_cases h5 : q ∧ c = Char.ofNat 0x27
          · simp [escTokC, escapeChar, h1, h2, h3, h4, h5, renderTok, str]
          · simp [escTokC, escapeChar, h1, h2, h3, h4, h5, renderTok, str]

theorem escape_render (q : Bool) (s : Str) :
    s.flatMap (escapeChar q) = renderList (escToks q s) := by
  induction s with
  | nil => rfl
  | cons c t ih =>
    simp only [escToks, List.map_cons, renderList_cons, List.flatMap_cons,
      renderTok_escTokC] at ih ⊢
    rw [ih]

theorem escTokC_wf (q : Bool) (c : Char) : wfTok (escTokC q c) := by
  by_cases h1 : c = '&'
  · simp [escTokC, h1, wfTok, ENTITIES]
  · by_cases h2 : c = '<'
    · simp [escTokC, h1, h2, wfTok, ENTITIES]
    · by_cases h3 : c = '>'
      · simp [escTokC, h1, h2, h3, wfTok, ENTITIES]
      · by_cases h4 : q ∧ c = Char.ofNat 0x22
        · simp [escTokC, h1, h2, h3, h4, wfTok, ENTITIES]
        · by_cases h5 : q ∧ c = Char.ofNat 0x27
          · simp [escTokC, h1, h2, h3, h4, h5, wfTok, ENTITIES]
          · simp [escTokC, h1, h2, h3, h4, h5, wfTok]

theorem escTokC_nonTag (q : Bool) (c : Char) : nonTag (escTokC q c) = true := by
  by_cases h1 : c = '&'
  · simp [escTokC, h1, nonTag]
  · by_cases h2 : c = '<'
    · simp [escTokC, h1, h2, nonTag]
    · by_cases h3 : c = '>'
      · simp [escTokC, h1, h2, h3, nonTag]
      · by_cases h4 : q ∧ c = Char.ofNat 0x22
        · simp [escTokC, h1, h2, h3, h4, nonTag]
        · by_cases h5 : q ∧ c = Char.ofNat 0x27
          · simp [escTokC, h1, h2, h3, h4, h5, nonTag]
          · simp [escTokC, h1, h2, h3, h4, h5, nonTag]

theorem textFrag_escape_text (s : Str) : TextFrag (escape_text s) := by
  refine ⟨escToks false s, escape_render false s, ?_, ?_⟩
  · intro t ht
    obtain ⟨c, _, rfl⟩ := List.mem_map.mp ht
    exact escTokC_wf false c
  · intro t ht
    obtain ⟨c, _, rfl⟩ := List.mem_map.mp ht
    exact escTokC_nonTag false c

theorem textFrag_escape_attr (s : Str) : TextFrag (escape_attr s) := by
  refine ⟨escToks true s, escape_render true s, ?_, ?_⟩
  · intro t ht
    obtain ⟨c, _, rfl⟩ := List.mem_map.mp ht
    exact escTokC_wf true c
  · intro t ht
    obtain ⟨c, _, rfl⟩ := List.mem_map.mp ht
    exact escTokC_nonTag true c

theorem balFrag_cons_plain {c : Char} {s : Str} (h1 : c ≠ '<') (h2 : c ≠ '&')
    (hs : BalFrag s) : BalFrag (c :: s) := by
  have : BalFrag ([c] ++ s) :=
    balFrag_append (textFrag_balFrag (plainOk_textFrag (by
      intro x hx
      rcases List.mem_singleton.mp hx with rfl
      exact ⟨h1, h2⟩))) hs
  simpa using this

/- ===================================================================
   Entity shapes, strip lemmas, token decompositions
   =================================================================== -/

theorem startsWith_cons_ne {x y : Char} (h : y ≠ x) (s p : Str) :
    startsWith (x :: s) (y :: p) = false := by
  have hb : (y == x) = false := by simp [h]
  simp [startsWith, List.isPrefixOf, hb]

theorem entity_cases {e : Str × Char} (h : e ∈ ENTITIES) :
    e = (str "amp;", '&') ∨ e = (str "lt;", '<') ∨ e = (str "gt;", '>') ∨
    e = (str "quot;", Char.ofNat 0x22) ∨ e = (str "#x27;", Char.ofNat 0x27) := by
  simpa [ENTITIES] using h

theorem entity_split {e : Str × Char} (h : e ∈ ENTITIES) :
    ∃ pre, e.1 = pre ++ [';'] ∧ (';' ∉ pre) := by
  rcases entity_cases h with rfl | rfl | rfl | rfl | rfl
  · exact ⟨['a', 'm', 'p'], by decide, by decide⟩
  · exact ⟨['l', 't'], by decide, by decide⟩
  · exact ⟨['g', 't'], by decide, by decide⟩
  · exact ⟨['q', 'u', 'o', 't'], by decide, by decide⟩
  · exact ⟨['#', 'x', '2', '7'], by decide, by decide⟩

theorem entity_no_special {e : Str × Char} (h : e ∈ ENTITIES) :
    ∀ c ∈ e.1, c ≠ '<' ∧ isWs c = false := by
  rcases entity_cases h with rfl | rfl | rfl | rfl | rfl <;> decide

theorem pyLStrip_cons_keep {c : Char} (h : isWs c = false) (s : Str) :
    pyLStrip (c :: s) = c :: s := by
  simp [pyLStrip, List.dropWhile_cons, h]

theorem pyLStrip_cons_drop {c : Char} (h : isWs c = true) (s : Str) :
    pyLStrip (c :: s) = pyLStrip s := by
  simp [pyLStrip, List.dropWhile_cons, h]

theorem pyRStrip_concat_keep {c : Char} (h : isWs c = false) (s : Str) :
    pyRStrip (s ++ [c]) = s ++ [c] := by
  simp [pyRStrip, List.reverse_append, List.dropWhile_cons, h]

theorem pyRStrip_concat_drop {c : Char} (h : isWs c = true) (s : Str) :
    pyRStrip (s ++ [c]) = pyRStrip s := by
  simp [pyRStrip, List.reverse_append, List.dropWhile_cons, h]

theorem dropWhile_head_not {α : Type} (p : α → Bool) :
    ∀ (l : List α) (h : α) (t : List α), l.dropWhile p = h :: t → p h = false := by
  intro l
  induction l with
  | nil => intro h t hyp; cases hyp
  | cons x xs ih =>
    intro h t hyp
    by_cases hx : p x = true
    · rw [List.dropWhile_cons, if_pos hx] at hyp
      exact ih h t hyp
    · rw [List.dropWhile_cons, if_neg hx] at hyp
      cases hyp
      simpa using hx

theorem renderTok_head_not_ws (t : Tok) (h : isWsChr t = false) :
    ∃ c r, renderTok t = c :: r ∧ isWs c = false := by
  cases t with
  | tOpen n a2 => exact ⟨'<', _, rfl, by decide⟩
  | tClose n => exact ⟨'<', _, rfl, by decide⟩
  | ent e => exact ⟨'&', _, rfl, by decide⟩
  | chr c =>
    refine ⟨c, [], rfl, ?_⟩
    simpa [isWsChr] using h

theorem renderTok_last_not_ws {t : Tok} (hw : wfTok t) (h : isWsChr t = false) :
    ∃ r c, renderTok t = r ++ [c] ∧ isWs c = false := by
  cases t with
  | tOpen n a2 =>
    refine ⟨'<' :: (n ++ a2), '>', ?_, by decide⟩
    simp [renderTok]
  | tClose n =>
    refine ⟨'<' :: '/' :: n, '>', ?_, by decide⟩
    simp [renderTok]
  | ent e =>
    obtain ⟨pre, hpre, _⟩ := entity_split hw
    refine ⟨'&' :: pre, ';', ?_, by decide⟩
    simp [renderTok, hpre]
  | chr c =>
    refine ⟨[], c, rfl, ?_⟩
    simpa [isWsChr] using h

theorem isWsChr_nonTag {t : Tok} (h : isWsChr t = true) : nonTag t = true := by
  cases t <;> simp_all [isWsChr, nonTag]

theorem rstrip_decomp (toks : List Tok) :
    ∃ trail, toks = rstripToks toks ++ trail ∧ ∀ t ∈ trail, isWsChr t = true := by
  refine ⟨(toks.reverse.takeWhile isWsChr).reverse, ?_, ?_⟩
  · rw [rstripToks]
    conv_lhs => rw [← List.reverse_reverse toks]
    rw [← List.reverse_append]
    congr 1
    rw [List.takeWhile_append_dropWhile]
  · intro t ht
    rw [List.mem_reverse] at ht
    exact List.mem_takeWhile_imp ht

theorem rstripToks_subset {toks : List Tok} : ∀ t ∈ rstripToks toks, t ∈ toks := by
  intro t ht
  rw [rstripToks, List.mem_reverse] at ht
  have := (List.dropWhile_sublist (l := toks.reverse) (p := isWsChr)).subset ht
  rwa [List.mem_reverse] at this

theorem lstripToks_subset {toks : List Tok} : ∀ t ∈ lstripToks toks, t ∈ toks := by
  intro t ht
  exact (List.dropWhile_sublist (l := toks) (p := isWsChr)).subset ht

theorem wfToks_rstrip {toks : List Tok} (w : wfToks toks) : wfToks (rstripToks toks) :=
  fun t ht => w t (rstripToks_subset t ht)

theorem wfToks_lstrip {toks : List Tok} (w : wfToks toks) : wfToks (lstripToks toks) :=
  fun t ht => w t (lstripToks_subset t ht)

theorem visCount_rstrip_le (toks : List Tok) : visCount (rstripToks toks) ≤ visCount toks := by
  obtain ⟨trail, heq, _⟩ := rstrip_decomp toks
  conv_rhs => rw [heq]
  rw [visCount_append]
  exact Nat.le_add_right _ _

theorem nestProper_rstrip {toks : List Tok} {st : List Str}
    (h : nestProper toks [] = some st) : nestProper (rstripToks toks) [] = some st := by
  obtain ⟨trail, heq, htrail⟩ := rstrip_decomp toks
  rw [heq, nestProper_append] at h
  cases hna : nestProper (rstripToks toks) [] with
  | none => rw [hna] at h; cases h
  | some x =>
    rw [hna] at h
    have h2 : nestProper trail x = some st := h
    rw [nestProper_neutral (fun t ht => isWsChr_nonTag (htrail t ht)) x] at h2
    exact h2

theorem renderList_rstrip {toks : List Tok} (w : wfToks toks) :
    pyRStrip (renderList toks) = renderList (rstripToks toks) := by
  induction toks using List.reverseRecOn with
  | nil => rfl
  | append_singleton ys t ih =>
    have wys : wfToks ys := fun u hu => w u (List.mem_append_left _ hu)
    have wt : wfTok t := w t (List.mem_append_right _ (List.mem_singleton.mpr rfl))
    by_cases hws : isWsChr t = true
    · cases t with
      | tOpen n a2 => simp [isWsChr] at hws
      | tClose n => simp [isWsChr] at hws
      | ent e => simp [isWsChr] at hws
      | chr c =>
        have hc : isWs c = true := by simpa [isWsChr] using hws
        rw [renderList_append]
        rw [show renderList [Tok.chr c] = [c] from by simp [renderList, renderTok]]
        rw [pyRStrip_concat_drop hc, ih wys]
        congr 1
        rw [rstripToks, rstripToks, List.reverse_append]
        simp [List.dropWhile_cons, isWsChr, hc]
    · have hws2 : isWsChr t = false := by simpa using hws
      obtain ⟨r, c, hrc, hcws⟩ := renderTok_last_not_ws wt hws2
      have hrs : rstripToks (ys ++ [t]) = ys ++ [t] := by
        rw [rstripToks, List.reverse_append]
        simp [List.dropWhile_cons, hws2]
      rw [hrs, renderList_append]
      rw [show renderList [t] = renderTok t from by simp [renderList]]
      rw [hrc, ← List.append_assoc, pyRStrip_concat_keep hcws]

theorem renderList_lstrip {toks : List Tok} (w : wfToks toks) :
    pyLStrip (renderList toks) = renderList (lstripToks toks) := by
  induction toks with
  | nil => rfl
  | cons t ts ih =>
    have wts : wfToks ts := fun u hu => w u (List.mem_cons_of_mem t hu)
    by_cases hws : isWsChr t = true
    · cases t with
      | tOpen n a2 => simp [isWsChr] at hws
      | tClose n => simp [isWsChr] at hws
      | ent e => simp [isWsChr] at hws
      | chr c =>
        have hc : isWs c = true := by simpa [isWsChr] using hws
        rw [renderList_cons]
        rw [show renderTok (Tok.chr c) = [c] from rfl]
        rw [List.singleton_append, pyLStrip_cons_drop hc, ih wts]
        congr 1
        simp [lstripToks, List.dropWhile_cons, isWsChr, hc]
    · have hws2 : isWsChr t = false := by simpa using hws
      obtain ⟨c, r, hcr, hcws⟩ := renderTok_head_not_ws t hws2
      have hl : lstripToks (t :: ts) = t :: ts := by
        simp [lstripToks, List.dropWhile_cons, hws2]
      rw [hl, renderList_cons, hcr, List.cons_append, pyLStrip_cons_keep hcws]

theorem lstrip_decomp (toks : List Tok) :
    ∃ lead, toks = lead ++ lstripToks toks ∧ ∀ t ∈ lead, isWsChr t = true := by
  refine ⟨toks.takeWhile isWsChr, ?_, ?_⟩
  · rw [lstripToks, List.takeWhile_append_dropWhile]
  · intro t ht
    exact List.mem_takeWhile_imp ht

theorem nestProper_lstrip {toks : List Tok} {st : List Str}
    (h : nestProper toks [] = some st) : nestProper (lstripToks toks) [] = some st := by
  obtain ⟨lead, heq, hlead⟩ := lstrip_decomp toks
  rw [heq, nestProper_append,
    nestProper_neutral (fun t ht => isWsChr_nonTag (hlead t ht)) []] at h
  exact h

theorem balFrag_pyStrip {s : Str} (h : BalFrag s) : BalFrag (pyStrip s) := by
  obtain ⟨toks, rfl, w, p⟩ := h
  rw [pyStrip, renderList_lstrip w, renderList_rstrip (wfToks_lstrip w)]
  exact ⟨rstripToks (lstripToks toks), rfl, wfToks_rstrip (wfToks_lstrip w),
    nestProper_rstrip (nestProper_lstrip p)⟩

/- ===================================================================
   Fragment-building closure lemmas
   =================================================================== -/

theorem balFrag_wrap {name attrs : Str} (hw : wfTok (Tok.tOpen name attrs)) {x : Str}
    (hx : BalFrag x) :
    BalFrag (renderTok (Tok.tOpen name attrs) ++ x ++ renderTok (Tok.tClose name)) := by
  obtain ⟨toks, rfl, w, p⟩ := hx
  have hname : name ∈ tagNames := hw.1
  refine ⟨Tok.tOpen name attrs :: (toks ++ [Tok.tClose name]), ?_, ?_, ?_⟩
  · rw [renderList_cons, renderList_append]
    rw [show renderList [Tok.tClose name] = renderTok (Tok.tClose name) from by
      simp [renderList]]
    rw [List.append_assoc]
  · refine wfToks_cons hw (wfToks_append w ?_)
    intro t ht
    rcases List.mem_singleton.mp ht with rfl
    exact hname
  · show nestProper (Tok.tOpen name attrs :: (toks ++ [Tok.tClose name])) [] = some []
    have hp : nestProper toks [name] = some [name] := by
      have h2 := nestProper_frame toks [] [] [name] p
      simpa using h2
    simp only [nestProper]
    rw [nestProper_append, hp]
    simp [nestProper]

theorem balFrag_b_wrap {x : Str} (hx : BalFrag x) :
    BalFrag (str "<b>" ++ x ++ str "</b>") := by
  have hw : wfTok (Tok.tOpen (str "b") []) := by
    simp only [wfTok]
    refine ⟨by decide, by decide, by decide, by decide, by decide, by decide, by decide⟩
  have h := balFrag_wrap hw hx
  rw [show renderTok (Tok.tOpen (str "b") []) = str "<b>" from by decide,
    show renderTok (Tok.tClose (str "b")) = str "</b>" from by decide] at h
  exact h

theorem balFrag_i_wrap {x : Str} (hx : BalFrag x) :
    BalFrag (str "<i>" ++ x ++ str "</i>") := by
  have hw : wfTok (Tok.tOpen (str "i") []) := by
    simp only [wfTok]
    refine ⟨by decide, by decide, by decide, by decide, by decide, by decide, by decide⟩
  have h := balFrag_wrap hw hx
  rw [show renderTok (Tok.tOpen (str "i") []) = str "<i>" from by decide,
    show renderTok (Tok.tClose (str "i")) = str "</i>" from by decide] at h
  exact h

theorem balFrag_code_wrap {x : Str} (hx : BalFrag x) :
    BalFrag (str "<code>" ++ x ++ str "</code>") := by
  have hw : wfTok (Tok.tOpen (str "code") []) := by
    simp only [wfTok]
    refine ⟨by decide, by decide, by decide, by decide, by decide, by decide, by decide⟩
  have h := balFrag_wrap hw hx
  rw [show renderTok (Tok.tOpen (str "code") []) = str "<code>" from by decide,
    show renderTok (Tok.tClose (str "code")) = str "</code>" from by decide] at h
  exact h

theorem escapeChar_no_angle (q : Bool) (a : Char) :
    ∀ c ∈ escapeChar q a, c ≠ '>' ∧ c ≠ '<' := by
  intro c hc
  by_cases h1 : a = '&'
  · simp only [escapeChar, h1, if_pos] at hc
    exact (by decide : ∀ x ∈ str "&amp;", x ≠ '>' ∧ x ≠ '<') c hc
  · by_cases h2 : a = '<'
    · simp only [escapeChar, h1, h2, if_neg, if_pos, ite_false, ite_true] at hc
      exact (by decide : ∀ x ∈ str "&lt;", x ≠ '>' ∧ x ≠ '<') c hc
    · by_cases h3 : a = '>'
      · simp only [escapeChar, h1, h2, h3, ite_true, ite_false, if_neg, if_pos] at hc
        exact (by decide : ∀ x ∈ str "&gt;", x ≠ '>' ∧ x ≠ '<') c hc
      · by_cases h4 : q ∧ a = Char.ofNat 0x22
        · simp [escapeChar, h1, h2, h3, h4] at hc
          exact (by decide : ∀ x ∈ str "&quot;", x ≠ '>' ∧ x ≠ '<') c (by
            simpa [str] using hc)
        · by_cases h5 : q ∧ a = Char.ofNat 0x27
          · simp [escapeChar, h1, h2, h3, h4, h5] at hc
            exact (by decide : ∀ x ∈ str "&#x27;", x ≠ '>' ∧ x ≠ '<') c (by
              simpa [str] using hc)
          · simp [escapeChar, h1, h2, h3, h4, h5] at hc
            subst hc
            exact ⟨h3, h2⟩

theorem escape_attr_no_angle (url : Str) : ∀ c ∈ escape_attr url, c ≠ '>' ∧ c ≠ '<' := by
  intro c hc
  simp only [escape_attr] at hc
  obtain ⟨a, _, hca⟩ := List.mem_flatMap.mp hc
  exact escapeChar_no_angle true a c hca

theorem splitOnChar_cons_ne {x c : Char} (h : ¬ x = c) (t : Str) :
    splitOnChar c (x :: t) =
      (match splitOnChar c t with
       | [] => [[x]]
       | p :: ps => (x :: p) :: ps) := by
  simp [splitOnChar, h]

theorem splitOnChar_cons_eq (c : Char) (t : Str) :
    splitOnChar c (c :: t) = [] :: splitOnChar c t := by
  simp [splitOnChar]

theorem splitOnChar_ne_nil (c : Char) : ∀ t : Str, splitOnChar c t ≠ [] := by
  intro t
  cases t with
  | nil => simp [splitOnChar]
  | cons x r =>
    by_cases h : x = c
    · subst h
      simp [splitOnChar]
    · rw [splitOnChar_cons_ne h]
      cases splitOnChar c r <;> simp

theorem firstWordLower_a (rest : Str) :
    firstWordLower (str "a" ++ (' ' :: rest)) = str "a" := by
  show firstWordLower ('a' :: ' ' :: rest) = str "a"
  rw [firstWordLower, pySplitWs]
  simp only [List.map_cons]
  rw [show (if isWs 'a' = true then ' ' else 'a') = 'a' from by decide]
  rw [show (if isWs ' ' = true then ' ' else ' ') = ' ' from by decide]
  rw [splitOnChar_cons_ne (by decide), splitOnChar_cons_eq]
  simp [List.filter_cons]
  decide

theorem pyStrip_fix {c d : Char} (hc : isWs c = false) (hd : isWs d = false) (mid : Str) :
    pyStrip (c :: (mid ++ [d])) = c :: (mid ++ [d]) := by
  rw [pyStrip, pyLStrip_cons_keep hc]
  rw [show c :: (mid ++ [d]) = (c :: mid) ++ [d] from rfl]
  exact pyRStrip_concat_keep hd _

theorem endsWith_concat_ne {d e : Char} (h : e ≠ d) (s : Str) :
    endsWith (s ++ [d]) [e] = false := by
  have hb : (e == d) = false := by simp [h]
  simp [endsWith, List.isSuffixOf, List.reverse_append, List.isPrefixOf, hb]

theorem wfTok_a_href (url : Str) :
    wfTok (Tok.tOpen (str "a") (str " href=\"" ++ escape_attr url ++ ['"'])) := by
  have hshape : str "a" ++ (str " href=\"" ++ escape_attr url ++ ['"'])
      = 'a' :: ((str " href=\"" ++ escape_attr url) ++ ['"']) := rfl
  refine ⟨by decide, ?_, ?_, ?_, ?_, ?_, ?_⟩
  · intro hmem
    rcases List.mem_append.mp hmem with h | h
    · rcases List.mem_append.mp h with h2 | h2
      · exact absurd h2 (by decide)
      · exact (escape_attr_no_angle url '>' h2).1 rfl
    · exact absurd h (by decide)
  · intro hmem
    rcases List.mem_append.mp hmem with h | h
    · rcases List.mem_append.mp h with h2 | h2
      · exact absurd h2 (by decide)
      · exact (escape_attr_no_angle url '<' h2).2 rfl
    · exact absurd h (by decide)
  · rw [hshape]
    exact pyStrip_fix (by decide) (by decide) _
  · have hshape2 : str "a" ++ (str " href=\"" ++ escape_attr url ++ ['"'])
        = str "a" ++ (' ' :: (str "href=\"" ++ escape_attr url ++ ['"'])) := rfl
    rw [hshape2]
    exact firstWordLower_a _
  · rw [hshape]
    rw [show 'a' :: ((str " href=\"" ++ escape_attr url) ++ ['"'])
        = ('a' :: (str " href=\"" ++ escape_attr url)) ++ ['"'] from rfl]
    rw [show str "/" = ['/'] from rfl]
    exact endsWith_concat_ne (by decide) _
  · rfl

theorem balFrag_a_wrap (url : Str) {x : Str} (hx : BalFrag x) :
    BalFrag (str "<a href=\"" ++ escape_attr url ++ str "\">" ++ x ++ str "</a>") := by
  have h := balFrag_wrap (wfTok_a_href url) hx
  have ho : renderTok (Tok.tOpen (str "a") (str " href=\"" ++ escape_attr url ++ ['"']))
      = str "<a href=\"" ++ escape_attr url ++ str "\">" := by
    show '<' :: (str "a" ++ (str " href=\"" ++ escape_attr url ++ ['"'])) ++ ['>'] = _
    simp only [List.append_assoc, List.cons_append, List.singleton_append]
    rfl
  have hc : renderTok (Tok.tClose (str "a")) = str "</a>" := by decide
  rw [ho, hc] at h
  exact h

theorem balFrag_joinWith {sep : Str} (hsep : BalFrag sep) :
    ∀ {l : List Str}, (∀ x ∈ l, BalFrag x) → BalFrag (joinWith sep l) := by
  intro l
  induction l with
  | nil => intro _; exact balFrag_nil
  | cons p rest ih =>
    intro h
    cases rest with
    | nil => simpa [joinWith] using h p (by simp)
    | cons q r =>
      have h1 : BalFrag p := h p (by simp)
      have h2 : BalFrag (joinWith sep (q :: r)) :=
        ih (fun x hx => h x (List.mem_cons_of_mem p hx))
      have he : joinWith sep (p :: q :: r) = p ++ sep ++ joinWith sep (q :: r) := rfl
      rw [he]
      exact balFrag_append (balFrag_append h1 hsep) h2

theorem plainOk_decide {s : Str} (h : ∀ c ∈ s, c ≠ '<' ∧ c ≠ '&') : PlainOk s := h

theorem balFrag_join_blocks {l : List Str} (h : ∀ x ∈ l, BalFrag x) :
    BalFrag (join_blocks l) := by
  rw [join_blocks]
  refine balFrag_joinWith (textFrag_balFrag (plainOk_textFrag (plainOk_decide (by decide)))) ?_
  intro x hx
  have hx2 := (List.mem_filter.mp hx).1
  obtain ⟨y, hy, rfl⟩ := List.mem_map.mp hx2
  exact balFrag_pyStrip (h y hy)

theorem balFrag_append_block {a b : Str} (ha : BalFrag a) (hb : BalFrag b) :
    BalFrag (append_block a b) := by
  rw [append_block]
  by_cases h1 : pyStrip a = []
  · simp only [h1, if_pos, ite_true]
    exact balFrag_pyStrip hb
  · by_cases h2 : pyStrip b = []
    · simp only [h1, h2, ite_true, ite_false]
      exact balFrag_pyStrip ha
    · simp only [h1, h2, ite_false]
      exact balFrag_append (balFrag_append (balFrag_pyStrip ha)
        (textFrag_balFrag (plainOk_textFrag (plainOk_decide (by decide))))) (balFrag_pyStrip hb)

theorem append_block_ne_nil {a b : Str} (hb : pyStrip b ≠ []) : append_block a b ≠ [] := by
  rw [append_block]
  by_cases h1 : pyStrip a = []
  · simpa [h1] using hb
  · simp only [h1, hb, ite_false]
    simp [List.append_eq_nil]
    intro hcon
    exact absurd hcon h1

/- ===================================================================
   The inline formatter and markdown converter emit balanced fragments
   =================================================================== -/

theorem balFrag_escapeChar (q : Bool) (c : Char) : BalFrag (escapeChar q c) := by
  rw [← renderTok_escTokC]
  refine ⟨[escTokC q c], by simp [renderList], ?_, ?_⟩
  · intro t ht
    rcases List.mem_singleton.mp ht with rfl
    exact escTokC_wf q c
  · refine nestProper_neutral ?_ []
    intro t ht
    rcases List.mem_singleton.mp ht with rfl
    exact escTokC_nonTag q c

theorem balFrag_escape_text (s : Str) : BalFrag (escape_text s) :=
  textFrag_balFrag (textFrag_escape_text s)

theorem balFrag_fmtInline : ∀ (fuel : Nat) (prev : Option Char) (s : Str),
    BalFrag (fmtInlineF fuel prev s) := by
  intro fuel
  induction fuel with
  | zero => intro prev s; exact balFrag_nil
  | succ f ih =>
    intro prev s
    cases s with
    | nil => exact balFrag_nil
    | cons c rest =>
      rw [fmtInlineF]
      repeat' split
      all_goals first
        | exact balFrag_nil
        | exact balFrag_append (balFrag_b_wrap (ih none _)) (ih (some '*') _)
        | exact balFrag_append (balFrag_b_wrap (ih none _)) (ih (some '_') _)
        | exact balFrag_append (balFrag_i_wrap (ih none _)) (ih (some '*') _)
        | exact balFrag_append (balFrag_i_wrap (ih none _)) (ih (some '_') _)
        | exact balFrag_cons_plain (by decide) (by decide) (ih (some '_') _)
        | exact balFrag_append (balFrag_code_wrap (balFrag_escape_text _))
            (ih (some (Char.ofNat 0x60)) _)
        | exact balFrag_append (balFrag_a_wrap _ (ih none _)) (ih (some ')') _)
        | exact balFrag_append (balFrag_escapeChar false _) (ih (some _) _)

theorem balFrag_format_inline (s : Str) : BalFrag (format_inline s) :=
  balFrag_fmtInline _ _ _

theorem balFrag_flush_list {buffer : List (Str × Str)} {result : List Str}
    (hb : ∀ mc ∈ buffer, PlainOk mc.1 ∧ BalFrag mc.2) (hr : ∀ r ∈ result, BalFrag r) :
    ∀ r ∈ flush_list buffer result, BalFrag r := by
  intro r hrm
  rw [flush_list] at hrm
  rcases List.mem_append.mp hrm with h | h
  · exact hr r h
  · obtain ⟨mc, hmc, rfl⟩ := List.mem_map.mp h
    by_cases hm : mc.1 ≠ []
    · rw [if_pos hm]
      exact balFrag_append (balFrag_append
        (textFrag_balFrag (plainOk_textFrag (hb mc hmc).1))
        (textFrag_balFrag (plainOk_textFrag (plainOk_decide (by decide)))))
        (hb mc hmc).2
    · rw [if_neg hm]
      exact (hb mc hmc).2

theorem numberMatch_digits {s n c : Str} (h : numberMatch s = some (n, c)) :
    ∀ ch ∈ n, isDigitCh ch = true := by
  rw [numberMatch] at h
  by_cases hd : s.takeWhile isDigitCh = []
  · rw [if_pos hd] at h
    cases h
  · rw [if_neg hd] at h
    split at h
    · split at h
      · rw [Option.some_inj] at h
        have hn : s.takeWhile isDigitCh = n := congrArg Prod.fst h
        intro ch hch
        rw [← hn] at hch
        exact List.mem_takeWhile_imp hch
      · cases h
    · cases h

theorem digit_plain {ch : Char} (h : isDigitCh ch = true) : ch ≠ '<' ∧ ch ≠ '&' := by
  constructor <;> (intro hc; subst hc; exact absurd h (by decide))

theorem balFrag_md_go : ∀ (lines : List Str) (result : List Str)
    (bullets numbers : List (Str × Str)),
    (∀ r ∈ result, BalFrag r) →
    (∀ mc ∈ bullets, PlainOk mc.1 ∧ BalFrag mc.2) →
    (∀ mc ∈ numbers, PlainOk mc.1 ∧ BalFrag mc.2) →
    ∀ r ∈ md_go lines result bullets numbers, BalFrag r := by
  intro lines
  induction lines with
  | nil =>
    intro result bullets numbers hr hb hn r hrm
    rw [md_go] at hrm
    exact balFrag_flush_list hn (balFrag_flush_list hb hr) r hrm
  | cons line rest ih =>
    intro result bullets numbers hr hb hn r hrm
    have hnil : ∀ mc ∈ ([] : List (Str × Str)), PlainOk mc.1 ∧ BalFrag mc.2 := by
      intro mc hmc
      exact absurd hmc (List.not_mem_nil mc)
    have hflush2 : ∀ r2 ∈ flush_list numbers (flush_list bullets result), BalFrag r2 :=
      balFrag_flush_list hn (balFrag_flush_list hb hr)
    rw [md_go] at hrm
    split at hrm
    · -- blank line
      refine ih _ [] [] ?_ hnil hnil r hrm
      intro r2 hr2
      split at hr2
      · rcases List.mem_append.mp hr2 with h | h
        · exact hflush2 r2 h
        · rcases List.mem_singleton.mp h with rfl
          exact balFrag_nil
      · exact hflush2 r2 hr2
    · split at hrm
      · -- bullet line
        have hbul : ∀ mc ∈ bullets ++
            [(str "•", format_inline (pyStrip ((pyStrip line).drop 2)))],
            PlainOk mc.1 ∧ BalFrag mc.2 := by
          intro mc hmc
          rcases List.mem_append.mp hmc with h | h
          · exact hb mc h
          · rcases List.mem_singleton.mp h with rfl
            refine ⟨?_, balFrag_format_inline _⟩
            show PlainOk (str "•")
            exact plainOk_decide (by decide)
        exact ih _ _ [] (balFrag_flush_list hn hr) hbul hnil r hrm
      · split at hrm
        · -- numbered line
          rename_i number content heq
          have hnum : ∀ mc ∈ numbers ++
              [(number ++ str ".", format_inline (pyStrip content))],
              PlainOk mc.1 ∧ BalFrag mc.2 := by
            intro mc hmc
            rcases List.mem_append.mp hmc with h | h
            · exact hn mc h
            · rcases List.mem_singleton.mp h with rfl
              refine ⟨?_, balFrag_format_inline _⟩
              show PlainOk (number ++ str ".")
              intro ch hch
              rcases List.mem_append.mp hch with h2 | h2
              · exact digit_plain (numberMatch_digits heq ch h2)
              · have : ch ∈ str "." := h2
                rcases List.mem_singleton.mp this with rfl
                exact ⟨by decide, by decide⟩
          exact ih _ [] _ (balFrag_flush_list hb hr) hnil hnum r hrm
        · split at hrm
          · -- heading line
            rename_i content heq
            have hres : ∀ r2 ∈ flush_list numbers (flush_list bullets result) ++
                [str "<b>" ++ format_inline (pyStrip content) ++ str "</b>"],
                BalFrag r2 := by
              intro r2 hr2
              rcases List.mem_append.mp hr2 with h | h
              · exact hflush2 r2 h
              · rcases List.mem_singleton.mp h with rfl
                exact balFrag_b_wrap (balFrag_format_inline _)
            exact ih _ [] [] hres hnil hnil r hrm
          · -- plain line
            have hres : ∀ r2 ∈ flush_list numbers (flush_list bullets result) ++
                [format_inline (pyStrip line)], BalFrag r2 := by
              intro r2 hr2
              rcases List.mem_append.mp hr2 with h | h
              · exact hflush2 r2 h
              · rcases List.mem_singleton.mp h with rfl
                exact balFrag_format_inline _
            exact ih _ [] [] hres hnil hnil r hrm

theorem balFrag_markdown (md : Str) : BalFrag (markdown_to_telegram_html md) := by
  rw [markdown_to_telegram_html]
  split
  · exact balFrag_nil
  · refine balFrag_pyStrip (balFrag_joinWith
      (textFrag_balFrag (plainOk_textFrag (plainOk_decide (by decide)))) ?_)
    refine balFrag_md_go _ [] [] [] ?_ ?_ ?_
    · intro r hr
      exact absurd hr (List.not_mem_nil r)
    · intro mc hmc
      exact absurd hmc (List.not_mem_nil mc)
    · intro mc hmc
      exact absurd hmc (List.not_mem_nil mc)

/- ===================================================================
   Visible length of a well-formed render
   =================================================================== -/

theorem findSub_decomp {pat : Str} : ∀ {s b a : Str}, findSub pat s = some (b, a) →
    s = b ++ pat ++ a := by
  intro s
  induction s with
  | nil =>
    intro b a h
    rw [findSub] at h
    split at h
    · rename_i hp
      rw [Option.some_inj] at h
      have hb : b = [] := (congrArg Prod.fst h).symm
      have ha : a = [] := (congrArg Prod.snd h).symm
      have hpat : pat = [] := by
        cases pat with
        | nil => rfl
        | cons x xs => simp [List.isPrefixOf] at hp
      simp [hb, ha, hpat]
    · cases h
  | cons c rest ih =>
    intro b a h
    rw [findSub] at h
    split at h
    · rename_i hp
      rw [Option.some_inj] at h
      have hb : b = [] := (congrArg Prod.fst h).symm
      have ha : a = (c :: rest).drop pat.length := (congrArg Prod.snd h).symm
      obtain ⟨t, ht⟩ := List.isPrefixOf_iff_prefix.mp hp
      subst hb
      rw [List.nil_append, ha, ← ht, List.drop_left]
    · cases hfs : findSub pat rest with
      | none => rw [hfs] at h; cases h
      | some p =>
        rw [hfs] at h
        rw [Option.map_some', Option.some_inj] at h
        have hb : b = c :: p.1 := (congrArg Prod.fst h).symm
        have ha : a = p.2 := (congrArg Prod.snd h).symm
        have hrest : rest = p.1 ++ pat ++ p.2 := ih (by rw [hfs])
        subst hb
        subst ha
        simp [hrest]

theorem findSub_char_first {c : Char} : ∀ {s1 : Str}, c ∉ s1 → ∀ (s2 : Str),
    findChar c (s1 ++ c :: s2) = some (s1, s2) := by
  intro s1
  induction s1 with
  | nil =>
    intro _ s2
    rw [List.nil_append, findChar, findSub]
    rw [if_pos (by simp [List.isPrefixOf])]
    rfl
  | cons x t ih =>
    intro h s2
    have hx : ¬ (c = x) := fun hc => h (hc ▸ List.mem_cons_self x t)
    have ht : c ∉ t := fun hc => h (List.mem_cons_of_mem x hc)
    have hbeq : (c == x) = false := by simp [hx]
    rw [findChar, List.cons_append, findSub]
    rw [if_neg (by simp [List.isPrefixOf, hbeq])]
    rw [show findSub [c] (t ++ c :: s2) = findChar c (t ++ c :: s2) from rfl, ih ht s2]
    rfl

theorem brSubF_succ_cons (fuel : Nat) (c : Char) (rest : Str) :
    brSubF (fuel + 1) (c :: rest) =
      if c = '<' then
        (match rest with
         | b :: r :: r3 =>
           if pyLowerChar b = 'b' ∧ pyLowerChar r = 'r' then
             (match (match r3.dropWhile (fun ch => isWs ch) with
                     | '/' :: t => t
                     | t => t) with
              | '>' :: t => '\n' :: brSubF fuel t
              | _ => c :: brSubF fuel rest)
           else c :: brSubF fuel rest
         | _ => c :: brSubF fuel rest)
      else c :: brSubF fuel rest := rfl

theorem brSubF_cons_keep {c : Char} {rest : Str}
    (h : c = '<' → ∀ b r r3, rest = b :: r :: r3 →
      ¬ (pyLowerChar b = 'b' ∧ pyLowerChar r = 'r')) :
    brSubF (rest.length + 1) (c :: rest) = c :: brSubF rest.length rest := by
  by_cases hc : c = '<'
  · subst hc
    cases rest with
    | nil => rfl
    | cons b w2 =>
      cases w2 with
      | nil => rfl
      | cons r r3 =>
        have hnb := h rfl b r r3 rfl
        rw [brSubF_succ_cons, if_pos rfl]
        show (if pyLowerChar b = 'b' ∧ pyLowerChar r = 'r' then _ else _) = _
        rw [if_neg hnb]
  · rw [brSubF_succ_cons, if_neg hc]

theorem brSubF_no_angle : ∀ {s1 : Str}, (∀ c ∈ s1, c ≠ '<') → ∀ (s2 : Str),
    brSubF (s1 ++ s2).length (s1 ++ s2) = s1 ++ brSubF s2.length s2 := by
  intro s1
  induction s1 with
  | nil => intro _ s2; simp
  | cons c t ihs =>
    intro h s2
    have hc : c ≠ '<' := h c (List.mem_cons_self c t)
    have ht : ∀ x ∈ t, x ≠ '<' := fun x hx => h x (List.mem_cons_of_mem c hx)
    rw [List.cons_append, List.length_cons, brSubF_cons_keep (fun hcon => absurd hcon hc)]
    rw [ihs ht s2]
    rfl

theorem isWs_lower_ne {w2 : Char} (hw : isWs w2 = true) :
    ¬ pyLowerChar w2 = 'r' := by
  have hd : w2 = ' ' ∨ w2 = '\t' ∨ w2 = '\n' ∨ w2 = '\r' := by
    simpa [isWs] using hw
  rcases hd with rfl | rfl | rfl | rfl <;> decide

theorem tagNames_cases {n : Str} (h : n ∈ tagNames) :
    n = str "b" ∨ n = str "i" ∨ n = str "code" ∨ n = str "a" := by
  simpa [tagNames] using h

theorem tagName_no_angle {n : Str} (h : n ∈ tagNames) : ∀ c ∈ n, c ≠ '<' ∧ c ≠ '>' := by
  rcases tagNames_cases h with rfl | rfl | rfl | rfl <;> decide

theorem brSub_render {toks : List Tok} (w : wfToks toks) :
    brSub (renderList toks) = renderList toks := by
  rw [brSub]
  induction toks with
  | nil => rfl
  | cons t ts ih =>
    have wt : wfTok t := w t (List.mem_cons_self t ts)
    have wts : wfToks ts := fun u hu => w u (List.mem_cons_of_mem t hu)
    rw [renderList_cons]
    cases t with
    | chr c =>
      rw [show renderTok (Tok.chr c) = [c] from rfl, List.singleton_append, List.length_cons]
      rw [brSubF_cons_keep (fun hcon => absurd hcon wt.1)]
      rw [ih wts]
    | ent e =>
      rw [show renderTok (Tok.ent e) = '&' :: e.1 from rfl]
      rw [brSubF_no_angle ?hfree (renderList ts), ih wts]
      case hfree =>
        intro c hc
        rcases List.mem_cons.mp hc with rfl | hc2
        · decide
        · exact (entity_no_special wt c hc2).1
    | tOpen name attrs =>
      obtain ⟨hname, hgt, hlt, _, _, _, hlead⟩ := wt
      have hXfree : ∀ c ∈ (name ++ attrs) ++ ['>'], c ≠ '<' := by
        intro c hc
        rcases List.mem_append.mp hc with h2 | h2
        · rcases List.mem_append.mp h2 with h3 | h3
          · exact (tagName_no_angle hname c h3).1
          · exact fun hceq => hlt (hceq ▸ h3)
        · rcases List.mem_singleton.mp h2 with rfl
          decide
      have hkeep : '<' = '<' → ∀ b r r3,
          ((name ++ attrs) ++ ['>']) ++ renderList ts = b :: r :: r3 →
          ¬ (pyLowerChar b = 'b' ∧ pyLowerChar r = 'r') := by
        intro _ b r r3 heq
        rcases tagNames_cases hname with rfl | rfl | rfl | rfl
        · cases attrs with
          | nil =>
            have hr2 : '>' = r := congrArg (fun l => (l.drop 1).headD ' ') heq
            intro hcon
            rw [← hr2] at hcon
            exact absurd hcon.2 (by decide)
          | cons w2 wt2 =>
            have hr2 : w2 = r := congrArg (fun l => (l.drop 1).headD ' ') heq
            have hwws : isWs w2 = true := by simpa [attrsLead] using hlead
            intro hcon
            rw [← hr2] at hcon
            exact isWs_lower_ne hwws hcon.2
        · have hb2 : 'i' = b := congrArg (fun l => l.headD ' ') heq
          intro hcon
          rw [← hb2] at hcon
          exact absurd hcon.1 (by decide)
        · have hb2 : 'c' = b := congrArg (fun l => l.headD ' ') heq
          intro hcon
          rw [← hb2] at hcon
          exact absurd hcon.1 (by decide)
        · have hb2 : 'a' = b := congrArg (fun l => l.headD ' ') heq
          intro hcon
          rw [← hb2] at hcon
          exact absurd hcon.1 (by decide)
      rw [show renderTok (Tok.tOpen name attrs) ++ renderList ts
          = '<' :: (((name ++ attrs) ++ ['>']) ++ renderList ts) from by
        simp [renderTok]]
      rw [List.length_cons, brSubF_cons_keep hkeep]
      rw [brSubF_no_angle hXfree (renderList ts), ih wts]
    | tClose name =>
      have hname : name ∈ tagNames := wt
      have hkeep : '<' = '<' → ∀ b r r3,
          ('/' :: name ++ ['>']) ++ renderList ts = b :: r :: r3 →
          ¬ (pyLowerChar b = 'b' ∧ pyLowerChar r = 'r') := by
        intro _ b r r3 heq
        have hb2 : '/' = b := congrArg (fun l => l.headD ' ') heq
        intro hcon
        rw [← hb2] at hcon
        exact absurd hcon.1 (by decide)
      have hXfree : ∀ c ∈ '/' :: name ++ ['>'], c ≠ '<' := by
        intro c hc
        rcases List.mem_cons.mp hc with rfl | hc2
        · decide
        · rcases List.mem_append.mp hc2 with h3 | h3
          · exact (tagName_no_angle hname c h3).1
          · rcases List.mem_singleton.mp h3 with rfl
            decide
      rw [show renderTok (Tok.tClose name) ++ renderList ts
          = '<' :: (('/' :: name ++ ['>']) ++ renderList ts) from by
        simp [renderTok]]
      rw [List.length_cons, brSubF_cons_keep hkeep]
      rw [brSubF_no_angle hXfree (renderList ts), ih wts]

theorem stripTagsF_succ_cons (fuel : Nat) (c : Char) (rest : Str) :
    stripTagsF (fuel + 1) (c :: rest) =
      if c = '<' then
        (match findChar '>' rest with
         | some (body, after) =>
           if body ≠ [] then stripTagsF fuel after
           else c :: stripTagsF fuel rest
         | none => c :: stripTagsF fuel rest)
      else c :: stripTagsF fuel rest := rfl

theorem unescape5F_succ_cons (fuel : Nat) (c : Char) (rest : Str) :
    unescape5F (fuel + 1) (c :: rest) =
      if c = '&' then
        (match ENTITIES.find? (fun e => startsWith rest e.1) with
         | some e => e.2 :: unescape5F fuel (rest.drop e.1.length)
         | none => c :: unescape5F fuel rest)
      else c :: unescape5F fuel rest := rfl

theorem stripTagsF_fuel_inv : ∀ (f1 : Nat) (s : Str) (f2 : Nat),
    s.length ≤ f1 → s.length ≤ f2 → stripTagsF f1 s = stripTagsF f2 s := by
  intro f1
  induction f1 with
  | zero =>
    intro s f2 h1 _
    have hs : s = [] := List.eq_nil_of_length_eq_zero (Nat.le_zero.mp h1)
    subst hs
    cases f2 <;> rfl
  | succ f ih =>
    intro s f2 h1 h2
    cases s with
    | nil => cases f2 <;> rfl
    | cons c rest =>
      cases f2 with
      | zero => simp at h2
      | succ g =>
        have hrf : rest.length ≤ f := by
          simp only [List.length_cons] at h1
          omega
        have hrg : rest.length ≤ g := by
          simp only [List.length_cons] at h2
          omega
        rw [stripTagsF_succ_cons, stripTagsF_succ_cons]
        by_cases hc : c = '<'
        · rw [if_pos hc, if_pos hc]
          cases hfind : findChar '>' rest with
          | none =>
            show c :: stripTagsF f rest = c :: stripTagsF g rest
            rw [ih rest g hrf hrg]
          | some p =>
            obtain ⟨body, after⟩ := p
            show (if body ≠ [] then stripTagsF f after else c :: stripTagsF f rest)
                = (if body ≠ [] then stripTagsF g after else c :: stripTagsF g rest)
            have hdec : rest = body ++ ['>'] ++ after := findSub_decomp hfind
            have hlen : after.length ≤ rest.length := by
              rw [hdec]
              simp
              omega
            by_cases hb : body ≠ []
            · rw [if_pos hb, if_pos hb]
              exact ih after g (le_trans hlen hrf) (le_trans hlen hrg)
            · rw [if_neg hb, if_neg hb, ih rest g hrf hrg]
        · rw [if_neg hc, if_neg hc, ih rest g hrf hrg]

theorem unescape5F_fuel_inv : ∀ (f1 : Nat) (s : Str) (f2 : Nat),
    s.length ≤ f1 → s.length ≤ f2 → unescape5F f1 s = unescape5F f2 s := by
  intro f1
  induction f1 with
  | zero =>
    intro s f2 h1 _
    have hs : s = [] := List.eq_nil_of_length_eq_zero (Nat.le_zero.mp h1)
    subst hs
    cases f2 <;> rfl
  | succ f ih =>
    intro s f2 h1 h2
    cases s with
    | nil => cases f2 <;> rfl
    | cons c rest =>
      cases f2 with
      | zero => simp at h2
      | succ g =>
        have hrf : rest.length ≤ f := by
          simp only [List.length_cons] at h1
          omega
        have hrg : rest.length ≤ g := by
          simp only [List.length_cons] at h2
          omega
        rw [unescape5F_succ_cons, unescape5F_succ_cons]
        by_cases hc : c = '&'
        · rw [if_pos hc, if_pos hc]
          cases hfind : ENTITIES.find? (fun e => startsWith rest e.1) with
          | none =>
            show c :: unescape5F f rest = c :: unescape5F g rest
            rw [ih rest g hrf hrg]
          | some e =>
            show e.2 :: unescape5F f (rest.drop e.1.length)
                = e.2 :: unescape5F g (rest.drop e.1.length)
            have hlen : (rest.drop e.1.length).length ≤ rest.length := by
              rw [List.length_drop]
              omega
            rw [ih _ g (le_trans hlen hrf) (le_trans hlen hrg)]
        · rw [if_neg hc, if_neg hc, ih rest g hrf hrg]

theorem stripTagsF_no_angle : ∀ {s1 : Str}, (∀ c ∈ s1, c ≠ '<') → ∀ (s2 : Str),
    stripTagsF (s1 ++ s2).length (s1 ++ s2) = s1 ++ stripTagsF s2.length s2 := by
  intro s1
  induction s1 with
  | nil => intro _ s2; simp
  | cons c t ihs =>
    intro h s2
    have hc : c ≠ '<' := h c (List.mem_cons_self c t)
    have ht : ∀ x ∈ t, x ≠ '<' := fun x hx => h x (List.mem_cons_of_mem c hx)
    rw [List.cons_append, List.length_cons, stripTagsF_succ_cons, if_neg hc]
    rw [ihs ht s2]
    rfl

theorem tagName_ne_nil {n : Str} (h : n ∈ tagNames) : n ≠ [] := by
  rcases tagNames_cases h with rfl | rfl | rfl | rfl <;> decide

theorem stripTags_render {toks : List Tok} (w : wfToks toks) :
    stripTags (renderList toks) = renderList (toks.filter nonTag) := by
  rw [stripTags]
  induction toks with
  | nil => rfl
  | cons t ts ih =>
    have wt : wfTok t := w t (List.mem_cons_self t ts)
    have wts : wfToks ts := fun u hu => w u (List.mem_cons_of_mem t hu)
    rw [renderList_cons]
    cases t with
    | chr c =>
      rw [show renderTok (Tok.chr c) = [c] from rfl, List.singleton_append, List.length_cons]
      rw [stripTagsF_succ_cons, if_neg wt.1, ih wts]
      simp [List.filter_cons, nonTag, renderList_cons, renderTok]
    | ent e =>
      rw [show renderTok (Tok.ent e) = '&' :: e.1 from rfl]
      rw [stripTagsF_no_angle ?hfree (renderList ts), ih wts]
      case hfree =>
        intro c hc
        rcases List.mem_cons.mp hc with rfl | hc2
        · decide
        · exact (entity_no_special wt c hc2).1
      simp [List.filter_cons, nonTag, renderList_cons, renderTok]
    | tOpen name attrs =>
      obtain ⟨hname, hgt, hlt, _, _, _, hlead⟩ := wt
      have hnotin : '>' ∉ name ++ attrs := by
        intro hmem
        rcases List.mem_append.mp hmem with h3 | h3
        · exact (tagName_no_angle hname '>' h3).2 rfl
        · exact hgt h3
      have hne : name ++ attrs ≠ [] := by
        intro hcon
        exact tagName_ne_nil hname (List.append_eq_nil.mp hcon).1
      rw [show renderTok (Tok.tOpen name attrs) ++ renderList ts
          = '<' :: ((name ++ attrs) ++ '>' :: renderList ts) from by
        simp [renderTok]]
      rw [List.length_cons, stripTagsF_succ_cons, if_pos rfl]
      rw [findSub_char_first hnotin (renderList ts)]
      show (if name ++ attrs ≠ [] then
          stripTagsF ((name ++ attrs) ++ '>' :: renderList ts).length (renderList ts)
        else _) = _
      rw [if_pos hne]
      rw [stripTagsF_fuel_inv _ (renderList ts) (renderList ts).length
        (by simp; omega) (le_refl _)]
      rw [ih wts]
      simp [List.filter_cons, nonTag]
    | tClose name =>
      have hname : name ∈ tagNames := wt
      have hnotin : '>' ∉ '/' :: name := by
        intro hmem
        rcases List.mem_cons.mp hmem with heq | h3
        · cases heq
        · exact (tagName_no_angle hname '>' h3).2 rfl
      rw [show renderTok (Tok.tClose name) ++ renderList ts
          = '<' :: (('/' :: name) ++ '>' :: renderList ts) from by
        simp [renderTok]]
      rw [List.length_cons, stripTagsF_succ_cons, if_pos rfl]
      rw [findSub_char_first hnotin (renderList ts)]
      show (if '/' :: name ≠ [] then
          stripTagsF (('/' :: name) ++ '>' :: renderList ts).length (renderList ts)
        else _) = _
      rw [if_pos (by simp)]
      rw [stripTagsF_fuel_inv _ (renderList ts) (renderList ts).length
        (by simp; omega) (le_refl _)]
      rw [ih wts]
      simp [List.filter_cons, nonTag]

theorem startsWith_append_self (p r : Str) : startsWith (p ++ r) p = true := by
  rw [startsWith, List.isPrefixOf_iff_prefix]
  exact List.prefix_append p r

theorem ENTITIES_find_self {e : Str × Char} (he : e ∈ ENTITIES) (r : Str) :
    ENTITIES.find? (fun e2 => startsWith (e.1 ++ r) e2.1) = some e := by
  have hamp : ∀ x : Str, startsWith ('a' :: x) (str "amp;") = startsWith ('a' :: x) (str "amp;") := fun _ => rfl
  rcases entity_cases he with rfl | rfl | rfl | rfl | rfl
  · simp only [ENTITIES, List.find?, startsWith_append_self]
  · have h1 : startsWith ((str "lt;") ++ r) (str "amp;") = false := by
      rw [show (str "lt;") ++ r = 'l' :: (str "t;" ++ r) from rfl,
        show str "amp;" = 'a' :: str "mp;" from rfl]
      exact startsWith_cons_ne (by decide) _ _
    simp only [ENTITIES, List.find?, h1, startsWith_append_self]
  · have h1 : startsWith ((str "gt;") ++ r) (str "amp;") = false := by
      rw [show (str "gt;") ++ r = 'g' :: (str "t;" ++ r) from rfl,
        show str "amp;" = 'a' :: str "mp;" from rfl]
      exact startsWith_cons_ne (by decide) _ _
    have h2 : startsWith ((str "gt;") ++ r) (str "lt;") = false := by
      rw [show (str "gt;") ++ r = 'g' :: (str "t;" ++ r) from rfl,
        show str "lt;" = 'l' :: str "t;" from rfl]
      exact startsWith_cons_ne (by decide) _ _
    simp only [ENTITIES, List.find?, h1, h2, startsWith_append_self]
  · have h1 : startsWith ((str "quot;") ++ r) (str "amp;") = false := by
      rw [show (str "quot;") ++ r = 'q' :: (str "uot;" ++ r) from rfl,
        show str "amp;" = 'a' :: str "mp;" from rfl]
      exact startsWith_cons_ne (by decide) _ _
    have h2 : startsWith ((str "quot;") ++ r) (str "lt;") = false := by
      rw [show (str "quot;") ++ r = 'q' :: (str "uot;" ++ r) from rfl,
        show str "lt;" = 'l' :: str "t;" from rfl]
      exact startsWith_cons_ne (by decide) _ _
    have h3 : startsWith ((str "quot;") ++ r) (str "gt;") = false := by
      rw [show (str "quot;") ++ r = 'q' :: (str "uot;" ++ r) from rfl,
        show str "gt;" = 'g' :: str "t;" from rfl]
      exact startsWith_cons_ne (by decide) _ _
    simp only [ENTITIES, List.find?, h1, h2, h3, startsWith_append_self]
  · have h1 : startsWith ((str "#x27;") ++ r) (str "amp;") = false := by
      rw [show (str "#x27;") ++ r = '#' :: (str "x27;" ++ r) from rfl,
        show str "amp;" = 'a' :: str "mp;" from rfl]
      exact startsWith_cons_ne (by decide) _ _
    have h2 : startsWith ((str "#x27;") ++ r) (str "lt;") = false := by
      rw [show (str "#x27;") ++ r = '#' :: (str "x27;" ++ r) from rfl,
        show str "lt;" = 'l' :: str "t;" from rfl]
      exact startsWith_cons_ne (by decide) _ _
    have h3 : startsWith ((str "#x27;") ++ r) (str "gt;") = false := by
      rw [show (str "#x27;") ++ r = '#' :: (str "x27;" ++ r) from rfl,
        show str "gt;" = 'g' :: str "t;" from rfl]
      exact startsWith_cons_ne (by decide) _ _
    have h4 : startsWith ((str "#x27;") ++ r) (str "quot;") = false := by
      rw [show (str "#x27;") ++ r = '#' :: (str "x27;" ++ r) from rfl,
        show str "quot;" = 'q' :: str "uot;" from rfl]
      exact startsWith_cons_ne (by decide) _ _
    simp only [ENTITIES, List.find?, h1, h2, h3, h4, startsWith_append_self]

theorem unescape5_render : ∀ {toks : List Tok},
    (∀ t ∈ toks, wfTok t ∧ nonTag t = true) →
    unescape5 (renderList toks) = toks.map visChar := by
  intro toks
  rw [unescape5]
  induction toks with
  | nil => intro _; rfl
  | cons t ts ih =>
    intro h
    have wt := h t (List.mem_cons_self t ts)
    have wts : ∀ u ∈ ts, wfTok u ∧ nonTag u = true :=
      fun u hu => h u (List.mem_cons_of_mem t hu)
    rw [renderList_cons]
    cases t with
    | tOpen name attrs => simp [nonTag] at wt
    | tClose name => simp [nonTag] at wt
    | chr c =>
      rw [show renderTok (Tok.chr c) = [c] from rfl, List.singleton_append, List.length_cons]
      rw [unescape5F_succ_cons, if_neg wt.1.2, ih wts]
      rfl
    | ent e =>
      rw [show renderTok (Tok.ent e) ++ renderList ts
          = '&' :: (e.1 ++ renderList ts) from rfl]
      rw [List.length_cons, unescape5F_succ_cons, if_pos rfl]
      rw [ENTITIES_find_self wt.1 (renderList ts)]
      show e.2 :: unescape5F (e.1 ++ renderList ts).length
          ((e.1 ++ renderList ts).drop e.1.length) = _
      rw [List.drop_left]
      rw [unescape5F_fuel_inv _ (renderList ts) (renderList ts).length (by simp) (le_refl _)]
      rw [ih wts]
      rfl

theorem vis_render {toks : List Tok} (w : wfToks toks) :
    visible_length (renderList toks) = visCount toks := by
  rw [visible_length, brSub_render w, stripTags_render w]
  rw [unescape5_render (fun t ht => ⟨w t (List.mem_filter.mp ht).1,
    (List.mem_filter.mp ht).2⟩)]
  rw [List.length_map, visCount]

/- ===================================================================
   The truncation scanner on a well-formed render
   =================================================================== -/

theorem truncLoopF_succ_cons (fuel : Nat) (c : Char) (rest : Str) (openTags : List Str)
    (acc : Str) (count target : Nat) :
    truncLoopF (fuel + 1) (c :: rest) openTags acc count target =
      if ¬ (count < target) then (acc, openTags)
      else if c = '<' then
        (match findChar '>' rest with
         | none => (acc, openTags)
         | some (body, after) =>
           truncLoopF fuel after (tagStackStep body openTags)
             (acc ++ '<' :: body ++ ['>']) count target)
      else if c = '&' then
        (match findChar ';' rest with
         | none =>
           if target < count + 1 then (acc, openTags)
           else truncLoopF fuel rest openTags (acc ++ [c]) (count + 1) target
         | some (body, after) =>
           if target < count + 1 then (acc, openTags)
           else truncLoopF fuel after openTags (acc ++ '&' :: body ++ [';']) (count + 1) target)
      else
        if target < count + 1 then (acc, openTags)
        else truncLoopF fuel rest openTags (acc ++ [c]) (count + 1) target := rfl

theorem tagName_firstWordLower {name : Str} (h : name ∈ tagNames) :
    firstWordLower name = name := by
  rcases tagNames_cases h with rfl | rfl | rfl | rfl <;> decide

theorem tagName_startsWith_slash {name : Str} (h : name ∈ tagNames) (attrs : Str) :
    startsWith (name ++ attrs) (str "/") = false := by
  rcases tagNames_cases h with rfl | rfl | rfl | rfl <;>
    exact startsWith_cons_ne (by decide) _ _

theorem tagName_not_void {name : Str} (h : name ∈ tagNames) :
    VOID_TAGS.contains name = false := by
  rcases tagNames_cases h with rfl | rfl | rfl | rfl <;> decide

theorem tagStackStep_open {name attrs : Str} (hw : wfTok (Tok.tOpen name attrs))
    (st : List Str) : tagStackStep (name ++ attrs) st = name :: st := by
  obtain ⟨hname, hgt, hlt, hstrip, hfwl, hends, hlead⟩ := hw
  have hne : name ++ attrs ≠ [] := by
    intro hcon
    exact tagName_ne_nil hname (List.append_eq_nil.mp hcon).1
  have hnn : name ≠ [] := tagName_ne_nil hname
  rw [tagStackStep]
  simp only [hstrip, tagName_startsWith_slash hname attrs, hends,
    tagName_not_void hname, hfwl, Bool.false_eq_true, if_false, ite_false, ne_eq, hne,
    not_false_eq_true, if_true, ite_true, or_self, and_true, not_false_iff]
  rw [if_pos ⟨by simp, hnn⟩]

theorem tagStackStep_close {name : Str} (hname : name ∈ tagNames) (st : List Str) :
    tagStackStep ('/' :: name) st = scanStackTok st (Tok.tClose name) := by
  have hstrip : pyStrip ('/' :: name) = '/' :: name := by
    rcases tagNames_cases hname with rfl | rfl | rfl | rfl <;> decide
  have hsw : startsWith ('/' :: name) (str "/") = true := by
    simp [startsWith, List.isPrefixOf]
  rw [tagStackStep]
  simp only [hstrip, hsw, List.drop_one, List.tail_cons, ite_true, if_true,
    tagName_firstWordLower hname, ne_eq, if_pos rfl]
  rw [if_pos (by intro hcon; cases hcon)]
  rfl

theorem renderTok_cons_shape (t : Tok) : ∃ c r, renderTok t = c :: r := by
  cases t with
  | tOpen n a2 => exact ⟨'<', _, rfl⟩
  | tClose n => exact ⟨'<', _, rfl⟩
  | ent e => exact ⟨'&', _, rfl⟩
  | chr c => exact ⟨c, [], rfl⟩

theorem truncLoop_render : ∀ (toks : List Tok), wfToks toks →
    ∀ (fuel : Nat), (renderList toks).length ≤ fuel →
    ∀ (st : List Str) (acc : Str) (count target : Nat),
    ∃ p q, toks = p ++ q ∧
      truncLoopF fuel (renderList toks) st acc count target
        = (acc ++ renderList p, List.foldl scanStackTok st p) ∧
      count + visCount p ≤ max count target := by
  intro toks
  induction toks with
  | nil =>
    intro _ fuel _ st acc count target
    refine ⟨[], [], rfl, ?_, ?_⟩
    · cases fuel <;> simp [truncLoopF, renderList]
    · simpa [visCount] using Nat.le_max_left count target
  | cons t ts ih =>
    intro w fuel hfuel st acc count target
    have wt : wfTok t := w t (List.mem_cons_self t ts)
    have wts : wfToks ts := fun u hu => w u (List.mem_cons_of_mem t hu)
    obtain ⟨c0, r0, hc0⟩ := renderTok_cons_shape t
    obtain ⟨f, rfl⟩ : ∃ f, fuel = f + 1 := by
      cases fuel with
      | zero =>
        rw [renderList_cons, hc0] at hfuel
        simp at hfuel
      | succ f => exact ⟨f, rfl⟩
    by_cases hct : count < target
    · cases t with
      | chr c =>
        have hR : (renderList ts).length ≤ f := by
          rw [renderList_cons, show renderTok (Tok.chr c) = [c] from rfl] at hfuel
          simpa using hfuel
        rw [renderList_cons, show renderTok (Tok.chr c) = [c] from rfl,
          List.singleton_append]
        rw [truncLoopF_succ_cons, if_neg (not_not_intro hct), if_neg wt.1, if_neg wt.2,
          if_neg (by omega)]
        obtain ⟨p, q, heq, hres, hcnt⟩ := ih wts f hR st (acc ++ [c]) (count + 1) target
        refine ⟨Tok.chr c :: p, q, by rw [heq]; rfl, ?_, ?_⟩
        · rw [hres]
          simp [renderList_cons, renderTok, List.append_assoc, List.foldl_cons, scanStackTok]
        · have hnt : nonTag (Tok.chr c) = true := rfl
          rw [visCount_cons_vis hnt]
          omega
      | ent e =>
        obtain ⟨pre, hpre, hns⟩ := entity_split wt
        have hshape : renderList (Tok.ent e :: ts) = '&' :: (pre ++ ';' :: renderList ts) := by
          rw [renderList_cons, show renderTok (Tok.ent e) = '&' :: e.1 from rfl, hpre]
          simp
        have hRlen : (renderList ts).length ≤ f := by
          rw [hshape] at hfuel
          simp [List.length_append] at hfuel
          omega
        obtain ⟨p, q, heq, hres, hcnt⟩ :=
          ih wts f hRlen st (acc ++ '&' :: pre ++ [';']) (count + 1) target
        refine ⟨Tok.ent e :: p, q, by rw [heq]; rfl, ?_, ?_⟩
        · rw [hshape, truncLoopF_succ_cons, if_neg (not_not_intro hct),
            if_neg (by decide), if_pos rfl]
          rw [findSub_char_first hns (renderList ts)]
          show (if target < count + 1 then (acc, st)
              else truncLoopF f (renderList ts) st (acc ++ '&' :: pre ++ [';'])
                (count + 1) target) = _
          rw [if_neg (by omega), hres]
          simp [renderList_cons, renderTok, hpre, List.append_assoc, List.foldl_cons,
            scanStackTok]
        · have hnt : nonTag (Tok.ent e) = true := rfl
          rw [visCount_cons_vis hnt]
          omega
      | tOpen name attrs =>
        obtain ⟨hname, hgt, hlt, hstrip, hfwl, hends, hlead⟩ := wt
        have hnotin : '>' ∉ name ++ attrs := by
          intro hmem
          rcases List.mem_append.mp hmem with h3 | h3
          · exact (tagName_no_angle hname '>' h3).2 rfl
          · exact hgt h3
        have hshape : renderList (Tok.tOpen name attrs :: ts)
            = '<' :: ((name ++ attrs) ++ '>' :: renderList ts) := by
          rw [renderList_cons]
          simp [renderTok]
        have hRlen : (renderList ts).length ≤ f := by
          rw [hshape] at hfuel
          simp [List.length_append] at hfuel
          omega
        obtain ⟨p, q, heq, hres, hcnt⟩ := ih wts f hRlen (name :: st)
          (acc ++ '<' :: (name ++ attrs) ++ ['>']) count target
        refine ⟨Tok.tOpen name attrs :: p, q, by rw [heq]; rfl, ?_, ?_⟩
        · rw [hshape, truncLoopF_succ_cons, if_neg (not_not_intro hct), if_pos rfl]
          rw [findSub_char_first hnotin (renderList ts)]
          show truncLoopF f (renderList ts) (tagStackStep (name ++ attrs) st)
              (acc ++ '<' :: (name ++ attrs) ++ ['>']) count target = _
          rw [tagStackStep_open ⟨hname, hgt, hlt, hstrip, hfwl, hends, hlead⟩ st, hres]
          simp [renderList_cons, renderTok, List.append_assoc, List.foldl_cons, scanStackTok]
        · have hnt : nonTag (Tok.tOpen name attrs) = false := rfl
          rw [visCount_cons_tag hnt]
          exact hcnt
      | tClose name =>
        have hname : name ∈ tagNames := wt
        have hnotin : '>' ∉ '/' :: name := by
          intro hmem
          rcases List.mem_cons.mp hmem with heq2 | h3
          · cases heq2
          · exact (tagName_no_angle hname '>' h3).2 rfl
        have hshape : renderList (Tok.tClose name :: ts)
            = '<' :: (('/' :: name) ++ '>' :: renderList ts) := by
          rw [renderList_cons]
          simp [renderTok]
        have hRlen : (renderList ts).length ≤ f := by
          rw [hshape] at hfuel
          simp [List.length_append] at hfuel
          omega
        obtain ⟨p, q, heq, hres, hcnt⟩ := ih wts f hRlen (scanStackTok st (Tok.tClose name))
          (acc ++ '<' :: ('/' :: name) ++ ['>']) count target
        refine ⟨Tok.tClose name :: p, q, by rw [heq]; rfl, ?_, ?_⟩
        · rw [hshape, truncLoopF_succ_cons, if_neg (not_not_intro hct), if_pos rfl]
          rw [findSub_char_first hnotin (renderList ts)]
          show truncLoopF f (renderList ts) (tagStackStep ('/' :: name) st)
              (acc ++ '<' :: ('/' :: name) ++ ['>']) count target = _
          rw [tagStackStep_close hname st, hres]
          simp [renderList_cons, renderTok, List.append_assoc, List.foldl_cons, scanStackTok]
        · have hnt : nonTag (Tok.tClose name) = false := rfl
          rw [visCount_cons_tag hnt]
          exact hcnt
    · refine ⟨[], t :: ts, rfl, ?_, ?_⟩
      · rw [renderList_cons, hc0, List.cons_append, truncLoopF_succ_cons, if_pos hct]
        simp [renderList]
      · simpa [visCount] using Nat.le_max_left count target

/- ===================================================================
   The HTML truncator preserves balance and respects the limit
   =================================================================== -/

theorem getLastD_append_single {α : Type} (l : List α) (a d : α) :
    (l ++ [a]).getLastD d = a := by
  simp [List.getLastD_eq_getLast?, List.getLast?_concat]

theorem closers_render (st : List Str) :
    st.flatMap (fun tag => str "</" ++ tag ++ str ">") = renderList (st.map Tok.tClose) := by
  induction st with
  | nil => rfl
  | cons n r ih =>
    simp only [List.flatMap_cons, List.map_cons, renderList_cons]
    rw [ih]
    rfl

theorem visCount_map_tClose (st : List Str) : visCount (st.map Tok.tClose) = 0 := by
  induction st with
  | nil => rfl
  | cons n r ih =>
    rw [List.map_cons]
    have hnt : nonTag (Tok.tClose n) = false := rfl
    rw [visCount_cons_tag hnt]
    exact ih

theorem wfToks_map_tClose {st : List Str} (h : ∀ n ∈ st, n ∈ tagNames) :
    wfToks (st.map Tok.tClose) := by
  intro t ht
  obtain ⟨n, hn, rfl⟩ := List.mem_map.mp ht
  exact h n hn

theorem nestProper_stack_names : ∀ (p : List Tok) (st stp : List Str),
    wfToks p → (∀ n ∈ st, n ∈ tagNames) → nestProper p st = some stp →
    ∀ n ∈ stp, n ∈ tagNames := by
  intro p
  induction p with
  | nil =>
    intro st stp _ hst h
    rw [nestProper] at h
    rw [Option.some_inj] at h
    exact h ▸ hst
  | cons t ts ih =>
    intro st stp w hst h
    have wt : wfTok t := w t (List.mem_cons_self t ts)
    have wts : wfToks ts := fun u hu => w u (List.mem_cons_of_mem t hu)
    cases t with
    | tOpen name attrs =>
      simp only [nestProper] at h
      refine ih (name :: st) stp wts ?_ h
      intro n hn
      rcases List.mem_cons.mp hn with rfl | hn2
      · exact wt.1
      · exact hst n hn2
    | tClose name =>
      cases st with
      | nil => simp [nestProper] at h
      | cons hd r =>
        by_cases hn : hd = name
        · subst hn
          simp only [nestProper, if_pos rfl] at h
          exact ih r stp wts (fun n hn2 => hst n (List.mem_cons_of_mem hd hn2)) h
        · simp [nestProper, hn] at h
    | ent e =>
      simp only [nestProper] at h
      exact ih st stp wts hst h
    | chr c =>
      simp only [nestProper] at h
      exact ih st stp wts hst h

theorem rstrip_last_not_ws {toks : List Tok} (w : wfToks toks) :
    renderList (rstripToks toks) = [] ∨
    isWs ((renderList (rstripToks toks)).getLastD ' ') = false := by
  cases hdw : toks.reverse.dropWhile isWsChr with
  | nil =>
    left
    rw [rstripToks, hdw]
    rfl
  | cons h t =>
    right
    have hmem : h ∈ toks := by
      have h1 : h ∈ toks.reverse.dropWhile isWsChr := by
        rw [hdw]
        exact List.mem_cons_self h t
      have h2 := (List.dropWhile_sublist (l := toks.reverse) (p := isWsChr)).subset h1
      rwa [List.mem_reverse] at h2
    have hwf : wfTok h := w h hmem
    have hws : isWsChr h = false := dropWhile_head_not isWsChr toks.reverse h t hdw
    obtain ⟨r, c, hrc, hcws⟩ := renderTok_last_not_ws hwf hws
    rw [rstripToks, hdw, List.reverse_cons, renderList_append]
    rw [show renderList [h] = renderTok h from by simp [renderList]]
    rw [hrc, ← List.append_assoc, getLastD_append_single]
    exact hcws

theorem truncF_render (rfuel : Nat) (toks : List Tok) (limit : Int)
    (w : wfToks toks) (hp : nestProper toks [] = some []) :
    ∃ toks2, truncF rfuel (renderList toks) limit = renderList toks2 ∧
      wfToks toks2 ∧ nestProper toks2 [] = some [] ∧
      (visible_length (renderList toks2) : Int) ≤ max limit 0 := by
  cases rfuel with
  | zero =>
    refine ⟨[], rfl, wfToks_nil, rfl, ?_⟩
    rw [vis_render wfToks_nil]
    simp [visCount]
  | succ rf =>
    rw [truncF]
    by_cases h0 : limit ≤ 0
    · rw [if_pos h0]
      refine ⟨[], rfl, wfToks_nil, rfl, ?_⟩
      rw [vis_render wfToks_nil]
      simp [visCount]
    · rw [if_neg h0]
      by_cases hvis : (visible_length (renderList toks) : Int) ≤ limit
      · rw [if_pos hvis]
        refine ⟨toks, rfl, w, hp, ?_⟩
        omega
      · rw [if_neg hvis]
        obtain ⟨pp, qq, heq, hres, hcnt⟩ := truncLoop_render toks w
          (renderList toks).length (le_refl _) [] [] 0 (max (limit - 1) 0).toNat
        have wfpp : wfToks pp := fun t ht => w t (heq ▸ List.mem_append_left qq ht)
        have hcount : visCount pp ≤ (max (limit - 1) 0).toNat := by
          simpa using hcnt
        -- the stack after the scan is the proper-nesting stack of the prefix
        have happ := nestProper_append pp qq []
        rw [← heq, hp] at happ
        obtain ⟨stp, hpp⟩ : ∃ stp, nestProper pp [] = some stp := by
          cases hx : nestProper pp [] with
          | none => rw [hx] at happ; cases happ
          | some y => exact ⟨y, rfl⟩
        have hstack : List.foldl scanStackTok [] pp = stp := scanStack_agree pp [] stp hpp
        have hnames : ∀ n ∈ stp, n ∈ tagNames :=
          nestProper_stack_names pp [] stp wfpp (by intro n hn; cases hn) hpp
        have hq : nestProper qq stp = some [] := by
          rw [hpp] at happ
          exact happ.symm
        -- visible length of the scanned prefix stays within the target
        have hvis1 : visible_length (renderList (rstripToks pp))
            = visCount (rstripToks pp) := vis_render (wfToks_rstrip wfpp)
        have hrle : visCount (rstripToks pp) ≤ visCount pp := visCount_rstrip_le pp
        have htm : ((max (limit - 1) 0).toNat : Int) = max (limit - 1) 0 :=
          Int.toNat_of_nonneg (le_max_right _ _)
        have hguard : ¬ (0 < max (limit - 1) 0 ∧
            max (limit - 1) 0 < (visible_length (pyRStrip (renderList pp)) : Int)) := by
          rw [renderList_rstrip wfpp, hvis1]
          intro hcon
          have := hcon.2
          omega
        simp only [hres, List.nil_append]
        rw [if_neg hguard]
        rw [renderList_rstrip wfpp, hstack, closers_render]
        have hprstrip : nestProper (rstripToks pp) [] = some stp := nestProper_rstrip hpp
        by_cases hell : endsWith (renderList (rstripToks pp)) (str "…") = true
        · rw [if_neg (by simp [hell])]
          refine ⟨rstripToks pp ++ stp.map Tok.tClose, ?_, ?_, ?_, ?_⟩
          · rw [renderList_append]
          · exact wfToks_append (wfToks_rstrip wfpp) (wfToks_map_tClose hnames)
          · rw [nestProper_append, hprstrip]
            exact nestProper_closers stp
          · rw [vis_render (wfToks_append (wfToks_rstrip wfpp) (wfToks_map_tClose hnames))]
            rw [visCount_append, visCount_map_tClose]
            omega
        · rw [if_pos (by simp [hell])]
          rw [renderList_rstrip (wfToks_rstrip wfpp)]
          have hlast := rstrip_last_not_ws (wfToks_rstrip wfpp)
          have hinner : ¬ (renderList (rstripToks (rstripToks pp)) ≠ [] ∧
              isWs ((renderList (rstripToks (rstripToks pp))).getLastD ' ') = true) := by
            rcases hlast with hnil | hnws
            · intro hcon
              exact hcon.1 hnil
            · intro hcon
              rw [hnws] at hcon
              exact Bool.false_ne_true hcon.2
          rw [if_neg hinner]
          have wfr2 : wfToks (rstripToks (rstripToks pp)) :=
            wfToks_rstrip (wfToks_rstrip wfpp)
          have hell2 : wfToks (rstripToks (rstripToks pp) ++ [Tok.chr '…']) := by
            refine wfToks_append wfr2 ?_
            intro t ht
            rcases List.mem_singleton.mp ht with rfl
            exact ⟨by decide, by decide⟩
          have hwfin : wfToks ((rstripToks (rstripToks pp) ++ [Tok.chr '…'])
              ++ stp.map Tok.tClose) :=
            wfToks_append hell2 (wfToks_map_tClose hnames)
          refine ⟨(rstripToks (rstripToks pp) ++ [Tok.chr '…']) ++ stp.map Tok.tClose,
            ?_, hwfin, ?_, ?_⟩
          · rw [renderList_append, renderList_append]
            rfl
          · have hchr : nestProper [Tok.chr '…'] stp = some stp := by
              refine nestProper_neutral ?_ stp
              intro t ht
              rcases List.mem_singleton.mp ht with rfl
              rfl
            rw [nestProper_append]
            rw [show nestProper (rstripToks (rstripToks pp) ++ [Tok.chr '…']) []
                = some stp from by
              rw [nestProper_append, nestProper_rstrip hprstrip]
              exact hchr]
            exact nestProper_closers stp
          · rw [vis_render hwfin, visCount_append, visCount_append, visCount_map_tClose]
            have hr2le : visCount (rstripToks (rstripToks pp))
                ≤ visCount (rstripToks pp) := visCount_rstrip_le _
            have hone : visCount [Tok.chr '…'] = 1 := rfl
            omega

/- ===================================================================
   The balance checker accepts well-formed proper renders
   =================================================================== -/

theorem trunc_html_bal {s : Str} (h : BalFrag s) (limit : Int) :
    BalFrag (truncate_html_preserving_tags s limit) ∧
    (visible_length (truncate_html_preserving_tags s limit) : Int) ≤ max limit 0 := by
  obtain ⟨toks, rfl, w, p⟩ := h
  obtain ⟨toks2, heq, w2, p2, hv⟩ := truncF_render (limit.toNat + 1) toks limit w p
  rw [truncate_html_preserving_tags, heq]
  exact ⟨⟨toks2, rfl, w2, p2⟩, hv⟩

theorem trunc_html_id {s : Str} {limit : Int} (h0 : 0 < limit)
    (hv : (visible_length s : Int) ≤ limit) :
    truncate_html_preserving_tags s limit = s := by
  rw [truncate_html_preserving_tags, truncF]
  rw [if_neg (by omega), if_pos hv]

theorem balScanF_succ_cons (fuel : Nat) (c : Char) (rest : Str) (st : List Str) :
    balScanF (fuel + 1) (c :: rest) st =
      if c = '<' then
        (match findChar '>' rest with
         | none => false
         | some (body, after) =>
           if pyStrip body = [] then balScanF fuel after st
           else
             let is_closing := startsWith (pyStrip body) (str "/")
             let tag_name := firstWordLower
               (if is_closing then (pyStrip body).drop 1 else pyStrip body)
             let is_self_closing := endsWith (pyStrip body) (str "/") ∨
               VOID_TAGS.contains tag_name
             if is_closing then
               (match st with
                | t :: ts => if t = tag_name then balScanF fuel after ts else false
                | [] => false)
             else if ¬ is_self_closing ∧ tag_name ≠ [] then
               balScanF fuel after (tag_name :: st)
             else balScanF fuel after st)
      else balScanF fuel rest st := rfl

theorem balScanF_skip : ∀ {s1 : Str}, (∀ c ∈ s1, c ≠ '<') →
    ∀ (s2 : Str) (st : List Str) (fuel : Nat),
    balScanF (fuel + s1.length) (s1 ++ s2) st = balScanF fuel s2 st := by
  intro s1
  induction s1 with
  | nil => intro _ s2 st fuel; simp
  | cons c t ihs =>
    intro h s2 st fuel
    have hc : c ≠ '<' := h c (List.mem_cons_self c t)
    have ht : ∀ x ∈ t, x ≠ '<' := fun x hx => h x (List.mem_cons_of_mem c hx)
    have hlen : fuel + (c :: t).length = (fuel + t.length) + 1 := by
      simp [List.length_cons]
      omega
    rw [hlen, List.cons_append, balScanF_succ_cons, if_neg hc]
    exact ihs ht s2 st fuel

theorem balTag_open {name attrs : Str} (hw : wfTok (Tok.tOpen name attrs)) (fuel : Nat)
    (after : Str) (st : List Str) :
    (if pyStrip (name ++ attrs) = [] then balScanF fuel after st
     else
       let is_closing := startsWith (pyStrip (name ++ attrs)) (str "/")
       let tag_name := firstWordLower
         (if is_closing then (pyStrip (name ++ attrs)).drop 1 else pyStrip (name ++ attrs))
       let is_self_closing := endsWith (pyStrip (name ++ attrs)) (str "/") ∨
         VOID_TAGS.contains tag_name
       if is_closing then
         (match st with
          | t :: ts => if t = tag_name then balScanF fuel after ts else false
          | [] => false)
       else if ¬ is_self_closing ∧ tag_name ≠ [] then balScanF fuel after (tag_name :: st)
       else balScanF fuel after st)
    = balScanF fuel after (name :: st) := by
  obtain ⟨hname, hgt, hlt, hstrip, hfwl, hends, hlead⟩ := hw
  have hne : name ++ attrs ≠ [] := by
    intro hcon
    exact tagName_ne_nil hname (List.append_eq_nil.mp hcon).1
  have hnn : name ≠ [] := tagName_ne_nil hname
  simp only [hstrip, tagName_startsWith_slash hname attrs, hends,
    tagName_not_void hname, hfwl, Bool.false_eq_true, if_false, ite_false, ne_eq, hne,
    not_false_eq_true, if_true, ite_true, or_self, and_true]
  rw [if_pos ⟨trivial, hnn⟩]

theorem balTag_close {name : Str} (hname : name ∈ tagNames) (fuel : Nat)
    (after : Str) (st : List Str) :
    (if pyStrip ('/' :: name) = [] then balScanF fuel after st
     else
       let is_closing := startsWith (pyStrip ('/' :: name)) (str "/")
       let tag_name := firstWordLower
         (if is_closing then (pyStrip ('/' :: name)).drop 1 else pyStrip ('/' :: name))
       let is_self_closing := endsWith (pyStrip ('/' :: name)) (str "/") ∨
         VOID_TAGS.contains tag_name
       if is_closing then
         (match st with
          | t :: ts => if t = tag_name then balScanF fuel after ts else false
          | [] => false)
       else if ¬ is_self_closing ∧ tag_name ≠ [] then balScanF fuel after (tag_name :: st)
       else balScanF fuel after st)
    = (match st with
       | t :: ts => if t = name then balScanF fuel after ts else false
       | [] => false) := by
  have hstrip : pyStrip ('/' :: name) = '/' :: name := by
    rcases tagNames_cases hname with rfl | rfl | rfl | rfl <;> decide
  have hsw : startsWith ('/' :: name) (str "/") = true := by
    simp [startsWith, List.isPrefixOf]
  have hnil : ('/' :: name : Str) ≠ [] := by
    intro hcon
    cases hcon
  simp only [hstrip, hsw, List.drop_one, List.tail_cons, ite_true, if_true,
    tagName_firstWordLower hname, ne_eq]
  rw [if_neg hnil]

theorem balScan_render : ∀ (toks : List Tok), wfToks toks →
    ∀ (fuel : Nat), (renderList toks).length ≤ fuel → ∀ (st : List Str),
    balScanF fuel (renderList toks) st =
      (match nestProper toks st with
       | some st2 => st2.isEmpty
       | none => false) := by
  intro toks
  induction toks with
  | nil =>
    intro _ fuel _ st
    cases fuel <;> rfl
  | cons t ts ih =>
    intro w fuel hfuel st
    have wt : wfTok t := w t (List.mem_cons_self t ts)
    have wts : wfToks ts := fun u hu => w u (List.mem_cons_of_mem t hu)
    obtain ⟨c0, r0, hc0⟩ := renderTok_cons_shape t
    obtain ⟨f, rfl⟩ : ∃ f, fuel = f + 1 := by
      cases fuel with
      | zero =>
        rw [renderList_cons, hc0] at hfuel
        simp at hfuel
      | succ f => exact ⟨f, rfl⟩
    cases t with
    | chr c =>
      have hR : (renderList ts).length ≤ f := by
        rw [renderList_cons, show renderTok (Tok.chr c) = [c] from rfl] at hfuel
        simpa using hfuel
      rw [renderList_cons, show renderTok (Tok.chr c) = [c] from rfl,
        List.singleton_append, balScanF_succ_cons, if_neg wt.1, ih wts f hR st]
      rfl
    | ent e =>
      have hfree : ∀ c ∈ renderTok (Tok.ent e), c ≠ '<' := by
        intro c hc
        rcases List.mem_cons.mp hc with rfl | hc2
        · decide
        · exact (entity_no_special wt c hc2).1
      obtain ⟨f2, hf2a, hf2b⟩ : ∃ f2, f + 1 = f2 + (renderTok (Tok.ent e)).length ∧
          (renderList ts).length ≤ f2 := by
        refine ⟨f + 1 - (renderTok (Tok.ent e)).length, ?_, ?_⟩ <;>
          (rw [renderList_cons] at hfuel
           simp [List.length_append] at hfuel ⊢
           omega)
      rw [renderList_cons, hf2a, balScanF_skip hfree (renderList ts) st f2]
      rw [ih wts f2 hf2b st]
      rfl
    | tOpen name attrs =>
      obtain ⟨hname, hgt, hlt, hstrip, hfwl, hends, hlead⟩ := wt
      have hnotin : '>' ∉ name ++ attrs := by
        intro hmem
        rcases List.mem_append.mp hmem with h3 | h3
        · exact (tagName_no_angle hname '>' h3).2 rfl
        · exact hgt h3
      have hshape : renderList (Tok.tOpen name attrs :: ts)
          = '<' :: ((name ++ attrs) ++ '>' :: renderList ts) := by
        rw [renderList_cons]
        simp [renderTok]
      have hR : (renderList ts).length ≤ f := by
        rw [hshape] at hfuel
        simp [List.length_append] at hfuel
        omega
      rw [hshape, balScanF_succ_cons, if_pos rfl]
      rw [findSub_char_first hnotin (renderList ts)]
      show (if pyStrip (name ++ attrs) = [] then balScanF f (renderList ts) st
          else
            let is_closing := startsWith (pyStrip (name ++ attrs)) (str "/")
            let tag_name := firstWordLower
              (if is_closing then (pyStrip (name ++ attrs)).drop 1
               else pyStrip (name ++ attrs))
            let is_self_closing := endsWith (pyStrip (name ++ attrs)) (str "/") ∨
              VOID_TAGS.contains tag_name
            if is_closing then
              (match st with
               | t :: ts2 => if t = tag_name then balScanF f (renderList ts) ts2 else false
               | [] => false)
            else if ¬ is_self_closing ∧ tag_name ≠ [] then
              balScanF f (renderList ts) (tag_name :: st)
            else balScanF f (renderList ts) st) = _
      rw [balTag_open ⟨hname, hgt, hlt, hstrip, hfwl, hends, hlead⟩ f (renderList ts) st]
      rw [ih wts f hR (name :: st)]
      rfl
    | tClose name =>
      have hname : name ∈ tagNames := wt
      have hnotin : '>' ∉ '/' :: name := by
        intro hmem
        rcases List.mem_cons.mp hmem with heq2 | h3
        · cases heq2
        · exact (tagName_no_angle hname '>' h3).2 rfl
      have hshape : renderList (Tok.tClose name :: ts)
          = '<' :: (('/' :: name) ++ '>' :: renderList ts) := by
        rw [renderList_cons]
        simp [renderTok]
      have hR : (renderList ts).length ≤ f := by
        rw [hshape] at hfuel
        simp [List.length_append] at hfuel
        omega
      rw [hshape, balScanF_succ_cons, if_pos rfl]
      rw [findSub_char_first hnotin (renderList ts)]
      show (if pyStrip ('/' :: name) = [] then balScanF f (renderList ts) st
          else
            let is_closing := startsWith (pyStrip ('/' :: name)) (str "/")
            let tag_name := firstWordLower
              (if is_closing then (pyStrip ('/' :: name)).drop 1
               else pyStrip ('/' :: name))
            let is_self_closing := endsWith (pyStrip ('/' :: name)) (str "/") ∨
              VOID_TAGS.contains tag_name
            if is_closing then
              (match st with
               | t :: ts2 => if t = tag_name then balScanF f (renderList ts) ts2 else false
               | [] => false)
            else if ¬ is_self_closing ∧ tag_name ≠ [] then
              balScanF f (renderList ts) (tag_name :: st)
            else balScanF f (renderList ts) st) = _
      rw [balTag_close hname f (renderList ts) st]
      cases st with
      | nil => rfl
      | cons hd2 r =>
        show (if hd2 = name then balScanF f (renderList ts) r else false) = _
        by_cases hn : hd2 = name
        · subst hn
          rw [if_pos rfl, ih wts f hR r]
          simp [nestProper]
        · rw [if_neg hn]
          simp [nestProper, hn]

theorem balancedHtml_balFrag {s : Str} (h : BalFrag s) : balancedHtml s = true := by
  obtain ⟨toks, rfl, w, p⟩ := h
  rw [balancedHtml, balScan_render toks w _ (le_refl _) [], p]
  rfl

/- ===================================================================
   Splitting an escaped text fragment into words keeps it a text fragment
   =================================================================== -/

theorem map_id_of_mem {α : Type} {f : α → α} : ∀ {l : List α}, (∀ x ∈ l, f x = x) →
    l.map f = l := by
  intro l
  induction l with
  | nil => intro _; rfl
  | cons x xs ih =>
    intro h
    rw [List.map_cons, h x (List.mem_cons_self x xs),
      ih (fun y hy => h y (List.mem_cons_of_mem x hy))]

theorem render_map_ws {toks : List Tok} (w : wfToks toks)
    (hnt : ∀ t ∈ toks, nonTag t = true) :
    (renderList toks).map (fun c => if isWs c then ' ' else c)
      = renderList (toks.map mapWsTok) := by
  induction toks with
  | nil => rfl
  | cons t ts ih =>
    have wt : wfTok t := w t (List.mem_cons_self t ts)
    have hntt : nonTag t = true := hnt t (List.mem_cons_self t ts)
    have wts : wfToks ts := fun u hu => w u (List.mem_cons_of_mem t hu)
    have hnts : ∀ u ∈ ts, nonTag u = true := fun u hu => hnt u (List.mem_cons_of_mem t hu)
    rw [renderList_cons, List.map_append, ih wts hnts, List.map_cons, renderList_cons]
    congr 1
    cases t with
    | tOpen n a2 => simp [nonTag] at hntt
    | tClose n => simp [nonTag] at hntt
    | chr c => rfl
    | ent e =>
      show ('&' :: e.1).map (fun c => if isWs c then ' ' else c) = '&' :: e.1
      rw [List.map_cons]
      rw [show (if isWs '&' then ' ' else '&') = '&' from by decide]
      rw [map_id_of_mem (fun c hc => by simp [(entity_no_special wt c hc).2])]

theorem renderList_eq_nil {p : List Tok} (h : renderList p = []) : p = [] := by
  cases p with
  | nil => rfl
  | cons t ts =>
    obtain ⟨c, r, hc⟩ := renderTok_cons_shape t
    rw [renderList_cons, hc] at h
    cases h

theorem tokSplit_ne_nil : ∀ (toks : List Tok), tokSplit toks ≠ [] := by
  intro toks
  cases toks with
  | nil => simp [tokSplit]
  | cons t rest =>
    rw [tokSplit]
    by_cases h : t = Tok.chr ' '
    · simp [h]
    · simp only [h, ite_false, if_neg h]
      cases tokSplit rest <;> simp

theorem tokSplit_mem : ∀ (toks : List Tok) (p : List Tok), p ∈ tokSplit toks →
    ∀ t ∈ p, t ∈ toks := by
  intro toks
  induction toks with
  | nil =>
    intro p hp t ht
    rw [tokSplit] at hp
    rcases List.mem_singleton.mp hp with rfl
    cases ht
  | cons u rest ih =>
    intro p hp t ht
    rw [tokSplit] at hp
    by_cases h : u = Tok.chr ' '
    · rw [if_pos h] at hp
      rcases List.mem_cons.mp hp with rfl | hp2
      · cases ht
      · exact List.mem_cons_of_mem u (ih p hp2 t ht)
    · rw [if_neg h] at hp
      cases hsp : tokSplit rest with
      | nil => exact absurd hsp (tokSplit_ne_nil rest)
      | cons p0 ps0 =>
        rw [hsp] at hp
        rcases List.mem_cons.mp hp with rfl | hp2
        · rcases List.mem_cons.mp ht with rfl | ht2
          · exact List.mem_cons_self t rest
          · exact List.mem_cons_of_mem u (ih p0 (hsp ▸ List.mem_cons_self p0 ps0) t ht2)
        · exact List.mem_cons_of_mem u
            (ih p (hsp ▸ List.mem_cons_of_mem p0 hp2) t ht)

theorem splitOnChar_prepend {c : Char} : ∀ {s1 : Str}, c ∉ s1 →
    ∀ {s2 p : Str} {ps : List Str}, splitOnChar c s2 = p :: ps →
    splitOnChar c (s1 ++ s2) = (s1 ++ p) :: ps := by
  intro s1
  induction s1 with
  | nil =>
    intro _ s2 p ps h
    simpa using h
  | cons x t ih =>
    intro hmem s2 p ps h
    have hx : ¬ x = c := fun hc => hmem (hc ▸ List.mem_cons_self x t)
    have ht : c ∉ t := fun hc => hmem (List.mem_cons_of_mem x hc)
    rw [List.cons_append, splitOnChar_cons_ne hx, ih ht h]
    rfl

theorem splitOnChar_render {toks : List Tok} (w : wfToks toks)
    (hnt : ∀ t ∈ toks, nonTag t = true) :
    splitOnChar ' ' (renderList toks) = (tokSplit toks).map renderList := by
  induction toks with
  | nil => rfl
  | cons t ts ih =>
    have wt : wfTok t := w t (List.mem_cons_self t ts)
    have hntt : nonTag t = true := hnt t (List.mem_cons_self t ts)
    have wts : wfToks ts := fun u hu => w u (List.mem_cons_of_mem t hu)
    have hnts : ∀ u ∈ ts, nonTag u = true := fun u hu => hnt u (List.mem_cons_of_mem t hu)
    obtain ⟨p0, ps0, hsp⟩ : ∃ p0 ps0, tokSplit ts = p0 :: ps0 := by
      cases hx : tokSplit ts with
      | nil => exact absurd hx (tokSplit_ne_nil ts)
      | cons a b => exact ⟨a, b, rfl⟩
    have hsplit : splitOnChar ' ' (renderList ts) = renderList p0 :: ps0.map renderList := by
      rw [ih wts hnts, hsp, List.map_cons]
    cases t with
    | tOpen n a2 => simp [nonTag] at hntt
    | tClose n => simp [nonTag] at hntt
    | chr c =>
      by_cases hc : c = ' '
      · subst hc
        rw [renderList_cons, show renderTok (Tok.chr ' ') = [' '] from rfl,
          List.singleton_append, splitOnChar_cons_eq]
        rw [tokSplit, if_pos rfl, List.map_cons, ih wts hnts]
        rfl
      · rw [renderList_cons, show renderTok (Tok.chr c) = [c] from rfl,
          List.singleton_append, splitOnChar_cons_ne hc, hsplit]
        have htok : ¬ (Tok.chr c = Tok.chr ' ') := by
          intro hcon
          cases hcon
          exact hc rfl
        rw [tokSplit, if_neg htok, hsp]
        simp [renderList_cons, renderTok]
    | ent e =>
      have hfree : ' ' ∉ renderTok (Tok.ent e) := by
        intro hmem
        rcases List.mem_cons.mp hmem with heq | hmem2
        · cases heq
        · have := (entity_no_special wt ' ' hmem2).2
          simp [isWs] at this
      rw [renderList_cons, splitOnChar_prepend hfree hsplit]
      have htok : ¬ (Tok.ent e = Tok.chr ' ') := by
        intro hcon
        cases hcon
      rw [tokSplit, if_neg htok, hsp]
      simp [renderList_cons]

theorem filter_map_render (l : List (List Tok)) :
    (l.map renderList).filter (fun b => b ≠ [])
      = (l.filter (fun p => p ≠ [])).map renderList := by
  induction l with
  | nil => rfl
  | cons p ps ih =>
    rw [List.map_cons, List.filter_cons, List.filter_cons]
    by_cases hp : p = []
    · subst hp
      simp [renderList_nil]
      simpa using ih
    · have hr : renderList p ≠ [] := fun hcon => hp (renderList_eq_nil hcon)
      simp [hr, hp]
      simpa using ih

theorem textFrag_words {s : Str} (h : TextFrag s) : ∀ w2 ∈ pySplitWs s, TextFrag w2 := by
  obtain ⟨toks, rfl, w, hnt⟩ := h
  intro w2 hw2
  rw [pySplitWs, render_map_ws w hnt] at hw2
  have wmap : wfToks (toks.map mapWsTok) := by
    intro t ht
    obtain ⟨u, hu, rfl⟩ := List.mem_map.mp ht
    have wu : wfTok u := w u hu
    cases u with
    | tOpen n a2 => exact wu
    | tClose n => exact wu
    | ent e => exact wu
    | chr c =>
      show wfTok (Tok.chr (if isWs c then ' ' else c))
      by_cases hc : isWs c = true
      · simp only [hc, ite_true, if_pos]
        exact ⟨by decide, by decide⟩
      · simp only [hc, ite_false, if_neg]
        exact wu
  have hntmap : ∀ t ∈ toks.map mapWsTok, nonTag t = true := by
    intro t ht
    obtain ⟨u, hu, rfl⟩ := List.mem_map.mp ht
    have := hnt u hu
    cases u <;> simp_all [nonTag, mapWsTok]
  rw [splitOnChar_render wmap hntmap, filter_map_render] at hw2
  obtain ⟨p, hpmem, rfl⟩ := List.mem_map.mp hw2
  have hpsub : ∀ t ∈ p, t ∈ toks.map mapWsTok :=
    tokSplit_mem _ p (List.mem_filter.mp hpmem).1

  exact ⟨p, rfl, fun t ht => wmap t (hpsub t ht),
    fun t ht => hntmap t (hpsub t ht)⟩

/- ===================================================================
   The build_variant pipeline meets the variant contract
   =================================================================== -/

/-- The rendered subscribe-promo block is a balanced fragment. -/
theorem balFrag_subscribe_block : BalFrag subscribe_block_rendered := by
  have h := balFrag_a_wrap SUBSCRIBE_PROMO_URL
    (balFrag_b_wrap (balFrag_escape_text SUBSCRIBE_PROMO_TEXT))
  have he : subscribe_block_rendered
      = str "<a href=\"" ++ escape_attr SUBSCRIBE_PROMO_URL ++ str "\">"
        ++ (str "<b>" ++ escape_text SUBSCRIBE_PROMO_TEXT ++ str "</b>") ++ str "</a>" := by
    rw [subscribe_block_rendered]
    simp only [List.append_assoc]
  rw [he]
  exact h

/-- The "читати далі" link line is a balanced fragment for every URL. -/
theorem balFrag_link_line (url : Str) :
    BalFrag (str "<a href=\"" ++ escape_attr url ++ str "\">читати далі>></a>") := by
  have hx : BalFrag (str "читати далі>>") :=
    textFrag_balFrag (plainOk_textFrag (plainOk_decide (by decide)))
  have h := balFrag_a_wrap url hx
  have he : str "<a href=\"" ++ escape_attr url ++ str "\">читати далі>></a>"
      = str "<a href=\"" ++ escape_attr url ++ str "\">" ++ str "читати далі>>"
        ++ str "</a>" := by
    simp only [List.append_assoc]
    rfl
  rw [he]
  exact h

/-- `_truncate_before_subscribe` meets the variant contract whenever the
subscribe block is balanced, survives stripping, and fits the (positive)
total budget on its own. -/
theorem trunc_before_sub {main subscribe : Str} {total : Int}
    (hm : BalFrag main) (hs : BalFrag subscribe)
    (hsn : pyStrip subscribe ≠ [])
    (hvs : (visible_length subscribe : Int) ≤ total)
    (h0 : 0 < total) :
    variantOk total (truncate_before_subscribe main subscribe total) := by
  have hfall : variantOk total (truncate_html_preserving_tags subscribe total) := by
    rw [trunc_html_id h0 hvs]
    exact ⟨hvs, hs, fun hc => hsn (by rw [hc]; rfl)⟩
  simp only [truncate_before_subscribe]
  split
  · next hcon => exact absurd hcon hsn
  · split
    · exact hfall
    · split
      · exact hfall
      · split
        · next hg1 =>
          exact ⟨hg1, balFrag_append_block (trunc_html_bal (balFrag_pyStrip hm) _).1 hs,
            append_block_ne_nil hsn⟩
        · split
          · next hg2 =>
            exact ⟨hg2, balFrag_append_block
              (trunc_html_bal (trunc_html_bal (balFrag_pyStrip hm) _).1 _).1 hs,
              append_block_ne_nil hsn⟩
          · exact hfall

/-- Each success of the tag-word-dropping loop meets the variant contract:
the loop only ever answers with a candidate it has measured under the
budget, and every candidate is assembled from balanced pieces around the
non-stripping subscribe block. -/
theorem drop_tags_ok {header review link subscribe : Str} {total : Int}
    (hh : BalFrag header) (hr : BalFrag review) (hl : BalFrag link) (hs : BalFrag subscribe)
    (hsn : pyStrip subscribe ≠ []) :
    ∀ (k : Nat) (tokens : List Str), (∀ w2 ∈ tokens, TextFrag w2) →
      ∀ r, drop_tags_loop header review link subscribe total k tokens = some r →
      variantOk total r := by
  intro k
  induction k with
  | zero =>
    intro tokens _ r hcon
    simp only [drop_tags_loop] at hcon
    exact Option.noConfusion hcon
  | succ k ih =>
    intro tokens htk r hres
    simp only [drop_tags_loop] at hres
    split at hres
    · next hguard =>
      cases hres
      refine ⟨hguard, ?_, append_block_ne_nil hsn⟩
      refine balFrag_append_block (balFrag_join_blocks ?_) hs
      intro x hx
      simp only [List.mem_cons, List.mem_singleton, List.not_mem_nil, or_false] at hx
      rcases hx with rfl | rfl | rfl | rfl
      · exact hh
      · exact hr
      · exact hl
      · exact balFrag_joinWith (textFrag_balFrag (plainOk_textFrag (plainOk_decide (by decide))))
          (fun w2 hw2 => textFrag_balFrag (htk w2 (List.mem_of_mem_take hw2)))
    · exact ih tokens htk r hres

/-- The shrink loop of `build_variant` meets the variant contract whenever
the fixed pieces are balanced, the subscribe block survives stripping and
fits the (positive) total budget on its own, and the fuel exceeds the
starting budget (each retry shrinks the budget by at least one). -/
theorem build_variant_go_ok {header review_wt link tags subscribe : Str} {total : Int}
    (hh : BalFrag header) (hl : BalFrag link) (ht : TextFrag tags) (hs : BalFrag subscribe)
    (hsn : pyStrip subscribe ≠ []) (hvs : (visible_length subscribe : Int) ≤ total)
    (h0 : 0 < total) :
    ∀ (fuel : Nat) (limit : Int), limit.toNat < fuel →
      variantOk total (build_variant_go header review_wt link tags subscribe total fuel limit) := by
  intro fuel
  induction fuel with
  | zero =>
    intro limit hlt
    exact absurd hlt (by omega)
  | succ fuel ih =>
    intro limit hlt
    simp only [build_variant_go]
    split
    · next hguard =>
      refine ⟨hguard, ?_, append_block_ne_nil hsn⟩
      refine balFrag_append_block (balFrag_join_blocks ?_) hs
      intro x hx
      simp only [List.mem_cons, List.mem_singleton, List.not_mem_nil, or_false] at hx
      rcases hx with rfl | rfl | rfl | rfl
      · exact hh
      · exact balFrag_markdown _
      · exact hl
      · exact textFrag_balFrag ht
    · next hng =>
      split
      · next hle =>
        split
        · next r heq =>
          split at heq
          · next htn =>
            split at heq
            · next r2 heq2 =>
              cases heq
              exact drop_tags_ok hh (balFrag_markdown _) hl hs hsn _ _
                (textFrag_words ht) _ heq2
            · next heq2 =>
              split at heq
              · next hg2 =>
                cases heq
                refine ⟨hg2, ?_, append_block_ne_nil hsn⟩
                refine balFrag_append_block (balFrag_join_blocks ?_) hs
                intro x hx
                simp only [List.mem_cons, List.mem_singleton, List.not_mem_nil, or_false] at hx
                rcases hx with rfl | rfl | rfl
                · exact hh
                · exact balFrag_markdown _
                · exact hl
              · exact Option.noConfusion heq
          · exact Option.noConfusion heq
        · next heq =>
          refine trunc_before_sub ?_ hs hsn hvs h0
          refine balFrag_join_blocks ?_
          intro x hx
          simp only [List.mem_cons, List.mem_singleton, List.not_mem_nil, or_false] at hx
          rcases hx with rfl | rfl | rfl
          · exact hh
          · exact balFrag_markdown _
          · exact hl
      · next hpos =>
        refine ih _ ?_
        omega

/-- Both variants produced by `build_preview_variants` meet the variant
contract at their respective budgets (1024 with image, 4096 without). -/
theorem build_preview_ok (title review_md link_url tags : Str) :
    variantOk 1024 (build_preview_variants title review_md link_url tags).with_image ∧
    variantOk 4096 (build_preview_variants title review_md link_url tags).without_image := by
  have hh : BalFrag (str "<b>" ++ escape_text (pyStrip title) ++ str "</b>") :=
    balFrag_b_wrap (balFrag_escape_text _)
  have hl := balFrag_link_line link_url
  have ht : TextFrag (escape_text (pyStrip tags)) := textFrag_escape_text _
  have hs := balFrag_subscribe_block
  have hsn : pyStrip subscribe_block_rendered ≠ [] := by decide
  have h25 : visible_length subscribe_block_rendered = 25 := by decide
  simp only [build_preview_variants]
  constructor
  · exact build_variant_go_ok hh hl ht hs hsn (by rw [h25]; norm_num) (by norm_num) _ _
      (Nat.lt_succ_self _)
  · exact build_variant_go_ok hh hl ht hs hsn (by rw [h25]; norm_num) (by norm_num) _ _
      (Nat.lt_succ_self _)

/-- C1: for every title, body markup, link URL and tags string, the two
strings returned by `build_preview_variants` respect their hard ceilings —
the with-image variant's visible length (markup tags excluded, HTML
entities counted as one character) never exceeds 1024 and the
without-image variant's never exceeds 4096 — and both variants pass the
tag-balance scan (every tag left open by a cut is closed by the appended
closers), so neither variant contains unbalanced markup tags. -/
theorem c1_preview_ceilings_and_balance (title review_md link_url tags : Str) :
    visible_length (build_preview_variants title review_md link_url tags).with_image ≤ 1024 ∧
    visible_length (build_preview_variants title review_md link_url tags).without_image ≤ 4096 ∧
    balancedHtml (build_preview_variants title review_md link_url tags).with_image = true ∧
    balancedHtml (build_preview_variants title review_md link_url tags).without_image = true := by
  obtain ⟨⟨hv1, hb1, _⟩, ⟨hv2, hb2, _⟩⟩ := build_preview_ok title review_md link_url tags
  exact ⟨by exact_mod_cast hv1, by exact_mod_cast hv2,
    balancedHtml_balFrag hb1, balancedHtml_balFrag hb2⟩

/-- C9: for every input, including pathological ones (empty body, oversized
title, link or tags), `build_preview_variants` returns a non-empty,
budget-compliant string for both variants; the embedding is a total
function, so no input raises. -/
theorem c9_preview_nonempty_budget (title review_md link_url tags : Str) :
    (build_preview_variants title review_md link_url tags).with_image ≠ [] ∧
    (build_preview_variants title review_md link_url tags).without_image ≠ [] ∧
    visible_length (build_preview_variants title review_md link_url tags).with_image ≤ 1024 ∧
    visible_length (build_preview_variants title review_md link_url tags).without_image ≤ 4096 := by
  obtain ⟨⟨hv1, _, hn1⟩, ⟨hv2, _, hn2⟩⟩ := build_preview_ok title review_md link_url tags
  exact ⟨hn1, hn2, by exact_mod_cast hv1, by exact_mod_cast hv2⟩
